import Mathlib

/-!
BigInteger / Rational: a shallow embedding of `biginteger.h` and `rational.h`

The C++ classes are translated function by function.

* `std::vector<int>` is a `List Int`, least-significant group first, as in the source.
  Every indexed access is bounds-checked: an access outside the vector (undefined behaviour
  in C++) is the explicit result `Err.outOfBounds`.
* 32-bit `int` and 64-bit `long`/`long long` arithmetic is done on `Int` and reduced with
  `wrap32` / `wrap64` (two's-complement wrap-around) wherever the source computes or narrows
  a machine integer.  C++ `/` and `%` truncate toward zero: `Int.tdiv`, `Int.tmod`.
* Loops are structural recursions on an iteration budget.  Loops whose trip count is bounded
  by the sizes of their operands receive that bound; `find_quotient` and the long-division
  loop take the budget `fuel` from the caller, and `Err.outOfFuel` means that the source
  would still be running after that many iterations.
* `std::string` is a `List Char`.
* Resources are not modelled: `push_back` always succeeds, and a vector or string holds
  fewer than `2^31` elements, so that the `int` and `size_t` counters the source derives
  from container sizes are used as mathematical integers.
-/

set_option maxRecDepth 100000

/-! ## Machine integers -/

/-- Two's-complement reduction of an integer into the range of a 32-bit `int`. -/
def wrap32 (x : Int) : Int := (x + 2147483648) % 4294967296 - 2147483648

/-- Two's-complement reduction of an integer into the range of a 64-bit `long long`. -/
def wrap64 (x : Int) : Int := (x + 9223372036854775808) % 18446744073709551616 - 9223372036854775808

/-- Failure modes of the embedded program. -/
inductive Err where
  /-- an element access outside a vector (undefined behaviour in the source) -/
  | outOfBounds
  /-- the exception `std::invalid_argument` thrown by `std::stoi` -/
  | invalidArgument
  /-- the exception `std::out_of_range` thrown by `std::stoi` or `std::string::substr` -/
  | outOfRange
  /-- the iteration budget was used up: the source is still looping -/
  | outOfFuel
  deriving DecidableEq, Repr

deriving instance DecidableEq for Except

/-- Read `v[i]`, checked. -/
def vget (v : List Int) (i : Nat) : Except Err Int :=
  match v[i]? with
  | some x => .ok x
  | none => .error .outOfBounds

/-- Write `v[i] = x`, checked. -/
def vset (v : List Int) (i : Nat) (x : Int) : Except Err (List Int) :=
  if i < v.length then .ok (v.set i x) else .error .outOfBounds

/-- Read `v.back()`, checked. -/
def vback (v : List Int) : Except Err Int :=
  match v.getLast? with
  | some x => .ok x
  | none => .error .outOfBounds

/-- Read `v.front()`, checked. -/
def vfront (v : List Int) : Except Err Int :=
  match v.head? with
  | some x => .ok x
  | none => .error .outOfBounds

/-! ## The class `BigInteger` -/

/-- The constant `BigInteger::BASE`. -/
def BASE : Int := 1000000000

/-- The constant `BigInteger::SIZE`. -/
def SIZE : Nat := 9

/-- The enumeration `BigInteger::sign`. -/
inductive BigInteger.sign where
  | NEGATIVE
  | ZERO
  | POSITIVE
  deriving DecidableEq, Repr

/-- The conversion `static_cast<int>(sign_)`. -/
def BigInteger.sign.toInt : BigInteger.sign → Int
  | .NEGATIVE => -1
  | .ZERO => 0
  | .POSITIVE => 1

/-- The data members of `BigInteger`: the groups, least significant first, and the sign. -/
structure BigInteger where
  digits_ : List Int
  sign_ : BigInteger.sign
  deriving DecidableEq, Repr

namespace BigInteger

/-- The expression `(s == 0) ? ZERO : (s > 0 ? POSITIVE : NEGATIVE)` used to rebuild a sign
from a product of signs (the source also writes `s == 1` for `s > 0`; the product of two
signs is one of -1, 0, 1). -/
def signOfInt (s : Int) : sign :=
  if s = 0 then .ZERO else if s > 0 then .POSITIVE else .NEGATIVE

/-- The loop `while (num > 0) { digits_.push_back(num % BASE); num /= BASE; }`. -/
def ofLongLongLoop : Nat → Int → List Int → List Int
  | 0, _, digits => digits
  | fuel + 1, num, digits =>
    if num > 0 then
      ofLongLongLoop fuel (num.tdiv BASE) (digits ++ [wrap32 (num.tmod BASE)])
    else digits

/-- The constructor `BigInteger(long long num)`.  The argument is reduced into the range of
`long long`; a value below `2^63` has at most three groups, hence the budget. -/
def ofLongLong (n : Int) : BigInteger :=
  let num := wrap64 n
  let s : sign := if num > 0 then .POSITIVE else if num = 0 then .ZERO else .NEGATIVE
  let num := wrap64 (num * s.toInt)
  if num = 0 then { digits_ := [0], sign_ := s }
  else { digits_ := ofLongLongLoop 3 num [], sign_ := s }

/-- The function `operator==`. -/
def opEq (first second : BigInteger) : Bool :=
  if first.sign_ ≠ second.sign_ then false
  else if first.sign_ = .ZERO then true
  else decide (first.digits_ = second.digits_)

/-- The loop of `operator<` over `i`, comparing group `size - i - 1` of both operands.  It
is entered only when both vectors have the same size, so both reads are in range. -/
def ltLoop (first second : List Int) : Nat → Nat → Bool
  | 0, _ => false
  | fuel + 1, i =>
    if i < first.length then
      if first.getD (first.length - i - 1) 0 ≠ second.getD (first.length - i - 1) 0 then
        decide (first.getD (first.length - i - 1) 0 < second.getD (first.length - i - 1) 0)
      else ltLoop first second fuel (i + 1)
    else false

/-- The function `operator<`. -/
def opLt (first second : BigInteger) : Bool :=
  if first.sign_ ≠ second.sign_ then decide (first.sign_.toInt < second.sign_.toInt)
  else if first.digits_.length ≠ second.digits_.length then
    (decide (first.digits_.length < second.digits_.length)) == (decide (first.sign_ = .POSITIVE))
  else ltLoop first.digits_ second.digits_ first.digits_.length 0

/-- The function `operator!=`. -/
def opNe (first second : BigInteger) : Bool := !(opEq first second)

/-- The function `operator>=`. -/
def opGe (first second : BigInteger) : Bool := !(opLt first second)

/-- The function `operator>`. -/
def opGt (first second : BigInteger) : Bool := opLt second first

/-- The function `operator<=`. -/
def opLe (first second : BigInteger) : Bool := !(opLt second first)

/-- The unary `operator-`. -/
def opNeg (self : BigInteger) : BigInteger :=
  { self with sign_ := if self.sign_ = .ZERO then .ZERO
                       else if self.sign_ = .NEGATIVE then .POSITIVE else .NEGATIVE }

/-- The function `abs(const BigInteger&)`. -/
def abs (bi : BigInteger) : BigInteger :=
  if opLt bi (ofLongLong 0) then opNeg bi else bi

/-- The loop of `remove_leading_zeroes`. -/
def removeLoop : Nat → List Int → Except Err (List Int)
  | 0, _ => .error .outOfFuel
  | fuel + 1, digits => do
    let b ← vback digits
    if b = 0 ∧ digits.length > 1 then removeLoop fuel digits.dropLast
    else pure digits

/-- The method `remove_leading_zeroes`; at most `size` groups are popped. -/
def remove_leading_zeroes (self : BigInteger) : Except Err BigInteger := do
  let d ← removeLoop (self.digits_.length + 1) self.digits_
  pure { self with digits_ := d }

/-- The loop of the same-sign branch of `operator+=`: `digits` is the receiver's vector,
`other` the operand's. -/
def addLoop (other : List Int) (max_size : Nat) : Nat → Nat → Int → List Int → Except Err (List Int)
  | 0, _, _, _ => .error .outOfFuel
  | fuel + 1, i, carry, digits =>
    if i < max_size ∨ carry > 0 then
      if i ≥ max_size ∧ carry > 0 then
        pure (digits ++ [carry])
      else do
        let sum ←
          if digits.length ≥ other.length then
            if i < other.length then do
              let a ← vget digits i
              let b ← vget other i
              pure (wrap32 (wrap32 (a + b) + carry))
            else do
              let a ← vget digits i
              pure (wrap32 (a + carry))
          else
            if i < digits.length then do
              let a ← vget digits i
              let b ← vget other i
              pure (wrap32 (wrap32 (a + b) + carry))
            else do
              let b ← vget other i
              pure (wrap32 (b + carry))
        let carry := wrap32 (sum.tdiv BASE)
        let digits ←
          if digits.length ≥ other.length ∨ i < digits.length then vset digits i (wrap32 (sum.tmod BASE))
          else pure (digits ++ [wrap32 (sum.tmod BASE)])
        addLoop other max_size fuel (i + 1) carry digits
    else pure digits

/-- The same-sign branch of `operator+=`.  The loop leaves at `i = max_size` at the latest. -/
def addSameSign (self other : BigInteger) : Except Err BigInteger := do
  let max_size := max self.digits_.length other.digits_.length
  let d ← addLoop other.digits_ max_size (max_size + 1) 0 0 self.digits_
  remove_leading_zeroes { self with digits_ := d }

/-- The loop of the same-sign branch of `operator-=`. -/
def subLoop (other : List Int) (max_size : Nat) : Nat → Nat → Int → List Int → Except Err (List Int)
  | 0, _, _, _ => .error .outOfFuel
  | fuel + 1, i, carry, digits =>
    if i < max_size ∨ carry ≠ 0 then do
      let diff ←
        if digits.length ≥ other.length then
          if i < other.length then do
            let a ← vget digits i
            let b ← vget other i
            pure (wrap32 (wrap32 (a - b) + carry))
          else do
            let a ← vget digits i
            pure (wrap32 (a + carry))
        else
          if i < digits.length then do
            let a ← vget digits i
            let b ← vget other i
            pure (wrap32 (wrap32 (b - a) + carry))
          else do
            let b ← vget other i
            pure (wrap32 (b + carry))
      let carry : Int := if diff < 0 then -1 else 0
      let diff := if diff < 0 then wrap64 (diff + BASE) else diff
      let digits ←
        if digits.length ≥ other.length ∨ i < digits.length then vset digits i (wrap32 diff)
        else pure (digits ++ [wrap32 diff])
      subLoop other max_size fuel (i + 1) carry digits
    else pure digits

/-- The same-sign branch of `operator-=`.  With a borrow left at `i = max_size` the loop
continues and reads `digits_[max_size]`, outside the vector, so `max_size + 1` iterations
always decide the outcome. -/
def subSameSign (self other : BigInteger) : Except Err BigInteger := do
  let max_size := max self.digits_.length other.digits_.length
  if opEq (abs self) (abs other) then
    remove_leading_zeroes (ofLongLong 0)
  else
    let s := if opLt (abs self) (abs other) then
               (if self.sign_ = .NEGATIVE then sign.POSITIVE else sign.NEGATIVE)
             else self.sign_
    let d ← subLoop other.digits_ max_size (max_size + 1) 0 0 self.digits_
    remove_leading_zeroes { digits_ := d, sign_ := s }

mutual
/-- The method `operator+=`; the first argument bounds the depth of the mutual redirection
between `+=` and `-=`. -/
def opAddAssignN : Nat → BigInteger → BigInteger → Except Err BigInteger
  | 0, _, _ => .error .outOfFuel
  | n + 1, self, other =>
    if self.sign_ = other.sign_ then addSameSign self other
    else if opEq self (ofLongLong 0) then remove_leading_zeroes other
    else opSubAssignN n self (opNeg other)
/-- The method `operator-=`, see `opAddAssignN`. -/
def opSubAssignN : Nat → BigInteger → BigInteger → Except Err BigInteger
  | 0, _, _ => .error .outOfFuel
  | n + 1, self, other =>
    if self.sign_ = other.sign_ then subSameSign self other
    else if opEq other (ofLongLong 0) then remove_leading_zeroes self
    else opAddAssignN n self (opNeg other)
end

/-- The method `operator+=`.  A redirection to `-=` is never redirected back (the operand's
sign was flipped), so depth 3 covers every call. -/
def opAddAssign (self other : BigInteger) : Except Err BigInteger := opAddAssignN 3 self other

/-- The method `operator-=`. -/
def opSubAssign (self other : BigInteger) : Except Err BigInteger := opSubAssignN 3 self other

/-- The binary `operator+`. -/
def opAdd (first second : BigInteger) : Except Err BigInteger := opAddAssign first second

/-- The binary `operator-`. -/
def opSub (first second : BigInteger) : Except Err BigInteger := opSubAssign first second

/-- The inner loop of `operator*=` over `j`: one group `x` times the vector `src`, appended
to `level`; `carry` is the `long long` variable of the source. -/
def mulInner (x : Int) (src : List Int) : Nat → Nat → Int → BigInteger → Except Err BigInteger
  | 0, _, _, _ => .error .outOfFuel
  | fuel + 1, j, carry, level =>
    if j < src.length ∨ carry > 0 then
      if j ≥ src.length ∧ carry > 0 then
        pure { level with digits_ := level.digits_ ++ [wrap32 carry] }
      else do
        let s ← vget src j
        let number := wrap64 (wrap64 (x * s) + carry)
        let carry := number.tdiv BASE
        mulInner x src fuel (j + 1) carry
          { digits_ := level.digits_ ++ [wrap32 (number.tmod BASE)], sign_ := .POSITIVE }
    else pure level

/-- The outer loop of `operator*=` over `i`.  In the first branch of the source `outer` is
`other.digits_` and `inner` is `copy`; in the second branch `outer` is `copy` and `inner` is
`other.digits_`.  Each `level` starts as `i` zero groups, and `carry` is reset to 0 after
every pass. -/
def mulOuter (outer inner : List Int) : Nat → Nat → BigInteger → Except Err BigInteger
  | 0, _, _ => .error .outOfFuel
  | fuel + 1, i, self =>
    if i < outer.length then do
      let x ← vget outer i
      let level ← mulInner x inner (inner.length + 2) 0 0
        { digits_ := List.replicate i 0, sign_ := .ZERO }
      let self ← opAddAssign self level
      mulOuter outer inner fuel (i + 1) self
    else pure self

/-- The method `operator*=`. -/
def opMulAssign (self other : BigInteger) : Except Err BigInteger := do
  let s := self.sign_.toInt * other.sign_.toInt
  let zero : BigInteger := { ofLongLong 0 with sign_ := .ZERO }
  if opGt (abs self) (abs other) then
    let r ← mulOuter other.digits_ self.digits_ (other.digits_.length + 1) 0 zero
    let r ← remove_leading_zeroes r
    pure { r with sign_ := signOfInt s }
  else
    let r ← mulOuter self.digits_ other.digits_ (self.digits_.length + 1) 0 zero
    let r ← remove_leading_zeroes r
    pure { r with sign_ := signOfInt s }

/-- The binary `operator*`. -/
def opMul (first second : BigInteger) : Except Err BigInteger := opMulAssign first second

/-- The recursion of `power(value, pow)`. -/
def powerN : Nat → BigInteger → Int → Except Err BigInteger
  | 0, _, _ => .error .outOfFuel
  | fuel + 1, value, pow =>
    if pow = 0 then pure (ofLongLong 1)
    else if pow.tmod 2 = 1 then do
      let r ← powerN fuel value (wrap32 (pow - 1))
      opMul value r
    else do
      let sq ← opMul value value
      powerN fuel sq (pow.tdiv 2)

/-- The function `power(value, pow)`.  `pow` is a 32-bit `int`: every two calls halve it, so
the recursion is at most 63 deep. -/
def power (value : BigInteger) (pow : Int) : Except Err BigInteger := powerN 64 value pow

/-- The loop of `find_quotient` that adds `5 * power(10, SIZE * i - 1) * sum.digits_[i]` to
`middle` for `i = 1 .. size - 1`. -/
def middleLoop (sumDigits : List Int) : Nat → Nat → BigInteger → Except Err BigInteger
  | 0, _, _ => .error .outOfFuel
  | fuel + 1, i, middle =>
    if i < sumDigits.length then do
      let p ← power (ofLongLong 10) ((SIZE : Int) * i - 1)
      let t ← opMul (ofLongLong 5) p
      let d ← vget sumDigits i
      let t ← opMul t (ofLongLong d)
      let middle ← opAddAssign middle t
      middleLoop sumDigits fuel (i + 1) middle
    else pure middle

/-- The loop `while (right - left > 1)` of `find_quotient`. -/
def findLoop (number divider : BigInteger) : Nat → BigInteger → BigInteger → Except Err BigInteger
  | 0, _, _ => .error .outOfFuel
  | fuel + 1, left, right => do
    let width ← opSub right left
    if opGt width (ofLongLong 1) then
      let sum ← opAdd right left
      let front ← vfront sum.digits_
      let middle ← middleLoop sum.digits_ (sum.digits_.length + 1) 1
        (ofLongLong (wrap32 (front.tdiv 2)))
      let prod ← opMul middle divider
      if opEq prod number then pure middle
      else if opGt prod number then findLoop number divider fuel left middle
      else findLoop number divider fuel middle right
    else pure left

/-- The function `find_quotient(left, right, number, divider)`, with the iteration budget
`fuel` for its `while` loop. -/
def find_quotient (fuel : Nat) (left right number divider : BigInteger) : Except Err BigInteger :=
  findLoop number divider fuel left right

/-- The loop `while (dividend < abs(other) && i >= 0)` of `operator/=`; it returns the new
`i`, `quotient` and `dividend`.  Every pass decrements `i`, so the loop is left after at
most `i + 1` passes. -/
def bringDown (digits other : BigInteger) :
    Nat → Int → BigInteger → BigInteger → Except Err (Int × BigInteger × BigInteger)
  | 0, _, _, _ => .error .outOfFuel
  | fuel + 1, i, quotient, dividend =>
    if opLt dividend (abs other) ∧ i ≥ 0 then
      let i := i - 1
      if i < 0 then pure (i, quotient, dividend)
      else do
        let quotient ← opMulAssign quotient (ofLongLong BASE)
        let dividend ← opMulAssign dividend (ofLongLong BASE)
        let d ← vget digits.digits_ i.toNat
        let dividend ← opAddAssign dividend (ofLongLong d)
        bringDown digits other fuel i quotient dividend
    else pure (i, quotient, dividend)

/-- The loop `for (int i = digits_.size() - 1; i >= 0;)` of `operator/=`; `fuel` is the
budget handed to every call of `find_quotient`, the next argument the budget of the loop
itself. -/
def divLoop (fuel : Nat) (self other : BigInteger) :
    Nat → Int → BigInteger → BigInteger → Except Err BigInteger
  | 0, _, _, _ => .error .outOfFuel
  | k + 1, i, quotient, dividend =>
    if i ≥ 0 then do
      let (i, quotient, dividend) ← bringDown self other (i.toNat + 2) i quotient dividend
      let digit ← find_quotient fuel (ofLongLong 0) (ofLongLong (BASE - 1)) dividend (abs other)
      let quotient ← opAddAssign quotient digit
      let prod ← opMul (abs other) digit
      let dividend ← opSubAssign dividend prod
      if i ≤ 0 then pure quotient
      else divLoop fuel self other k i quotient dividend
    else pure quotient

/-- The method `operator/=`, with the iteration budget `fuel` for its loops. -/
def opDivAssign (fuel : Nat) (self other : BigInteger) : Except Err BigInteger := do
  let s := self.sign_.toInt * other.sign_.toInt
  if self.sign_ = .ZERO then pure self
  else if opLt (abs self) (abs other) then remove_leading_zeroes (ofLongLong 0)
  else if opEq (abs other) (ofLongLong 1) then pure { self with sign_ := signOfInt s }
  else
    let back ← vback self.digits_
    let q ← divLoop fuel self other fuel ((self.digits_.length : Int) - 1)
      (ofLongLong 0) (ofLongLong back)
    remove_leading_zeroes { q with sign_ := signOfInt s }

/-- The binary `operator/`. -/
def opDiv (fuel : Nat) (first second : BigInteger) : Except Err BigInteger :=
  opDivAssign fuel first second

/-- The method `operator%=`: `*this -= (*this / other) * other`. -/
def opModAssign (fuel : Nat) (self other : BigInteger) : Except Err BigInteger := do
  let q ← opDiv fuel self other
  let p ← opMul q other
  opSubAssign self p

/-- The binary `operator%`. -/
def opMod (fuel : Nat) (first second : BigInteger) : Except Err BigInteger :=
  opModAssign fuel first second

/-! ### Text: `std::stoi`, `std::to_string`, the text constructor and `toString` -/

/-- The characters skipped by `std::stoi` (the `isspace` class of the C locale). -/
def isSpaceChar (c : Char) : Bool :=
  c = ' ' || c = '\t' || c = '\n' || c = '\x0b' || c = '\x0c' || c = '\r'

/-- The value of a run of decimal digit characters, most significant first. -/
def digitsValue (ds : List Char) : Nat :=
  ds.foldl (fun acc c => acc * 10 + (c.toNat - 48)) 0

/-- The library function `std::stoi(str)` in base 10: leading white space is skipped, an
optional sign is read, then the longest run of digits; nothing after it is looked at.
Without a digit it throws `std::invalid_argument`, outside the range of `int` it throws
`std::out_of_range`. -/
def stoi (str : List Char) : Except Err Int :=
  let s := str.dropWhile isSpaceChar
  let neg := s.head? = some '-'
  let s := if s.head? = some '-' ∨ s.head? = some '+' then s.tail else s
  let ds := s.takeWhile Char.isDigit
  if ds = [] then .error .invalidArgument
  else
    let v : Int := if neg then -(digitsValue ds : Int) else (digitsValue ds : Int)
    if v < -2147483648 ∨ v > 2147483647 then .error .outOfRange else .ok v

/-- The library method `str.substr(pos, len)`. -/
def substr (str : List Char) (pos len : Nat) : Except Err (List Char) :=
  if pos > str.length then .error .outOfRange else .ok ((str.drop pos).take len)

/-- The decimal digits of a natural number, most significant first, prepended to `acc`. -/
def to_stringLoop : Nat → Nat → List Char → List Char
  | 0, _, acc => acc
  | fuel + 1, n, acc =>
    if n / 10 = 0 then Char.ofNat (48 + n % 10) :: acc
    else to_stringLoop fuel (n / 10) (Char.ofNat (48 + n % 10) :: acc)

/-- The library function `std::to_string(int)`; an `int` has at most ten digits. -/
def to_string (x : Int) : List Char :=
  if x < 0 then '-' :: to_stringLoop 10 x.natAbs [] else to_stringLoop 10 x.toNat []

/-- The chunk loops of the text constructor,
`for (size_t i = str.size(); i >= lo; i -= SIZE) digits_.push_back(stoi(str.substr(i - SIZE, SIZE)))`,
where the bound is `i >= SIZE` for an unsigned text (`lo = SIZE`) and `i > SIZE` for a text
with a minus sign (`lo = SIZE + 1`). -/
def chunkLoop (str : List Char) (lo : Nat) : Nat → Nat → List Int → Except Err (List Int)
  | 0, _, _ => .error .outOfFuel
  | fuel + 1, i, digits =>
    if i ≥ lo then do
      let c ← substr str (i - SIZE) SIZE
      let v ← stoi c
      chunkLoop str lo fuel (i - SIZE) (digits ++ [v])
    else pure digits

/-- The constructor `BigInteger(const std::string& str)`.  `str[0]` of an empty
`std::string` is the terminating `'\0'`. -/
def ofString (str : List Char) : Except Err BigInteger :=
  if str.headD '\x00' = '-' then do
    let digits ← chunkLoop str (SIZE + 1) (str.length + 1) str.length []
    if (str.length - 1) % SIZE ≠ 0 then do
      let c ← substr str 1 (str.length - 1 - digits.length * SIZE)
      let v ← stoi c
      pure { digits_ := digits ++ [v], sign_ := .NEGATIVE }
    else pure { digits_ := digits, sign_ := .NEGATIVE }
  else if str.headD '\x00' = '0' then
    pure { digits_ := [0], sign_ := .ZERO }
  else do
    let digits ← chunkLoop str SIZE (str.length + 1) str.length []
    if str.length % SIZE ≠ 0 then do
      let c ← substr str 0 (str.length - digits.length * SIZE)
      let v ← stoi c
      pure { digits_ := digits ++ [v], sign_ := .POSITIVE }
    else pure { digits_ := digits, sign_ := .POSITIVE }

/-- The loop `for (int i = digits_.size() - 2; i >= 0; --i)` of `toString`: every group is
written after `SIZE - digit.size()` zero characters, a count computed in `size_t`. -/
def toStringLoop (digits : List Int) : Nat → Int → List Char → Except Err (List Char)
  | 0, _, _ => .error .outOfFuel
  | fuel + 1, i, string =>
    if i ≥ 0 then do
      let d ← vget digits i.toNat
      let digit := to_string d
      let gap := List.replicate (((SIZE : Int) - digit.length) % 18446744073709551616).toNat '0'
      toStringLoop digits fuel (i - 1) (string ++ gap ++ digit)
    else pure string

/-- The method `toString`. -/
def toString (self : BigInteger) : Except Err (List Char) :=
  if self.sign_ = .ZERO then pure ['0']
  else do
    let string : List Char := if self.sign_ = .NEGATIVE then ['-'] else []
    let b ← vback self.digits_
    toStringLoop self.digits_ (self.digits_.length + 1)
      ((self.digits_.length : Int) - 2) (string ++ to_string b)

end BigInteger

/-! ## The class `Rational` -/

/-- The enumeration `Rational::sign`. -/
inductive Rational.sign where
  | NEGATIVE
  | ZERO
  | POSITIVE
  deriving DecidableEq, Repr

/-- The conversion `static_cast<int>(sign_)`. -/
def Rational.sign.toInt : Rational.sign → Int
  | .NEGATIVE => -1
  | .ZERO => 0
  | .POSITIVE => 1

/-- The data members of `Rational`. -/
structure Rational where
  numerator_ : BigInteger
  denominator_ : BigInteger
  sign_ : Rational.sign
  deriving DecidableEq, Repr

/-- The recursion of `euclid(first, second)`; `fuel` is the budget handed to `operator%`. -/
def euclidN (fuel : Nat) : Nat → BigInteger → BigInteger → Except Err BigInteger
  | 0, _, _ => .error .outOfFuel
  | depth + 1, first, second =>
    if BigInteger.opEq second (BigInteger.ofLongLong 0) then pure first
    else if BigInteger.opEq second (BigInteger.ofLongLong 1) then pure (BigInteger.ofLongLong 1)
    else do
      let r ← BigInteger.opMod fuel first second
      euclidN fuel depth second r

/-- The function `euclid(first, second)`, with the budget `fuel` for its recursion and for
the divisions it performs. -/
def euclid (fuel : Nat) (first second : BigInteger) : Except Err BigInteger :=
  euclidN fuel fuel first second

namespace Rational

/-- The expression `(s == 0) ? ZERO : (s > 0 ? POSITIVE : NEGATIVE)`. -/
def signOfInt (s : Int) : sign :=
  if s = 0 then .ZERO else if s > 0 then .POSITIVE else .NEGATIVE

/-- The method `reduction`. -/
def reduction (fuel : Nat) (self : Rational) : Except Err Rational := do
  if BigInteger.opEq self.numerator_ (BigInteger.ofLongLong 0) then
    pure { self with denominator_ := BigInteger.ofLongLong 1 }
  else
    let m ← BigInteger.opMod fuel self.numerator_ self.denominator_
    if BigInteger.opEq m (BigInteger.ofLongLong 0) then
      let n ← BigInteger.opDivAssign fuel self.numerator_ self.denominator_
      pure { self with numerator_ := n, denominator_ := BigInteger.ofLongLong 1 }
    else
      let m ← BigInteger.opMod fuel self.denominator_ self.numerator_
      if BigInteger.opEq m (BigInteger.ofLongLong 0) then
        let d ← BigInteger.opDivAssign fuel self.denominator_ self.numerator_
        pure { self with denominator_ := d, numerator_ := BigInteger.ofLongLong 1 }
      else
        let nod ←
          if BigInteger.opLt self.numerator_ self.denominator_ then
            euclid fuel self.denominator_ self.numerator_
          else euclid fuel self.numerator_ self.denominator_
        if BigInteger.opNe nod (BigInteger.ofLongLong 1) then
          let d ← BigInteger.opDivAssign fuel self.denominator_ nod
          let n ← BigInteger.opDivAssign fuel self.numerator_ nod
          pure { self with denominator_ := d, numerator_ := n }
        else pure self

/-- The constructor `Rational(int number)`; `abs(number)` is the C library function on
`int`. -/
def ofInt (number : Int) : Rational :=
  let number := wrap32 number
  { numerator_ := BigInteger.ofLongLong (wrap32 |number|),
    denominator_ := BigInteger.ofLongLong 1,
    sign_ := if number = 0 then .ZERO else if number < 0 then .NEGATIVE else .POSITIVE }

/-- The constructor `Rational(const BigInteger& number)`. -/
def ofBigInteger (number : BigInteger) : Rational :=
  { numerator_ := BigInteger.abs number,
    denominator_ := BigInteger.ofLongLong 1,
    sign_ := if BigInteger.opEq number (BigInteger.ofLongLong 0) then .ZERO
             else if BigInteger.opLt number (BigInteger.ofLongLong 0) then .NEGATIVE
             else .POSITIVE }

/-- The function `operator==` on `Rational`. -/
def opEq (first second : Rational) : Bool :=
  BigInteger.opEq first.numerator_ second.numerator_ &&
    BigInteger.opEq first.denominator_ second.denominator_ &&
    decide (first.sign_ = second.sign_)

/-- The function `operator<` on `Rational`. -/
def opLt (first second : Rational) : Except Err Bool := do
  if first.sign_ ≠ second.sign_ then pure (decide (first.sign_.toInt < second.sign_.toInt))
  else if first.sign_ = .ZERO then pure false
  else
    let l ← BigInteger.opMul first.numerator_ second.denominator_
    let r ← BigInteger.opMul first.denominator_ second.numerator_
    if first.sign_ = .POSITIVE then pure (BigInteger.opLt l r)
    else pure (BigInteger.opGt l r)

/-- The function `operator>` on `Rational`. -/
def opGt (first second : Rational) : Except Err Bool := opLt second first

/-- The unary `operator-` on `Rational`. -/
def opNeg (self : Rational) : Rational :=
  { self with sign_ := if self.sign_ = .ZERO then .ZERO
                       else if self.sign_ = .POSITIVE then .NEGATIVE else .POSITIVE }

/-- The function `abs(const Rational&)`. -/
def abs (number : Rational) : Except Err Rational := do
  let neg ← opLt number (ofInt 0)
  if neg then pure (opNeg number) else pure number

mutual
/-- The method `operator+=` on `Rational`; the first argument bounds the depth of the mutual
redirection between `+=` and `-=`, the second is the budget for divisions. -/
def opAddAssignN : Nat → Nat → Rational → Rational → Except Err Rational
  | 0, _, _, _ => .error .outOfFuel
  | n + 1, fuel, self, other =>
    if other.sign_ = .ZERO then pure self
    else if self.sign_ = other.sign_ then do
      let a ← BigInteger.opMul self.numerator_ other.denominator_
      let b ← BigInteger.opMul self.denominator_ other.numerator_
      let num ← BigInteger.opAdd a b
      let den ← BigInteger.opMulAssign self.denominator_ other.denominator_
      reduction fuel { self with numerator_ := num, denominator_ := den }
    else opSubAssignN n fuel self (opNeg other)
/-- The method `operator-=` on `Rational`, see `opAddAssignN`. -/
def opSubAssignN : Nat → Nat → Rational → Rational → Except Err Rational
  | 0, _, _, _ => .error .outOfFuel
  | n + 1, fuel, self, other =>
    if self.sign_ = .ZERO then pure (opNeg other)
    else if self.sign_ = other.sign_ then do
      let x ← abs self
      let y ← abs other
      let gt ← opGt x y
      if gt then
        let a ← BigInteger.opMul self.numerator_ other.denominator_
        let b ← BigInteger.opMul self.denominator_ other.numerator_
        let num ← BigInteger.opSub a b
        let den ← BigInteger.opMulAssign self.denominator_ other.denominator_
        reduction fuel { self with numerator_ := num, denominator_ := den }
      else if opEq x y then pure (ofInt 0)
      else
        let a ← BigInteger.opMul other.numerator_ self.denominator_
        let b ← BigInteger.opMul other.denominator_ self.numerator_
        let num ← BigInteger.opSub a b
        let den ← BigInteger.opMulAssign self.denominator_ other.denominator_
        reduction fuel
          { numerator_ := num, denominator_ := den,
            sign_ := if self.sign_ = .POSITIVE then .NEGATIVE else .POSITIVE }
    else opAddAssignN n fuel self (opNeg other)
end

/-- The method `operator+=` on `Rational`. -/
def opAddAssign (fuel : Nat) (self other : Rational) : Except Err Rational :=
  opAddAssignN 3 fuel self other

/-- The method `operator-=` on `Rational`. -/
def opSubAssign (fuel : Nat) (self other : Rational) : Except Err Rational :=
  opSubAssignN 3 fuel self other

/-- The method `operator*=` on `Rational`. -/
def opMulAssign (fuel : Nat) (self other : Rational) : Except Err Rational := do
  let s := self.sign_.toInt * other.sign_.toInt
  let num ← BigInteger.opMulAssign self.numerator_ other.numerator_
  let den ← BigInteger.opMulAssign self.denominator_ other.denominator_
  reduction fuel { numerator_ := num, denominator_ := den, sign_ := signOfInt s }

/-- The method `operator/=` on `Rational`. -/
def opDivAssign (fuel : Nat) (self other : Rational) : Except Err Rational := do
  if opEq self (ofInt 0) then pure self
  else
    let s := self.sign_.toInt * other.sign_.toInt
    let num ← BigInteger.opMulAssign self.numerator_ other.denominator_
    let den ← BigInteger.opMulAssign self.denominator_ other.numerator_
    reduction fuel { numerator_ := num, denominator_ := den, sign_ := signOfInt s }

/-- The binary `operator+` on `Rational`. -/
def opAdd (fuel : Nat) (first second : Rational) : Except Err Rational :=
  opAddAssign fuel first second

/-- The binary `operator-` on `Rational`. -/
def opSub (fuel : Nat) (first second : Rational) : Except Err Rational :=
  opSubAssign fuel first second

/-- The binary `operator*` on `Rational`. -/
def opMul (fuel : Nat) (first second : Rational) : Except Err Rational :=
  opMulAssign fuel first second

/-- The binary `operator/` on `Rational`. -/
def opDiv (fuel : Nat) (first second : Rational) : Except Err Rational :=
  opDivAssign fuel first second

/-- The method `Rational::toString`. -/
def toString (self : Rational) : Except Err (List Char) :=
  if self.sign_ = .ZERO then pure ['0']
  else do
    let number : List Char := if self.sign_ = .NEGATIVE then ['-'] else []
    let n ← BigInteger.toString self.numerator_
    let number := number ++ n
    if BigInteger.opNe self.denominator_ (BigInteger.ofLongLong 1) then
      let d ← BigInteger.toString self.denominator_
      pure (number ++ ['/'] ++ d)
    else pure number

/-- The loop `while (num * degree / pow == 0) { string += '0'; degree *= 10; }` of
`asDecimal`; `fuel` is the budget handed to the division, the next argument the budget of
the loop itself. -/
def padLoop (fuel : Nat) (num pow : BigInteger) :
    Nat → BigInteger → List Char → Except Err (List Char)
  | 0, _, _ => .error .outOfFuel
  | k + 1, degree, string => do
    let p ← BigInteger.opMul num degree
    let q ← BigInteger.opDiv fuel p pow
    if BigInteger.opEq q (BigInteger.ofLongLong 0) then
      let degree ← BigInteger.opMulAssign degree (BigInteger.ofLongLong 10)
      padLoop fuel num pow k degree (string ++ ['0'])
    else pure string

/-- The loop `while (string.back() == '0') string.pop_back()` of `asDecimal`; `back()` of
an empty string is outside the string. -/
def stripLoop : Nat → List Char → Except Err (List Char)
  | 0, _ => .error .outOfFuel
  | k + 1, string =>
    match string.getLast? with
    | none => .error .outOfBounds
    | some c => if c = '0' then stripLoop k string.dropLast else pure string

/-- The method `asDecimal(precision)`, with the iteration budget `fuel` for the divisions
and for the padding loop.  `precision` is a `size_t`; it is narrowed to the `int` parameter
of `power`. -/
def asDecimal (fuel : Nat) (self : Rational) (precision : Nat) : Except Err (List Char) :=
  if self.sign_ = .ZERO then pure ['0']
  else do
    let string : List Char := if self.sign_ = .NEGATIVE then ['-'] else []
    if BigInteger.opEq self.denominator_ (BigInteger.ofLongLong 1) then
      let s ← BigInteger.toString self.numerator_
      pure (string ++ s)
    else
      let pow ← BigInteger.power (BigInteger.ofLongLong 10) (wrap32 precision)
      let num ← BigInteger.opMul self.numerator_ pow
      let num ← BigInteger.opDivAssign fuel num self.denominator_
      let ip ← BigInteger.opDiv fuel num pow
      let s ← BigInteger.toString ip
      let string := string ++ s
      if precision > 0 then
        let string := string ++ ['.']
        let string ← padLoop fuel num pow fuel (BigInteger.ofLongLong 10) string
        let fp ← BigInteger.opMod fuel num pow
        let s ← BigInteger.toString fp
        stripLoop (string.length + s.length + 1) (string ++ s)
      else pure string

end Rational

/-! ## Specification vocabulary -/

/-- The number denoted by a vector of groups in radix `BASE`, least significant first. -/
def groupsValue : List Int → Int
  | [] => 0
  | d :: ds => d + BASE * groupsValue ds

/-- Every group lies in `[0, BASE)`. -/
def GroupsInRange (l : List Int) : Prop := ∀ d ∈ l, 0 ≤ d ∧ d < BASE

instance (l : List Int) : Decidable (GroupsInRange l) := by
  unfold GroupsInRange; infer_instance

/-- A normalized vector: not empty, groups in range, and no most-significant zero group
unless the vector is `[0]`. -/
def Normalized (l : List Int) : Prop :=
  l ≠ [] ∧ GroupsInRange l ∧ (l.getLast? = some 0 → l = [0])

instance (l : List Int) : Decidable (Normalized l) := by
  unfold Normalized; infer_instance

namespace BigInteger

/-- The integer denoted by a `BigInteger`. -/
def value (a : BigInteger) : Int := a.sign_.toInt * groupsValue a.digits_

/-- The invariants of the data model: a non-empty vector of groups in `[0, BASE)`, no
most-significant zero group unless the vector is `[0]`, and sign `ZERO` exactly for `[0]`. -/
def WellFormed (a : BigInteger) : Prop :=
  Normalized a.digits_ ∧ (a.sign_ = .ZERO ↔ a.digits_ = [0])

instance (a : BigInteger) : Decidable (WellFormed a) := by
  unfold WellFormed; infer_instance

/-- The well-formed decimal texts: `"0"`, or an optional `'-'` followed by a nonzero digit
and any number of further digits. -/
def isDecimalText (s : List Char) : Bool :=
  s == ['0'] ||
    (let body := if s.head? = some '-' then s.tail else s
     !body.isEmpty && body.all Char.isDigit && body.head? != some '0')

/-- The texts matching `-?[0-9]+`: an optional `'-'` followed by one or more digits. -/
def isSignedDigits (s : List Char) : Bool :=
  let body := if s.head? = some '-' then s.tail else s
  !body.isEmpty && body.all Char.isDigit

/-- The most-significant chunk of a run of digits that is cut from the right into chunks
of `SIZE` digits: its first `((length - 1) mod SIZE) + 1` characters. -/
def topChunk (body : List Char) : List Char :=
  body.take ((body.length - 1) % SIZE + 1)

/-- A list of nine-digit chunks of a decimal text. -/
def NineDigitChunks (L : List (List Char)) : Prop :=
  ∀ c ∈ L, c.length = 9 ∧ ∀ x ∈ c, x.isDigit = true

/-- The one configuration in which `+=` / `-=` end in the misdirected subtraction loop:
the two magnitudes have equally many groups and the receiver's is the smaller. -/
def Misdirected (a b : BigInteger) : Prop :=
  a.digits_.length = b.digits_.length ∧ groupsValue a.digits_ < groupsValue b.digits_

/-- The place of a well-formed value in the order that `operator<` implements: positive
values by magnitude, and negative values first by falling group count, then by rising
magnitude. -/
def orderRank (a : BigInteger) : Int :=
  match a.sign_ with
  | .POSITIVE => groupsValue a.digits_
  | .ZERO => 0
  | .NEGATIVE => groupsValue a.digits_ - 2 * BASE ^ a.digits_.length

end BigInteger

namespace Rational

/-- The rational number denoted by a `Rational`: the sign times numerator over
denominator. -/
def value (r : Rational) : ℚ :=
  (r.sign_.toInt : ℚ) * (r.numerator_.value : ℚ) / (r.denominator_.value : ℚ)

/-- The lowest-terms invariant: the denominator is positive, numerator and denominator have
no common factor greater than 1, the denominator is 1 when the numerator is zero, and the
sign is `ZERO` exactly when the numerator is zero. -/
def LowestTerms (r : Rational) : Prop :=
  0 < r.denominator_.value ∧ Int.gcd r.numerator_.value r.denominator_.value = 1 ∧
    (r.numerator_.value = 0 → r.denominator_.value = 1) ∧
    (r.sign_ = .ZERO ↔ r.numerator_.value = 0)

instance (r : Rational) : Decidable (LowestTerms r) := by
  unfold LowestTerms; infer_instance

/-- A valid `Rational`: numerator and denominator are well-formed, the numerator holds a
magnitude (it is never negative; the sign is kept apart), and the lowest-terms invariant
holds. -/
def Valid (r : Rational) : Prop :=
  r.numerator_.WellFormed ∧ r.denominator_.WellFormed ∧ r.numerator_.sign_ ≠ .NEGATIVE ∧
    LowestTerms r

instance (r : Rational) : Decidable (Valid r) := by
  unfold Valid; infer_instance

end Rational


/-! ## Machine integers and vectors -/

theorem wrap32_eq {x : Int} (h1 : -2147483648 ≤ x) (h2 : x < 2147483648) : wrap32 x = x := by
  unfold wrap32; omega

theorem wrap64_eq {x : Int} (h1 : -9223372036854775808 ≤ x) (h2 : x < 9223372036854775808) :
    wrap64 x = x := by
  unfold wrap64; omega

theorem vget_append_cons (R : List Int) (a : Int) (A : List Int) :
    vget (R ++ a :: A) R.length = .ok a := by
  unfold vget
  rw [List.getElem?_append_right (le_refl _)]
  simp

theorem vset_append_cons (R : List Int) (a x : Int) (A : List Int) :
    vset (R ++ a :: A) R.length x = .ok (R ++ x :: A) := by
  simp [vset]

theorem vget_eq_error {l : List Int} {i : Nat} (h : l.length ≤ i) :
    vget l i = .error .outOfBounds := by
  simp [vget, List.getElem?_eq_none h]

theorem vback_concat (l : List Int) (x : Int) : vback (l ++ [x]) = .ok x := by
  simp [vback]

/-! ## The value of a vector of groups -/

theorem groupsValue_append (X Y : List Int) :
    groupsValue (X ++ Y) = groupsValue X + BASE ^ X.length * groupsValue Y := by
  induction X with
  | nil => simp [groupsValue]
  | cons x xs ih => simp [groupsValue, ih, pow_succ]; ring

theorem groupsValue_singleton (x : Int) : groupsValue [x] = x := by simp [groupsValue]

theorem groupsValue_replicate_zero (n : Nat) : groupsValue (List.replicate n 0) = 0 := by
  induction n with
  | zero => rfl
  | succ n ih => simp [List.replicate_succ, groupsValue, ih]

theorem GroupsInRange.nil : GroupsInRange [] := by simp [GroupsInRange]

theorem groupsInRange_cons {x : Int} {xs : List Int} :
    GroupsInRange (x :: xs) ↔ (0 ≤ x ∧ x < BASE) ∧ GroupsInRange xs := by
  simp [GroupsInRange]

theorem groupsInRange_append {X Y : List Int} :
    GroupsInRange (X ++ Y) ↔ GroupsInRange X ∧ GroupsInRange Y := by
  simp only [GroupsInRange, List.mem_append]
  constructor
  · intro h; exact ⟨fun d hd => h d (Or.inl hd), fun d hd => h d (Or.inr hd)⟩
  · rintro ⟨h1, h2⟩ d (hd | hd)
    · exact h1 d hd
    · exact h2 d hd

theorem groupsInRange_replicate_zero (n : Nat) : GroupsInRange (List.replicate n 0) := by
  intro d hd
  rw [List.mem_replicate] at hd
  rw [hd.2]; simp [BASE]

theorem BASE_pos : (0 : Int) < BASE := by simp [BASE]

theorem BASE_pow_pos (n : Nat) : (0 : Int) < BASE ^ n := pow_pos BASE_pos n

theorem groupsValue_nonneg {X : List Int} (h : GroupsInRange X) : 0 ≤ groupsValue X := by
  induction X with
  | nil => simp [groupsValue]
  | cons x xs ih =>
    rw [groupsInRange_cons] at h
    have := ih h.2
    simp only [groupsValue]
    have := mul_nonneg (le_of_lt BASE_pos) this
    omega

theorem groupsValue_lt_pow {X : List Int} (h : GroupsInRange X) :
    groupsValue X < BASE ^ X.length := by
  induction X with
  | nil => simp [groupsValue]
  | cons x xs ih =>
    rw [groupsInRange_cons] at h
    have h1 := ih h.2
    simp only [groupsValue, List.length_cons, pow_succ]
    have h2 : BASE * (groupsValue xs + 1) ≤ BASE * BASE ^ xs.length :=
      mul_le_mul_of_nonneg_left (by omega) (le_of_lt BASE_pos)
    have h3 : BASE * (groupsValue xs + 1) = BASE * groupsValue xs + BASE := by ring
    have h4 : BASE ^ xs.length * BASE = BASE * BASE ^ xs.length := by ring
    omega

/-- A vector in range whose last group is positive denotes at least `BASE ^ (length - 1)`. -/
theorem pow_le_groupsValue {X : List Int} {x : Int} (h : GroupsInRange X) (hx : 0 < x) :
    BASE ^ X.length ≤ groupsValue (X ++ [x]) := by
  rw [groupsValue_append, groupsValue_singleton]
  have h1 := groupsValue_nonneg h
  have h2 : BASE ^ X.length * 1 ≤ BASE ^ X.length * x :=
    mul_le_mul_of_nonneg_left (by omega) (le_of_lt (BASE_pow_pos _))
  omega

/-! ## Normalized vectors -/

theorem normalized_zero : Normalized [0] := by decide

theorem Normalized.ne_nil {X : List Int} (h : Normalized X) : X ≠ [] := h.1

theorem Normalized.inRange {X : List Int} (h : Normalized X) : GroupsInRange X := h.2.1

/-- A normalized vector denotes 0 only if it is `[0]`. -/
theorem Normalized.eq_zero_of_value {X : List Int} (h : Normalized X) (hv : groupsValue X = 0) :
    X = [0] := by
  obtain ⟨hne, hr, hl⟩ := h
  rcases List.eq_nil_or_concat X with hX | ⟨L, x, hX⟩
  · exact absurd hX hne
  · subst hX
    rw [List.concat_eq_append] at *
    rw [groupsInRange_append] at hr
    have hx := hr.2 x (by simp)
    by_cases hx0 : x = 0
    · subst hx0; exact hl (by simp)
    · have := pow_le_groupsValue hr.1 (show 0 < x by omega)
      have := BASE_pow_pos L.length
      omega

theorem Normalized.value_pos {X : List Int} (h : Normalized X) (hne : X ≠ [0]) :
    0 < groupsValue X := by
  have h1 := groupsValue_nonneg h.inRange
  rcases eq_or_lt_of_le h1 with h2 | h2
  · exact absurd (h.eq_zero_of_value h2.symm) hne
  · exact h2

/-- Lower bound on the value of a normalized vector other than `[0]`. -/
theorem Normalized.pow_le {X : List Int} (h : Normalized X) (hne : X ≠ [0]) :
    BASE ^ (X.length - 1) ≤ groupsValue X := by
  obtain ⟨hnil, hr, hl⟩ := h
  rcases List.eq_nil_or_concat X with hX | ⟨L, x, hX⟩
  · exact absurd hX hnil
  · subst hX
    rw [List.concat_eq_append] at *
    rw [groupsInRange_append] at hr
    have hx := hr.2 x (by simp)
    have hx0 : x ≠ 0 := by
      intro h0; subst h0; exact hne (hl (by simp))
    have := pow_le_groupsValue hr.1 (show 0 < x by omega)
    simpa using this

/-- Two trimmed vectors (in range, last group nonzero) with the same value are equal. -/
theorem eq_of_groupsValue_eq : ∀ (X Y : List Int), GroupsInRange X → GroupsInRange Y →
    X.getLast? ≠ some 0 → Y.getLast? ≠ some 0 → groupsValue X = groupsValue Y → X = Y := by
  have key : ∀ (Y : List Int), GroupsInRange Y → Y.getLast? ≠ some 0 → groupsValue Y = 0 →
      Y = [] := by
    intro Y hr hl hv
    rcases List.eq_nil_or_concat Y with hY | ⟨L, y, hY⟩
    · exact hY
    · subst hY
      rw [List.concat_eq_append] at *
      rw [groupsInRange_append] at hr
      have hy := hr.2 y (by simp)
      have hy0 : y ≠ 0 := by
        intro h0; subst h0; exact hl (by simp)
      have := pow_le_groupsValue hr.1 (show 0 < y by omega)
      have := BASE_pow_pos L.length
      omega
  intro X
  induction X with
  | nil =>
    intro Y _ hY _ hlY hv
    exact (key Y hY hlY (by simpa [groupsValue] using hv.symm)).symm
  | cons x xs ih =>
    intro Y hX hY hlX hlY hv
    cases Y with
    | nil => exact key _ hX hlX (by simpa [groupsValue] using hv)
    | cons y ys =>
      rw [groupsInRange_cons] at hX hY
      simp only [groupsValue] at hv
      have hxy : x = y := by
        have := hX.1; have := hY.1; simp only [BASE] at *; omega
      subst hxy
      have hv2 : groupsValue xs = groupsValue ys := by
        simp only [BASE] at *; omega
      have hlx : xs.getLast? ≠ some 0 := by
        intro h; apply hlX
        cases xs with
        | nil => simp at h
        | cons a as => simpa [List.getLast?_cons_cons] using h
      have hly : ys.getLast? ≠ some 0 := by
        intro h; apply hlY
        cases ys with
        | nil => simp at h
        | cons a as => simpa [List.getLast?_cons_cons] using h
      rw [ih ys hX.2 hY.2 hlx hly hv2]

theorem Normalized.eq_of_value_eq {X Y : List Int} (hX : Normalized X) (hY : Normalized Y)
    (hv : groupsValue X = groupsValue Y) : X = Y := by
  by_cases h0 : X = [0]
  · subst h0
    exact (hY.eq_zero_of_value (by rw [← hv]; rfl)).symm
  · have h0Y : Y ≠ [0] := by
      intro h; subst h
      exact h0 (hX.eq_zero_of_value (by rw [hv]; rfl))
    apply eq_of_groupsValue_eq X Y hX.inRange hY.inRange _ _ hv
    · intro h; exact h0 (hX.2.2 h)
    · intro h; exact h0Y (hY.2.2 h)

namespace BigInteger

/-! ## `remove_leading_zeroes` -/

theorem removeLoop_spec : ∀ (fuel : Nat) (L : List Int), L ≠ [] → L.length ≤ fuel →
    ∃ D, removeLoop fuel L = .ok D ∧ groupsValue D = groupsValue L ∧ D ≠ [] ∧
      (D.getLast? = some 0 → D = [0]) ∧ (GroupsInRange L → GroupsInRange D) ∧
      ((L.getLast? = some 0 → L = [0]) → D = L) ∧ D.length ≤ L.length := by
  intro fuel
  induction fuel with
  | zero =>
    intro L hne hlen
    cases L with
    | nil => exact absurd rfl hne
    | cons a as => simp at hlen
  | succ fuel ih =>
    intro L hne hlen
    rcases List.eq_nil_or_concat L with hL | ⟨L', x, hL⟩
    · exact absurd hL hne
    · subst hL
      rw [List.concat_eq_append] at *
      unfold removeLoop
      rw [vback_concat]
      by_cases hc : x = 0 ∧ (L' ++ [x]).length > 1
      · have hne' : L' ≠ [] := by
          intro h; subst h; simp at hc
        have hlen' : L'.length ≤ fuel := by simp at hlen; omega
        obtain ⟨D, h1, h2, h3, h4, h5, h6, h7⟩ := ih L' hne' hlen'
        refine ⟨D, ?_, ?_, h3, h4, ?_, ?_, ?_⟩
        · simp only [bind, Except.bind]
          rw [if_pos hc, List.dropLast_concat]
          exact h1
        · rw [h2, groupsValue_append, hc.1]; simp [groupsValue]
        · intro h; rw [groupsInRange_append] at h; exact h5 h.1
        · intro h
          have := congrArg List.length (h (by simp [hc.1]))
          simp at this
          exact absurd this hne'
        · simp; omega
      · refine ⟨L' ++ [x], ?_, rfl, hne, ?_, fun h => h, fun _ => rfl, le_refl _⟩
        · simp only [bind, Except.bind]
          rw [if_neg hc]; rfl
        · intro h
          simp at h
          subst h
          simp at hc
          subst hc; rfl

theorem remove_leading_zeroes_spec (a : BigInteger) (hne : a.digits_ ≠ []) :
    ∃ D, remove_leading_zeroes a = .ok { digits_ := D, sign_ := a.sign_ } ∧
      groupsValue D = groupsValue a.digits_ ∧ D ≠ [] ∧
      (D.getLast? = some 0 → D = [0]) ∧ (GroupsInRange a.digits_ → GroupsInRange D) ∧
      D.length ≤ a.digits_.length := by
  obtain ⟨D, h1, h2, h3, h4, h5, _, h7⟩ := removeLoop_spec (a.digits_.length + 1) a.digits_ hne
    (Nat.le_succ _)
  refine ⟨D, ?_, h2, h3, h4, h5, h7⟩
  unfold remove_leading_zeroes
  rw [h1]; rfl

theorem remove_leading_zeroes_normalized (a : BigInteger) (h : Normalized a.digits_) :
    remove_leading_zeroes a = .ok a := by
  obtain ⟨D, h1, _, _, _, _, h6, _⟩ := removeLoop_spec (a.digits_.length + 1) a.digits_ h.1
    (Nat.le_succ _)
  unfold remove_leading_zeroes
  rw [h1, h6 h.2.2]; rfl

/-- Normalizing a non-empty vector in range gives a normalized vector of the same value. -/
theorem remove_leading_zeroes_inRange (a : BigInteger) (hne : a.digits_ ≠ [])
    (hr : GroupsInRange a.digits_) :
    ∃ D, remove_leading_zeroes a = .ok { digits_ := D, sign_ := a.sign_ } ∧
      groupsValue D = groupsValue a.digits_ ∧ Normalized D ∧ D.length ≤ a.digits_.length := by
  obtain ⟨D, h1, h2, h3, h4, h5, h6⟩ := remove_leading_zeroes_spec a hne
  exact ⟨D, h1, h2, ⟨h3, h5 hr, h4⟩, h6⟩

/-! ## The constructor from `long long` on small arguments -/

theorem ofLongLong_zero : ofLongLong 0 = { digits_ := [0], sign_ := .ZERO } := by decide

theorem ofLongLong_one : ofLongLong 1 = { digits_ := [1], sign_ := .POSITIVE } := by decide

theorem ofLongLong_BASE : ofLongLong BASE = { digits_ := [0, 1], sign_ := .POSITIVE } := by
  decide

theorem ofLongLong_pos {x : Int} (h0 : 0 < x) (h1 : x < BASE) :
    ofLongLong x = { digits_ := [x], sign_ := .POSITIVE } := by
  simp only [BASE] at h1
  have hw : wrap64 x = x := wrap64_eq (by omega) (by omega)
  have hd : x.tdiv BASE = 0 := by
    rw [Int.tdiv_eq_ediv (by omega) (by simp [BASE])]; simp only [BASE]; omega
  have hm : x.tmod BASE = x := by
    rw [Int.tmod_eq_emod (by omega) (by simp [BASE])]; simp only [BASE]; omega
  unfold ofLongLong
  simp only [hw, h0, if_true, sign.toInt, mul_one]
  rw [if_neg (by omega)]
  simp only [ofLongLongLoop, h0, if_true, hd, hm, List.nil_append]
  rw [wrap32_eq (by omega) (by omega)]
  simp

theorem ofLongLong_small {x : Int} (h0 : 0 ≤ x) (h1 : x < BASE) :
    ofLongLong x = if x = 0 then { digits_ := [0], sign_ := .ZERO }
                   else { digits_ := [x], sign_ := .POSITIVE } := by
  by_cases h : x = 0
  · subst h; simp [ofLongLong_zero]
  · rw [if_neg h]; exact ofLongLong_pos (by omega) h1

theorem ofLongLong_small_wellFormed {x : Int} (h0 : 0 ≤ x) (h1 : x < BASE) :
    WellFormed (ofLongLong x) ∧ value (ofLongLong x) = x ∧ (ofLongLong x).sign_ ≠ .NEGATIVE := by
  rw [ofLongLong_small h0 h1]
  by_cases h : x = 0
  · subst h; decide
  · rw [if_neg h]
    refine ⟨⟨⟨by simp, ?_, ?_⟩, ?_⟩, ?_, by simp⟩
    · intro d hd; simp at hd; subst hd; exact ⟨h0, h1⟩
    · intro hl; simp at hl; exact absurd hl h
    · simp [h]
    · simp [value, sign.toInt, groupsValue]

/-! ## `abs`, `operator==`, `operator<` -/

theorem abs_eq (a : BigInteger) :
    abs a = if a.sign_ = .NEGATIVE then { a with sign_ := .POSITIVE } else a := by
  obtain ⟨d, s⟩ := a
  cases s <;> simp [abs, opLt, opNeg, ofLongLong_zero, sign.toInt]

theorem abs_digits (a : BigInteger) : (abs a).digits_ = a.digits_ := by
  rw [abs_eq]; split <;> rfl

theorem abs_of_not_negative {a : BigInteger} (h : a.sign_ ≠ .NEGATIVE) : abs a = a := by
  rw [abs_eq, if_neg h]

theorem abs_wellFormed {a : BigInteger} (h : WellFormed a) :
    WellFormed (abs a) ∧ (abs a).sign_ ≠ .NEGATIVE ∧ value (abs a) = |value a| ∧
      value (abs a) = groupsValue a.digits_ := by
  obtain ⟨d, s⟩ := a
  have hv := groupsValue_nonneg h.1.inRange
  simp only at hv
  rw [abs_eq]
  cases s
  · simp only [if_true]
    refine ⟨⟨h.1, ?_⟩, by simp, ?_, ?_⟩
    · have := h.2; simp at this; simp [this]
    · simp [value, sign.toInt, abs_of_nonneg hv]
    · simp [value, sign.toInt]
  · simp only [reduceCtorEq, if_false]
    refine ⟨h, by simp, ?_, ?_⟩
    · have := h.2.1 rfl; simp at this; subst this; simp [value, sign.toInt]
    · have := h.2.1 rfl; simp at this; subst this; simp [value, sign.toInt, groupsValue]
  · simp only [reduceCtorEq, if_false]
    refine ⟨h, by simp, ?_, ?_⟩
    · simp [value, sign.toInt, abs_of_nonneg hv]
    · simp [value, sign.toInt]

theorem groupsInRange_take {X : List Int} (h : GroupsInRange X) (k : Nat) :
    GroupsInRange (X.take k) := fun d hd => h d (List.mem_of_mem_take hd)

theorem ltLoop_spec (X Y : List Int) (hlen : X.length = Y.length) (hX : GroupsInRange X)
    (hY : GroupsInRange Y) : ∀ k, k ≤ X.length →
    ltLoop X Y k (X.length - k) = decide (groupsValue (X.take k) < groupsValue (Y.take k)) := by
  intro k
  induction k with
  | zero => intro _; simp [ltLoop, groupsValue]
  | succ k ih =>
    intro hk
    have hkX : k < X.length := hk
    have hkY : k < Y.length := by omega
    have hidx : X.length - (X.length - (k + 1)) - 1 = k := by omega
    have hnext : X.length - (k + 1) + 1 = X.length - k := by omega
    have hgx : X.getD k 0 = X[k] := by simp [List.getD_eq_getElem?_getD, hkX]
    have hgy : Y.getD k 0 = Y[k] := by simp [List.getD_eq_getElem?_getD, hkY]
    have htx : X.take (k + 1) = X.take k ++ [X[k]] := by
      rw [List.take_succ]; simp [hkX]
    have hty : Y.take (k + 1) = Y.take k ++ [Y[k]] := by
      rw [List.take_succ]; simp [hkY]
    have hvx : groupsValue (X.take (k + 1)) = groupsValue (X.take k) + BASE ^ k * X[k] := by
      rw [htx, groupsValue_append, groupsValue_singleton, List.length_take]
      rw [Nat.min_eq_left (by omega)]
    have hvy : groupsValue (Y.take (k + 1)) = groupsValue (Y.take k) + BASE ^ k * Y[k] := by
      rw [hty, groupsValue_append, groupsValue_singleton, List.length_take]
      rw [Nat.min_eq_left (by omega)]
    have bx0 := groupsValue_nonneg (groupsInRange_take hX k)
    have by0 := groupsValue_nonneg (groupsInRange_take hY k)
    have bx1 := groupsValue_lt_pow (groupsInRange_take hX k)
    have by1 := groupsValue_lt_pow (groupsInRange_take hY k)
    rw [List.length_take, Nat.min_eq_left (by omega)] at bx1 by1
    have hP := BASE_pow_pos k
    unfold ltLoop
    rw [if_pos (by omega), hidx, hgx, hgy, hnext, hvx, hvy]
    by_cases hne : X[k] = Y[k]
    · rw [if_neg (by simpa using hne), ih (by omega), hne]
      simp
    · rw [if_pos hne]
      rcases lt_or_gt_of_ne hne with hlt | hgt
      · have h1 : BASE ^ k * (X[k] + 1) ≤ BASE ^ k * Y[k] :=
          mul_le_mul_of_nonneg_left (by omega) (le_of_lt hP)
        have h2 : BASE ^ k * (X[k] + 1) = BASE ^ k * X[k] + BASE ^ k := by ring
        simp only [hlt, decide_True]
        symm; rw [decide_eq_true_eq]; omega
      · have h1 : BASE ^ k * (Y[k] + 1) ≤ BASE ^ k * X[k] :=
          mul_le_mul_of_nonneg_left (by omega) (le_of_lt hP)
        have h2 : BASE ^ k * (Y[k] + 1) = BASE ^ k * Y[k] + BASE ^ k := by ring
        have h3 : ¬ X[k] < Y[k] := by omega
        simp only [h3, decide_False]
        symm; rw [decide_eq_false_iff_not]; omega

theorem BASE_pow_mono {m n : Nat} (h : m ≤ n) : BASE ^ m ≤ BASE ^ n :=
  pow_le_pow_right₀ (by simp [BASE]) h

/-- On normalized vectors other than `[0]` a shorter vector denotes a smaller number. -/
theorem groupsValue_lt_of_length_lt {X Y : List Int} (hX : GroupsInRange X) (hY : Normalized Y)
    (hY0 : Y ≠ [0]) (h : X.length < Y.length) : groupsValue X < groupsValue Y := by
  have h1 := groupsValue_lt_pow hX
  have h2 := hY.pow_le hY0
  have h3 : BASE ^ X.length ≤ BASE ^ (Y.length - 1) := BASE_pow_mono (by omega)
  omega

/-- `operator<` decides the numeric order of two well-formed non-negative values. -/
theorem opLt_of_nonneg {a b : BigInteger} (ha : WellFormed a) (hb : WellFormed b)
    (hsa : a.sign_ ≠ .NEGATIVE) (hsb : b.sign_ ≠ .NEGATIVE) :
    opLt a b = decide (value a < value b) := by
  obtain ⟨X, sa⟩ := a
  obtain ⟨Y, sb⟩ := b
  have hvX := groupsValue_nonneg ha.1.inRange
  have hvY := groupsValue_nonneg hb.1.inRange
  simp only at hvX hvY hsa hsb
  cases sa
  · exact absurd rfl hsa
  · cases sb
    · exact absurd rfl hsb
    · -- ZERO, ZERO
      have h1 := ha.2.1 rfl; have h2 := hb.2.1 rfl
      simp only at h1 h2; subst h1; subst h2
      decide
    · -- ZERO, POSITIVE
      have h1 := ha.2.1 rfl
      simp only at h1; subst h1
      have h2 : Y ≠ [0] := fun h => by have := hb.2.2 h; simp at this
      have := hb.1.value_pos h2
      simp only at this
      simp [opLt, sign.toInt, value, groupsValue, this]
  · cases sb
    · exact absurd rfl hsb
    · -- POSITIVE, ZERO
      have h1 := hb.2.1 rfl
      simp only at h1; subst h1
      simp [opLt, sign.toInt, value, groupsValue, hvX]
    · -- POSITIVE, POSITIVE
      have h1 : X ≠ [0] := fun h => by have := ha.2.2 h; simp at this
      have h2 : Y ≠ [0] := fun h => by have := hb.2.2 h; simp at this
      simp only [opLt, ne_eq, not_true_eq_false, if_false, value, sign.toInt, one_mul]
      by_cases hlen : X.length = Y.length
      · rw [if_neg (by simpa using hlen)]
        have := ltLoop_spec X Y hlen ha.1.inRange hb.1.inRange X.length (le_refl _)
        simp only [Nat.sub_self] at this
        rw [this, List.take_length, hlen, List.take_length]
      · rw [if_pos hlen]
        rcases Nat.lt_or_gt_of_ne hlen with hlt | hgt
        · have := groupsValue_lt_of_length_lt ha.1.inRange hb.1 h2 hlt
          simp only at this
          simp [hlt, this]
        · have := groupsValue_lt_of_length_lt hb.1.inRange ha.1 h1 hgt
          simp only at this
          have h3 : ¬ X.length < Y.length := by omega
          have h4 : ¬ groupsValue X < groupsValue Y := by omega
          simp [h3, h4]

/-- Well-formed values are determined by the integer they denote. -/
theorem WellFormed.ext_value {a b : BigInteger} (ha : WellFormed a) (hb : WellFormed b)
    (hv : value a = value b) : a = b := by
  obtain ⟨X, sa⟩ := a
  obtain ⟨Y, sb⟩ := b
  have hvX := groupsValue_nonneg ha.1.inRange
  have hvY := groupsValue_nonneg hb.1.inRange
  have pX : sa ≠ .ZERO → 0 < groupsValue X := fun h =>
    ha.1.value_pos (fun h0 => h (ha.2.2 h0))
  have pY : sb ≠ .ZERO → 0 < groupsValue Y := fun h =>
    hb.1.value_pos (fun h0 => h (hb.2.2 h0))
  have zX : sa = .ZERO → X = [0] := ha.2.1
  have zY : sb = .ZERO → Y = [0] := hb.2.1
  simp only at hvX hvY pX pY zX zY
  simp only [value] at hv
  cases sa <;> cases sb <;> simp only [sign.toInt] at hv
  · have := pX (by simp); have := pY (by simp)
    have hXY : X = Y := ha.1.eq_of_value_eq hb.1 (by simp only; omega)
    rw [hXY]
  · exfalso; have := pX (by simp); omega
  · exfalso; have := pX (by simp); have := pY (by simp); omega
  · exfalso; have := pY (by simp); omega
  · rw [zX rfl, zY rfl]
  · exfalso; have := pY (by simp); omega
  · exfalso; have := pX (by simp); have := pY (by simp); omega
  · exfalso; have := pX (by simp); omega
  · have := pX (by simp); have := pY (by simp)
    have hXY : X = Y := ha.1.eq_of_value_eq hb.1 (by simp only; omega)
    rw [hXY]

/-- `operator==` on well-formed values is equality of the denoted integers. -/
theorem opEq_of_wellFormed {a b : BigInteger} (ha : WellFormed a) (hb : WellFormed b) :
    opEq a b = decide (value a = value b) := by
  by_cases hv : value a = value b
  · have := ha.ext_value hb hv
    subst this
    simp [opEq]
  · simp only [hv, decide_False]
    unfold opEq
    by_cases hs : a.sign_ = b.sign_
    · rw [if_neg (by simpa using hs)]
      by_cases hz : a.sign_ = .ZERO
      · exfalso; apply hv
        have h1 := ha.2.1 hz
        have h2 := hb.2.1 (hs ▸ hz)
        simp [value, h1, h2, groupsValue]
      · rw [if_neg hz]
        simp only [decide_eq_false_iff_not]
        intro hd; apply hv
        simp [value, hs, hd]
    · rw [if_pos hs]

end BigInteger

namespace BigInteger

theorem vget_of_drop {B : List Int} {i : Nat} {b : Int} {bs : List Int}
    (h : B.drop i = b :: bs) : vget B i = .ok b ∧ B.drop (i + 1) = bs ∧ i < B.length := by
  have hlt : i < B.length := by
    by_contra hc
    rw [List.drop_eq_nil_of_le (by omega)] at h
    exact absurd h (by simp)
  have h2 := List.drop_eq_getElem_cons hlt
  rw [h] at h2
  injection h2 with h3 h4
  refine ⟨?_, h4.symm, hlt⟩
  unfold vget
  rw [List.getElem?_eq_getElem hlt, ← h3]

theorem length_le_of_drop_nil {B : List Int} {i : Nat} (h : B.drop i = []) : B.length ≤ i :=
  List.drop_eq_nil_iff.mp h

theorem length_of_drop {B : List Int} {i : Nat} {B' : List Int} (h : B.drop i = B')
    (hi : i ≤ B.length) : B.length = i + B'.length := by
  subst h; simp; omega

/-- Digit arithmetic of one addition step. -/
theorem add_step_arith {s : Int} (h0 : 0 ≤ s) (h1 : s < 2 * BASE) :
    wrap32 (s.tdiv BASE) = s / BASE ∧ wrap32 (s.tmod BASE) = s % BASE ∧
      (s / BASE = 0 ∨ s / BASE = 1) ∧ 0 ≤ s % BASE ∧ s % BASE < BASE ∧
      s % BASE + BASE * (s / BASE) = s := by
  rw [Int.tdiv_eq_ediv h0 (le_of_lt BASE_pos), Int.tmod_eq_emod h0 (le_of_lt BASE_pos)]
  simp only [BASE] at *
  rw [wrap32_eq (by omega) (by omega), wrap32_eq (by omega) (by omega)]
  omega

theorem getLast?_cons_of_ne_nil {x : Int} {D : List Int} (h : D ≠ []) :
    (x :: D).getLast? = D.getLast? := by
  cases D with
  | nil => exact absurd rfl h
  | cons a as => simp [List.getLast?_cons_cons]

theorem addLoop_spec : ∀ (fuel : Nat) (B R A' B' : List Int) (c : Int),
    B.drop R.length = B' → GroupsInRange A' → GroupsInRange B' → (c = 0 ∨ c = 1) →
    max A'.length B'.length + 1 ≤ fuel →
    ∃ D, addLoop B (R.length + max A'.length B'.length) fuel R.length c (R ++ A')
          = .ok (R ++ D) ∧
      groupsValue D = groupsValue A' + groupsValue B' + c ∧ GroupsInRange D ∧
      (D.length = max A'.length B'.length ∨
        (D.length = max A'.length B'.length + 1 ∧ D.getLast? = some 1)) := by
  intro fuel
  induction fuel with
  | zero => intro B R A' B' c _ _ _ _ hf; omega
  | succ fuel ih =>
    intro B R A' B' c hB hA' hB' hc hf
    have hstep : ∀ (s : Int) (as bs : List Int), 0 ≤ s → s < 2 * BASE →
        B.drop (R.length + 1) = bs → GroupsInRange as → GroupsInRange bs →
        max as.length bs.length + 1 ≤ fuel →
        ∃ D, (∀ m, m = R.length + 1 + max as.length bs.length →
            addLoop B m fuel (R.length + 1) (s / BASE) (R ++ s % BASE :: as) = .ok (R ++ D)) ∧
          groupsValue D = s + BASE * (groupsValue as + groupsValue bs) ∧ GroupsInRange D ∧
          (D.length = max as.length bs.length + 1 ∨
            (D.length = max as.length bs.length + 1 + 1 ∧ D.getLast? = some 1)) := by
      intro s as bs hs0 hs1 hbs has hbs' hfuel
      obtain ⟨_, _, hq, hm0, hm1, hsum⟩ := add_step_arith hs0 hs1
      obtain ⟨D, h1, h2, h3, h4⟩ := ih B (R ++ [s % BASE]) as bs (s / BASE)
        (by simpa using hbs) has hbs' hq hfuel
      refine ⟨s % BASE :: D, ?_, ?_, ?_, ?_⟩
      · intro m hm
        subst hm
        simpa using h1
      · simp only [groupsValue, h2]
        have : BASE * (groupsValue as + groupsValue bs + s / BASE)
            = BASE * (groupsValue as + groupsValue bs) + BASE * (s / BASE) := by ring
        omega
      · rw [groupsInRange_cons]; exact ⟨⟨hm0, hm1⟩, h3⟩
      · rcases h4 with h4 | ⟨h4, h5⟩
        · left; simp [h4]
        · right
          refine ⟨by simp [h4], ?_⟩
          rw [getLast?_cons_of_ne_nil (by intro h; subst h; simp at h4), h5]
    cases A' with
    | nil =>
      cases B' with
      | nil =>
        rcases hc with hc | hc
        · subst hc
          refine ⟨[], ?_, by simp [groupsValue], GroupsInRange.nil, Or.inl rfl⟩
          simp [addLoop, pure, Except.pure]
        · subst hc
          refine ⟨[1], ?_, by simp [groupsValue], ?_, Or.inr ⟨rfl, rfl⟩⟩
          · simp [addLoop, pure, Except.pure]
          · intro d hd; simp at hd; subst hd; simp [BASE]
      | cons b bs =>
        obtain ⟨hg, hd, hlt⟩ := vget_of_drop hB
        rw [groupsInRange_cons] at hB'
        have hb := hB'.1
        have hs0 : 0 ≤ b + c := by omega
        have hs1 : b + c < 2 * BASE := by simp only [BASE] at *; omega
        obtain ⟨e1, e2, -⟩ := add_step_arith hs0 hs1
        obtain ⟨D, h1, h2, h3, h4⟩ := hstep (b + c) [] bs hs0 hs1 hd GroupsInRange.nil hB'.2
          (by simp at hf ⊢; omega)
        have hw : wrap32 (b + c) = b + c :=
          wrap32_eq (by simp only [BASE] at *; omega) (by simp only [BASE] at *; omega)
        have c1 : R.length < R.length + max ([] : List Int).length (b :: bs).length ∨ c > 0 :=
          Or.inl (by simp)
        have c2 : ¬ (R.length ≥ R.length + max ([] : List Int).length (b :: bs).length ∧ c > 0) := by
          simp
        have c3 : ¬ R.length ≥ B.length := by omega
        have c4 : ¬ R.length < R.length := by simp
        have c5 : ¬ (R.length ≥ B.length ∨ R.length < R.length) := by
          simp; omega
        refine ⟨D, ?_, ?_, h3, ?_⟩
        · rw [addLoop]
          simp only [List.append_nil, c1, c2, c3, c4, c5, ↓reduceIte, hg, bind, Except.bind,
            pure, Except.pure, hw, e1, e2]
          exact h1 _ (by simp; omega)
        · simp only [groupsValue, h2]; ring
        · simpa using h4
    | cons a as =>
      rw [groupsInRange_cons] at hA'
      have ha := hA'.1
      cases B' with
      | nil =>
        have hlen := length_le_of_drop_nil hB
        have hs0 : 0 ≤ a + c := by omega
        have hs1 : a + c < 2 * BASE := by simp only [BASE] at *; omega
        obtain ⟨e1, e2, -⟩ := add_step_arith hs0 hs1
        obtain ⟨D, h1, h2, h3, h4⟩ := hstep (a + c) as [] hs0 hs1
          (List.drop_eq_nil_of_le (by omega)) hA'.2 GroupsInRange.nil (by simp at hf ⊢; omega)
        have hw : wrap32 (a + c) = a + c :=
          wrap32_eq (by simp only [BASE] at *; omega) (by simp only [BASE] at *; omega)
        have c1 : R.length < R.length + max (a :: as).length ([] : List Int).length ∨ c > 0 :=
          Or.inl (by simp)
        have c2 : ¬ (R.length ≥ R.length + max (a :: as).length ([] : List Int).length ∧ c > 0) := by
          simp
        have c3 : (R ++ a :: as).length ≥ B.length := by simp; omega
        have c4 : ¬ R.length < B.length := by omega
        have c5 : ((R ++ a :: as).length ≥ B.length ∨ R.length < (R ++ a :: as).length) :=
          Or.inl c3
        refine ⟨D, ?_, ?_, h3, ?_⟩
        · rw [addLoop]
          simp only [c1, c2, c3, c4, c5, ↓reduceIte, vget_append_cons, vset_append_cons, bind,
            Except.bind, pure, Except.pure, hw, e1, e2]
          exact h1 _ (by simp; omega)
        · simp only [groupsValue, h2]; ring
        · simpa using h4
      | cons b bs =>
        obtain ⟨hg, hd, hlt⟩ := vget_of_drop hB
        rw [groupsInRange_cons] at hB'
        have hb := hB'.1
        have hs0 : 0 ≤ a + b + c := by omega
        have hs1 : a + b + c < 2 * BASE := by simp only [BASE] at *; omega
        obtain ⟨e1, e2, -⟩ := add_step_arith hs0 hs1
        obtain ⟨D, h1, h2, h3, h4⟩ := hstep (a + b + c) as bs hs0 hs1 hd hA'.2 hB'.2
          (by simp at hf ⊢; omega)
        have hw1 : wrap32 (a + b) = a + b :=
          wrap32_eq (by simp only [BASE] at *; omega) (by simp only [BASE] at *; omega)
        have hw : wrap32 (a + b + c) = a + b + c :=
          wrap32_eq (by simp only [BASE] at *; omega) (by simp only [BASE] at *; omega)
        have c1 : R.length < R.length + max (a :: as).length (b :: bs).length ∨ c > 0 :=
          Or.inl (by simp)
        have c2 : ¬ (R.length ≥ R.length + max (a :: as).length (b :: bs).length ∧ c > 0) := by
          simp
        have c4 : R.length < (R ++ a :: as).length := by simp
        have c5 : ((R ++ a :: as).length ≥ B.length ∨ R.length < (R ++ a :: as).length) :=
          Or.inr c4
        refine ⟨D, ?_, ?_, h3, ?_⟩
        · rw [addLoop]
          simp only [c1, c2, hlt, c4, c5, ↓reduceIte, vget_append_cons, vset_append_cons, hg,
            bind, Except.bind, pure, Except.pure, hw1, hw, e1, e2, ite_self, or_true]
          exact h1 _ (by simp only [List.length_cons]; rw [Nat.succ_max_succ]; omega)
        · simp only [groupsValue, h2]; ring
        · simp only [List.length_cons] at h4 ⊢
          rw [Nat.succ_max_succ]
          exact h4
end BigInteger

namespace BigInteger

/-- The same-sign branch of `operator+=` on non-empty vectors in range. -/
theorem addSameSign_spec (a b : BigInteger) (hane : a.digits_ ≠ [])
    (ha : GroupsInRange a.digits_) (hb : GroupsInRange b.digits_) :
    ∃ D, addSameSign a b = .ok { digits_ := D, sign_ := a.sign_ } ∧ Normalized D ∧
      groupsValue D = groupsValue a.digits_ + groupsValue b.digits_ := by
  obtain ⟨L, h1, h2, h3, h4⟩ := addLoop_spec (max a.digits_.length b.digits_.length + 1)
    b.digits_ [] a.digits_ b.digits_ 0 rfl ha hb (Or.inl rfl) (le_refl _)
  simp only [List.length_nil, Nat.zero_add, List.nil_append] at h1
  have hL : L ≠ [] := by
    have : 0 < a.digits_.length := List.length_pos.mpr hane
    intro h; subst h
    simp at h4; omega
  obtain ⟨D, g1, g2, g3, _⟩ := remove_leading_zeroes_inRange { a with digits_ := L } hL h3
  refine ⟨D, ?_, g3, ?_⟩
  · unfold addSameSign
    simp only [h1, bind, Except.bind]
    exact g1
  · rw [g2]; simp only; rw [h2]; ring

/-- The same-sign branch of `operator+=` on well-formed operands of equal sign: the raw
result of the loop is already normalized. -/
theorem addSameSign_wellFormed {a b : BigInteger} (ha : WellFormed a) (hb : WellFormed b)
    (hs : a.sign_ = b.sign_) :
    ∃ r, addSameSign a b = .ok r ∧ WellFormed r ∧ r.sign_ = a.sign_ ∧
      value r = value a + value b ∧
      (r.digits_.length = max a.digits_.length b.digits_.length ∨
        (r.digits_.length = max a.digits_.length b.digits_.length + 1 ∧
          r.digits_.getLast? = some 1)) := by
  obtain ⟨L, h1, h2, h3, h4⟩ := addLoop_spec (max a.digits_.length b.digits_.length + 1)
    b.digits_ [] a.digits_ b.digits_ 0 rfl ha.1.inRange hb.1.inRange (Or.inl rfl) (le_refl _)
  simp only [List.length_nil, Nat.zero_add, List.nil_append, add_zero] at h1 h2
  have hvA := groupsValue_nonneg ha.1.inRange
  have hvB := groupsValue_nonneg hb.1.inRange
  have hlenA : 0 < a.digits_.length := List.length_pos.mpr ha.1.ne_nil
  have hL : L ≠ [] := by
    intro h; subst h
    simp at h4; omega
  -- the raw loop output is normalized
  have hnorm : Normalized L := by
    refine ⟨hL, h3, ?_⟩
    intro hlast
    rcases h4 with h4 | ⟨_, h5⟩
    · rcases List.eq_nil_or_concat L with hnil | ⟨L', x, hL'⟩
      · exact absurd hnil hL
      · subst hL'
        rw [List.concat_eq_append] at *
        simp at hlast
        subst hlast
        rw [groupsInRange_append] at h3
        have hlt := groupsValue_lt_pow h3.1
        rw [groupsValue_append] at h2
        simp only [groupsValue, mul_zero, add_zero] at h2
        simp only [List.length_append, List.length_singleton] at h4
        by_cases hz : a.sign_ = .ZERO
        · have e1 := ha.2.1 hz
          have e2 := hb.2.1 (hs ▸ hz)
          rw [e1, e2] at h4
          simp at h4
          rw [h4]; rfl
        · exfalso
          have hA0 : a.digits_ ≠ [0] := fun h => hz (ha.2.2 h)
          have hB0 : b.digits_ ≠ [0] := fun h => hz (hs ▸ hb.2.2 h)
          have pA := ha.1.pow_le hA0
          have pB := hb.1.pow_le hB0
          rcases le_total a.digits_.length b.digits_.length with hle | hle
          · rw [Nat.max_eq_right hle] at h4
            have : b.digits_.length - 1 = L'.length := by omega
            rw [this] at pB
            omega
          · rw [Nat.max_eq_left hle] at h4
            have : a.digits_.length - 1 = L'.length := by omega
            rw [this] at pA
            omega
    · rw [h5] at hlast
      simp at hlast
  refine ⟨{ digits_ := L, sign_ := a.sign_ }, ?_, ⟨hnorm, ?_⟩, rfl, ?_, h4⟩
  · unfold addSameSign
    simp only [h1, bind, Except.bind]
    exact remove_leading_zeroes_normalized _ hnorm
  · simp only
    constructor
    · intro hz
      have e1 := ha.2.1 hz
      have e2 := hb.2.1 (hs ▸ hz)
      apply hnorm.eq_zero_of_value
      rw [h2, e1, e2]; rfl
    · intro hz
      by_contra hne
      have hA0 : a.digits_ ≠ [0] := fun h => hne (ha.2.2 h)
      have := ha.1.value_pos hA0
      rw [hz] at h2
      simp [groupsValue] at h2
      omega
  · simp only [value, h2, ← hs]; ring

theorem opAddAssign_same_sign {a b : BigInteger} (hs : a.sign_ = b.sign_) :
    opAddAssign a b = addSameSign a b := by
  simp [opAddAssign, opAddAssignN, hs]

theorem opSubAssign_same_sign {a b : BigInteger} (hs : a.sign_ = b.sign_) :
    opSubAssign a b = subSameSign a b := by
  simp [opSubAssign, opSubAssignN, hs]

theorem opEq_zero (a : BigInteger) : opEq a (ofLongLong 0) = decide (a.sign_ = .ZERO) := by
  obtain ⟨d, s⟩ := a
  cases s <;> simp [opEq, ofLongLong_zero]

theorem opNeg_zero {a : BigInteger} (h : a.sign_ = .ZERO) : opNeg a = a := by
  obtain ⟨d, s⟩ := a
  simp only at h; subst h; rfl

/-- `operator+=` when the receiver has sign `ZERO` and the operand has not. -/
theorem opAddAssign_zero_left {a b : BigInteger} (ha : a.sign_ = .ZERO) (hb : b.sign_ ≠ .ZERO) :
    opAddAssign a b = remove_leading_zeroes b := by
  have : a.sign_ ≠ b.sign_ := by rw [ha]; exact fun h => hb h.symm
  unfold opAddAssign
  rw [opAddAssignN, if_neg this, opEq_zero, if_pos (by simpa using ha)]

/-- `operator+=` when the operand has sign `ZERO` and the receiver has not. -/
theorem opAddAssign_zero_right {a b : BigInteger} (ha : a.sign_ ≠ .ZERO) (hb : b.sign_ = .ZERO) :
    opAddAssign a b = remove_leading_zeroes a := by
  have h1 : a.sign_ ≠ b.sign_ := by rw [hb]; exact ha
  have h2 : a.sign_ ≠ (opNeg b).sign_ := by rw [opNeg_zero hb, hb]; exact ha
  unfold opAddAssign
  rw [opAddAssignN, if_neg h1, opEq_zero, if_neg (by simpa using ha), opSubAssignN, if_neg h2,
    opEq_zero, if_pos (by rw [opNeg_zero hb]; simpa using hb)]

/-- `operator-=` when the operand has sign `ZERO` and the receiver has not. -/
theorem opSubAssign_zero_right {a b : BigInteger} (ha : a.sign_ ≠ .ZERO) (hb : b.sign_ = .ZERO) :
    opSubAssign a b = remove_leading_zeroes a := by
  have h1 : a.sign_ ≠ b.sign_ := by rw [hb]; exact ha
  unfold opSubAssign
  rw [opSubAssignN, if_neg h1, opEq_zero, if_pos (by simpa using hb)]

theorem value_of_sign_zero {a : BigInteger} (h : a.sign_ = .ZERO) : value a = 0 := by
  simp [value, h, sign.toInt]

theorem WellFormed.value_nonneg {a : BigInteger} (ha : WellFormed a)
    (hs : a.sign_ ≠ .NEGATIVE) : 0 ≤ value a := by
  obtain ⟨d, s⟩ := a
  have := groupsValue_nonneg ha.1.inRange
  cases s
  · exact absurd rfl hs
  · simp [value, sign.toInt]
  · simpa [value, sign.toInt] using this

theorem WellFormed.sign_zero_iff {a : BigInteger} (ha : WellFormed a) :
    a.sign_ = .ZERO ↔ value a = 0 := by
  obtain ⟨d, s⟩ := a
  constructor
  · intro h; exact value_of_sign_zero h
  · intro h
    by_contra hne
    have := ha.1.value_pos (fun h0 => hne (ha.2.2 h0))
    cases s
    · simp [value, sign.toInt] at h; simp only at this; omega
    · exact hne rfl
    · simp [value, sign.toInt] at h; simp only at this; omega

theorem WellFormed.sign_positive_iff {a : BigInteger} (ha : WellFormed a) :
    a.sign_ = .POSITIVE ↔ 0 < value a := by
  obtain ⟨d, s⟩ := a
  have h0 := groupsValue_nonneg ha.1.inRange
  have hp : s ≠ .ZERO → 0 < groupsValue d := fun hne =>
    ha.1.value_pos (fun h0 => hne (ha.2.2 h0))
  simp only at h0
  cases s
  · have := hp (by simp)
    simp [value, sign.toInt]; omega
  · simp [value, sign.toInt]
  · have := hp (by simp)
    simpa [value, sign.toInt] using this

/-- `operator+=` on well-formed non-negative operands. -/
theorem opAddAssign_nonneg {a b : BigInteger} (ha : WellFormed a) (hb : WellFormed b)
    (hsa : a.sign_ ≠ .NEGATIVE) (hsb : b.sign_ ≠ .NEGATIVE) :
    ∃ r, opAddAssign a b = .ok r ∧ WellFormed r ∧ r.sign_ ≠ .NEGATIVE ∧
      value r = value a + value b := by
  by_cases hs : a.sign_ = b.sign_
  · obtain ⟨r, h1, h2, h3, h4, _⟩ := addSameSign_wellFormed ha hb hs
    exact ⟨r, by rw [opAddAssign_same_sign hs]; exact h1, h2, by rw [h3]; exact hsa, h4⟩
  · by_cases hz : a.sign_ = .ZERO
    · have hbz : b.sign_ ≠ .ZERO := fun h => hs (by rw [hz, h])
      refine ⟨b, ?_, hb, hsb, ?_⟩
      · rw [opAddAssign_zero_left hz hbz]; exact remove_leading_zeroes_normalized _ hb.1
      · rw [value_of_sign_zero hz]; ring
    · have hbz : b.sign_ = .ZERO := by
        cases hA : a.sign_ <;> cases hB : b.sign_ <;> simp_all
      refine ⟨a, ?_, ha, hsa, ?_⟩
      · rw [opAddAssign_zero_right hz hbz]; exact remove_leading_zeroes_normalized _ ha.1
      · rw [value_of_sign_zero hbz]; ring

end BigInteger

namespace BigInteger

/-- The number computed by the subtraction loop: the longer operand minus the shorter one
(the receiver minus the operand when the sizes are equal). -/
theorem sub_step_arith {s : Int} (h0 : -BASE ≤ s) (h1 : s < BASE) :
    wrap32 (if s < 0 then wrap64 (s + BASE) else s) = s % BASE ∧
      (if s < 0 then (-1 : Int) else 0) = s / BASE ∧
      (s / BASE = 0 ∨ s / BASE = -1) ∧ 0 ≤ s % BASE ∧ s % BASE < BASE ∧
      s % BASE + BASE * (s / BASE) = s := by
  simp only [BASE] at *
  by_cases h : s < 0
  · rw [if_pos h, if_pos h, wrap64_eq (by omega) (by omega), wrap32_eq (by omega) (by omega)]
    omega
  · rw [if_neg h, if_neg h, wrap32_eq (by omega) (by omega)]
    omega

theorem subLoop_spec : ∀ (fuel : Nat) (B R A' B' : List Int) (c : Int),
    B.drop R.length = B' → GroupsInRange A' → GroupsInRange B' → (c = 0 ∨ c = -1) →
    max A'.length B'.length + 1 ≤ fuel →
    0 ≤ (if A'.length ≥ B'.length then groupsValue A' - groupsValue B'
          else groupsValue B' - groupsValue A') + c →
    ∃ D, subLoop B (R.length + max A'.length B'.length) fuel R.length c (R ++ A')
          = .ok (R ++ D) ∧
      groupsValue D = (if A'.length ≥ B'.length then groupsValue A' - groupsValue B'
          else groupsValue B' - groupsValue A') + c ∧
      GroupsInRange D ∧ D.length = max A'.length B'.length := by
  intro fuel
  induction fuel with
  | zero => intro B R A' B' c _ _ _ _ hf; omega
  | succ fuel ih =>
    intro B R A' B' c hB hA' hB' hc hf hv
    have hstep : ∀ (s : Int) (as bs : List Int), -BASE ≤ s → s < BASE →
        B.drop (R.length + 1) = bs → GroupsInRange as → GroupsInRange bs →
        max as.length bs.length + 1 ≤ fuel →
        0 ≤ s + BASE * (if as.length ≥ bs.length then groupsValue as - groupsValue bs
          else groupsValue bs - groupsValue as) →
        ∃ D, (∀ m, m = R.length + 1 + max as.length bs.length →
            subLoop B m fuel (R.length + 1) (s / BASE) (R ++ s % BASE :: as) = .ok (R ++ D)) ∧
          groupsValue D = s + BASE * (if as.length ≥ bs.length then groupsValue as - groupsValue bs
            else groupsValue bs - groupsValue as) ∧ GroupsInRange D ∧
          D.length = max as.length bs.length + 1 := by
      intro s as bs hs0 hs1 hbs has hbs' hfuel hnn
      obtain ⟨_, _, hq, hm0, hm1, hsum⟩ := sub_step_arith hs0 hs1
      generalize hw : (if as.length ≥ bs.length then groupsValue as - groupsValue bs
          else groupsValue bs - groupsValue as) = w at hnn ⊢
      have hnn' : 0 ≤ w + s / BASE := by
        simp only [BASE] at *; omega
      obtain ⟨D, h1, h2, h3, h4⟩ := ih B (R ++ [s % BASE]) as bs (s / BASE)
        (by simpa using hbs) has hbs' hq hfuel (by rw [hw]; exact hnn')
      rw [hw] at h2
      refine ⟨s % BASE :: D, ?_, ?_, ?_, ?_⟩
      · intro m hm
        subst hm
        simpa using h1
      · simp only [groupsValue, h2]
        have : BASE * (w + s / BASE) = BASE * w + BASE * (s / BASE) := by ring
        omega
      · rw [groupsInRange_cons]; exact ⟨⟨hm0, hm1⟩, h3⟩
      · simp [h4]
    cases A' with
    | nil =>
      cases B' with
      | nil =>
        simp only [List.length_nil, ge_iff_le, le_refl, if_true, groupsValue, sub_self,
          zero_add] at hv
        have hc0 : c = 0 := by omega
        subst hc0
        refine ⟨[], ?_, by simp [groupsValue], GroupsInRange.nil, rfl⟩
        simp [subLoop, pure, Except.pure]
      | cons b bs =>
        obtain ⟨hg, hd, hlt⟩ := vget_of_drop hB
        rw [groupsInRange_cons] at hB'
        have hb := hB'.1
        have hs0 : -BASE ≤ b + c := by simp only [BASE] at *; omega
        have hs1 : b + c < BASE := by simp only [BASE] at *; omega
        obtain ⟨e1, e2, -⟩ := sub_step_arith hs0 hs1
        have hdir : (if ([] : List Int).length ≥ bs.length then groupsValue [] - groupsValue bs
            else groupsValue bs - groupsValue []) = groupsValue bs := by
          cases bs with
          | nil => simp [groupsValue]
          | cons x xs => simp [groupsValue]
        have hv' : (if ([] : List Int).length ≥ (b :: bs).length then
            groupsValue [] - groupsValue (b :: bs)
            else groupsValue (b :: bs) - groupsValue []) = b + BASE * groupsValue bs := by
          simp [groupsValue]
        rw [hv'] at hv
        obtain ⟨D, h1, h2, h3, h4⟩ := hstep (b + c) [] bs hs0 hs1 hd GroupsInRange.nil hB'.2
          (by simp at hf ⊢; omega) (by rw [hdir]; omega)
        have hw : wrap32 (b + c) = b + c :=
          wrap32_eq (by simp only [BASE] at *; omega) (by simp only [BASE] at *; omega)
        have c1 : R.length < R.length + max ([] : List Int).length (b :: bs).length ∨ c ≠ 0 :=
          Or.inl (by simp)
        have c3 : ¬ R.length ≥ B.length := by omega
        have c4 : ¬ R.length < R.length := by simp
        have c5 : ¬ (R.length ≥ B.length ∨ R.length < R.length) := by
          simp; omega
        refine ⟨D, ?_, ?_, h3, ?_⟩
        · rw [subLoop]
          simp only [List.append_nil, c1, c3, c4, c5, ↓reduceIte, hg, bind, Except.bind,
            pure, Except.pure, hw, e1, e2]
          exact h1 _ (by simp; omega)
        · rw [h2, hdir, hv']; ring
        · simpa using h4
    | cons a as =>
      rw [groupsInRange_cons] at hA'
      have ha := hA'.1
      cases B' with
      | nil =>
        have hlen := length_le_of_drop_nil hB
        have hs0 : -BASE ≤ a + c := by simp only [BASE] at *; omega
        have hs1 : a + c < BASE := by simp only [BASE] at *; omega
        obtain ⟨e1, e2, -⟩ := sub_step_arith hs0 hs1
        have hdir : (if as.length ≥ ([] : List Int).length then groupsValue as - groupsValue []
            else groupsValue [] - groupsValue as) = groupsValue as := by
          simp [groupsValue]
        have hv' : (if (a :: as).length ≥ ([] : List Int).length then
            groupsValue (a :: as) - groupsValue []
            else groupsValue [] - groupsValue (a :: as)) = a + BASE * groupsValue as := by
          simp [groupsValue]
        rw [hv'] at hv
        obtain ⟨D, h1, h2, h3, h4⟩ := hstep (a + c) as [] hs0 hs1
          (List.drop_eq_nil_of_le (by omega)) hA'.2 GroupsInRange.nil (by simp at hf ⊢; omega)
          (by rw [hdir]; omega)
        have hw : wrap32 (a + c) = a + c :=
          wrap32_eq (by simp only [BASE] at *; omega) (by simp only [BASE] at *; omega)
        have c1 : R.length < R.length + max (a :: as).length ([] : List Int).length ∨ c ≠ 0 :=
          Or.inl (by simp)
        have c3 : (R ++ a :: as).length ≥ B.length := by simp; omega
        have c4 : ¬ R.length < B.length := by omega
        have c5 : ((R ++ a :: as).length ≥ B.length ∨ R.length < (R ++ a :: as).length) :=
          Or.inl c3
        refine ⟨D, ?_, ?_, h3, ?_⟩
        · rw [subLoop]
          simp only [c1, c3, c4, c5, ↓reduceIte, vget_append_cons, vset_append_cons, bind,
            Except.bind, pure, Except.pure, hw, e1, e2]
          exact h1 _ (by simp; omega)
        · rw [h2, hdir, hv']; ring
        · simpa using h4
      | cons b bs =>
        obtain ⟨hg, hd, hlt⟩ := vget_of_drop hB
        rw [groupsInRange_cons] at hB'
        have hb := hB'.1
        have hBlen := length_of_drop hB (by omega)
        simp only [List.length_cons] at hBlen
        have c1 : R.length < R.length + max (a :: as).length (b :: bs).length ∨ c ≠ 0 :=
          Or.inl (by simp)
        have c4 : R.length < (R ++ a :: as).length := by simp
        have c5 : ((R ++ a :: as).length ≥ B.length ∨ R.length < (R ++ a :: as).length) :=
          Or.inr c4
        by_cases hge : as.length ≥ bs.length
        · have hs0 : -BASE ≤ a - b + c := by simp only [BASE] at *; omega
          have hs1 : a - b + c < BASE := by simp only [BASE] at *; omega
          obtain ⟨e1, e2, -⟩ := sub_step_arith hs0 hs1
          have hv' : (if (a :: as).length ≥ (b :: bs).length then
              groupsValue (a :: as) - groupsValue (b :: bs)
              else groupsValue (b :: bs) - groupsValue (a :: as)) =
              a - b + BASE * (if as.length ≥ bs.length then groupsValue as - groupsValue bs
                else groupsValue bs - groupsValue as) := by
            simp only [List.length_cons, ge_iff_le, Nat.add_le_add_iff_right, groupsValue]
            rw [if_pos hge, if_pos hge]; ring
          rw [hv'] at hv
          obtain ⟨D, h1, h2, h3, h4⟩ := hstep (a - b + c) as bs hs0 hs1 hd hA'.2 hB'.2
            (by simp at hf ⊢; omega) (by omega)
          have hw1 : wrap32 (a - b) = a - b :=
            wrap32_eq (by simp only [BASE] at *; omega) (by simp only [BASE] at *; omega)
          have hw : wrap32 (a - b + c) = a - b + c :=
            wrap32_eq (by simp only [BASE] at *; omega) (by simp only [BASE] at *; omega)
          have c3 : (R ++ a :: as).length ≥ B.length := by simp; omega
          refine ⟨D, ?_, ?_, h3, ?_⟩
          · rw [subLoop]
            simp only [c1, c3, hlt, c4, c5, ↓reduceIte, vget_append_cons, vset_append_cons, hg,
              bind, Except.bind, pure, Except.pure, hw1, hw, e1, e2, or_true]
            exact h1 _ (by simp only [List.length_cons]; rw [Nat.succ_max_succ]; omega)
          · rw [h2, hv']; ring
          · simp only [List.length_cons] at h4 ⊢
            rw [Nat.succ_max_succ]
            exact h4
        · have hs0 : -BASE ≤ b - a + c := by simp only [BASE] at *; omega
          have hs1 : b - a + c < BASE := by simp only [BASE] at *; omega
          obtain ⟨e1, e2, -⟩ := sub_step_arith hs0 hs1
          have hv' : (if (a :: as).length ≥ (b :: bs).length then
              groupsValue (a :: as) - groupsValue (b :: bs)
              else groupsValue (b :: bs) - groupsValue (a :: as)) =
              b - a + BASE * (if as.length ≥ bs.length then groupsValue as - groupsValue bs
                else groupsValue bs - groupsValue as) := by
            simp only [List.length_cons, ge_iff_le, Nat.add_le_add_iff_right, groupsValue]
            rw [if_neg hge, if_neg hge]; ring
          rw [hv'] at hv
          obtain ⟨D, h1, h2, h3, h4⟩ := hstep (b - a + c) as bs hs0 hs1 hd hA'.2 hB'.2
            (by simp at hf ⊢; omega) (by omega)
          have hw1 : wrap32 (b - a) = b - a :=
            wrap32_eq (by simp only [BASE] at *; omega) (by simp only [BASE] at *; omega)
          have hw : wrap32 (b - a + c) = b - a + c :=
            wrap32_eq (by simp only [BASE] at *; omega) (by simp only [BASE] at *; omega)
          have c3 : ¬ (R ++ a :: as).length ≥ B.length := by simp; omega
          refine ⟨D, ?_, ?_, h3, ?_⟩
          · rw [subLoop]
            simp only [c1, c3, hlt, c4, c5, ↓reduceIte, vget_append_cons, vset_append_cons, hg,
              bind, Except.bind, pure, Except.pure, hw1, hw, e1, e2, or_true]
            exact h1 _ (by simp only [List.length_cons]; rw [Nat.succ_max_succ]; omega)
          · rw [h2, hv']; ring
          · simp only [List.length_cons] at h4 ⊢
            rw [Nat.succ_max_succ]
            exact h4

end BigInteger

namespace BigInteger

theorem opNeg_digits (a : BigInteger) : (opNeg a).digits_ = a.digits_ := rfl

theorem opNeg_wellFormed {a : BigInteger} (ha : WellFormed a) :
    WellFormed (opNeg a) ∧ value (opNeg a) = - value a := by
  obtain ⟨d, s⟩ := a
  cases s
  · refine ⟨⟨ha.1, ?_⟩, by simp [opNeg, value, sign.toInt]⟩
    have := ha.2; simp at this; simp [opNeg, this]
  · exact ⟨ha, by simp [opNeg, value, sign.toInt]⟩
  · refine ⟨⟨ha.1, ?_⟩, by simp [opNeg, value, sign.toInt]⟩
    have := ha.2; simp at this; simp [opNeg, this]

theorem opNeg_sign (a : BigInteger) :
    (opNeg a).sign_ = match a.sign_ with
      | .NEGATIVE => .POSITIVE
      | .ZERO => .ZERO
      | .POSITIVE => .NEGATIVE := by
  obtain ⟨d, s⟩ := a
  cases s <;> rfl

/-- The same-sign branch of `operator-=` on well-formed operands, outside the one case in
which the loop subtracts in the wrong direction (equal sizes, receiver smaller). -/
theorem subSameSign_wellFormed {a b : BigInteger} (ha : WellFormed a) (hb : WellFormed b)
    (hs : a.sign_ = b.sign_)
    (hdir : a.digits_.length ≠ b.digits_.length ∨ groupsValue b.digits_ ≤ groupsValue a.digits_) :
    ∃ r, subSameSign a b = .ok r ∧ WellFormed r ∧ value r = value a - value b := by
  obtain ⟨wa, na, _, va⟩ := abs_wellFormed ha
  obtain ⟨wb, nb, _, vb⟩ := abs_wellFormed hb
  have hEq := opEq_of_wellFormed wa wb
  have hLt := opLt_of_nonneg wa wb na nb
  rw [va, vb] at hEq hLt
  unfold subSameSign
  by_cases hv : groupsValue a.digits_ = groupsValue b.digits_
  · refine ⟨ofLongLong 0, ?_, by decide, ?_⟩
    · rw [hEq]
      simp only [hv, decide_True, if_true]
      decide
    · simp only [value, hs, hv]
      rw [ofLongLong_zero]; simp [sign.toInt]
  · have hnz : a.sign_ ≠ .ZERO := by
      intro hz
      apply hv
      rw [ha.2.1 hz, hb.2.1 (hs ▸ hz)]
    have hA0 : a.digits_ ≠ [0] := fun h => hnz (ha.2.2 h)
    have hB0 : b.digits_ ≠ [0] := fun h => hnz (hs ▸ hb.2.2 h)
    -- the direction chosen by the loop gives a positive number
    have hpos : 0 < (if a.digits_.length ≥ b.digits_.length
        then groupsValue a.digits_ - groupsValue b.digits_
        else groupsValue b.digits_ - groupsValue a.digits_) := by
      by_cases hge : a.digits_.length ≥ b.digits_.length
      · rw [if_pos hge]
        rcases hdir with hne | hle
        · have := groupsValue_lt_of_length_lt hb.1.inRange ha.1 hA0 (by omega)
          omega
        · omega
      · rw [if_neg hge]
        have := groupsValue_lt_of_length_lt ha.1.inRange hb.1 hB0 (by omega)
        omega
    obtain ⟨L, h1, h2, h3, h4⟩ := subLoop_spec (max a.digits_.length b.digits_.length + 1)
      b.digits_ [] a.digits_ b.digits_ 0 rfl ha.1.inRange hb.1.inRange (Or.inl rfl) (le_refl _)
      (by omega)
    simp only [List.length_nil, Nat.zero_add, List.nil_append, add_zero] at h1 h2
    have hL : L ≠ [] := by
      have : 0 < a.digits_.length := List.length_pos.mpr ha.1.ne_nil
      intro h; subst h
      simp at h4; omega
    generalize hsg : (if opLt (abs a) (abs b) = true then
        (if a.sign_ = sign.NEGATIVE then sign.POSITIVE else sign.NEGATIVE) else a.sign_) = sg
    obtain ⟨D, g1, g2, g3, _⟩ := remove_leading_zeroes_inRange { digits_ := L, sign_ := sg } hL h3
    simp only at g2
    have hD0 : D ≠ [0] := by
      intro h; rw [h, h2] at g2
      simp [groupsValue] at g2; omega
    have hsgne : sg ≠ .ZERO := by
      rw [← hsg]
      split
      · split <;> simp
      · exact hnz
    refine ⟨{ digits_ := D, sign_ := sg }, ?_, ⟨g3, ?_⟩, ?_⟩
    · rw [hEq]
      simp only [hv, decide_False, Bool.false_eq_true, if_false, h1, bind, Except.bind, hsg]
      exact g1
    · simp only
      constructor
      · intro h; exact absurd h hsgne
      · intro h; exact absurd h hD0
    · simp only [value, g2, h2, ← hs]
      rw [← hsg, hLt]
      by_cases hlt : groupsValue a.digits_ < groupsValue b.digits_
      · have hlen : ¬ a.digits_.length ≥ b.digits_.length := by
          intro hge
          rcases hdir with hne | hle
          · have := groupsValue_lt_of_length_lt hb.1.inRange ha.1 hA0 (by omega)
            omega
          · omega
        simp only [hlt, decide_True, if_true, if_neg hlen]
        cases hsa : a.sign_
        · simp [sign.toInt]; ring
        · exact absurd hsa hnz
        · simp [sign.toInt]
      · have hlen : a.digits_.length ≥ b.digits_.length := by
          by_contra hge
          have := groupsValue_lt_of_length_lt ha.1.inRange hb.1 hB0 (by omega)
          omega
        simp only [hlt, decide_False, Bool.false_eq_true, if_false, if_pos hlen]
        ring

/-- `operator-=` on well-formed operands. -/
theorem opSubAssign_wellFormed {a b : BigInteger} (ha : WellFormed a) (hb : WellFormed b)
    (hok : a.sign_ = b.sign_ → ¬ Misdirected a b) :
    ∃ r, opSubAssign a b = .ok r ∧ WellFormed r ∧ value r = value a - value b := by
  by_cases hs : a.sign_ = b.sign_
  · rw [opSubAssign_same_sign hs]
    apply subSameSign_wellFormed ha hb hs
    have := hok hs
    unfold Misdirected at this
    by_cases hl : a.digits_.length = b.digits_.length
    · right; simp [hl] at this; exact this
    · left; exact hl
  · by_cases hbz : b.sign_ = .ZERO
    · have haz : a.sign_ ≠ .ZERO := fun h => hs (by rw [h, hbz])
      refine ⟨a, ?_, ha, ?_⟩
      · rw [opSubAssign_zero_right haz hbz]; exact remove_leading_zeroes_normalized _ ha.1
      · rw [value_of_sign_zero hbz]; ring
    · obtain ⟨wn, vn⟩ := opNeg_wellFormed hb
      have hstep : opSubAssign a b = opAddAssignN 2 a (opNeg b) := by
        unfold opSubAssign
        rw [opSubAssignN, if_neg hs, opEq_zero, if_neg (by simpa using hbz)]
      rw [hstep]
      by_cases haz : a.sign_ = .ZERO
      · refine ⟨opNeg b, ?_, wn, ?_⟩
        · have hne : a.sign_ ≠ (opNeg b).sign_ := by
            rw [haz, opNeg_sign]
            cases hB : b.sign_ <;> simp_all
          rw [opAddAssignN, if_neg hne, opEq_zero, if_pos (by simpa using haz)]
          exact remove_leading_zeroes_normalized _ wn.1
        · rw [vn, value_of_sign_zero haz]; ring
      · have heq : a.sign_ = (opNeg b).sign_ := by
          rw [opNeg_sign]
          cases hA : a.sign_ <;> cases hB : b.sign_ <;> simp_all
        obtain ⟨r, h1, h2, _, h4, _⟩ := addSameSign_wellFormed ha wn heq
        refine ⟨r, ?_, h2, ?_⟩
        · rw [opAddAssignN, if_pos heq]; exact h1
        · rw [h4, vn]; ring

/-- `operator+=` on well-formed operands. -/
theorem opAddAssign_wellFormed {a b : BigInteger} (ha : WellFormed a) (hb : WellFormed b)
    (hok : a.sign_ ≠ b.sign_ → a.sign_ ≠ .ZERO → b.sign_ ≠ .ZERO → ¬ Misdirected a b) :
    ∃ r, opAddAssign a b = .ok r ∧ WellFormed r ∧ value r = value a + value b := by
  by_cases hs : a.sign_ = b.sign_
  · obtain ⟨r, h1, h2, _, h4, _⟩ := addSameSign_wellFormed ha hb hs
    exact ⟨r, by rw [opAddAssign_same_sign hs]; exact h1, h2, h4⟩
  · by_cases haz : a.sign_ = .ZERO
    · have hbz : b.sign_ ≠ .ZERO := fun h => hs (by rw [haz, h])
      refine ⟨b, ?_, hb, ?_⟩
      · rw [opAddAssign_zero_left haz hbz]; exact remove_leading_zeroes_normalized _ hb.1
      · rw [value_of_sign_zero haz]; ring
    · by_cases hbz : b.sign_ = .ZERO
      · refine ⟨a, ?_, ha, ?_⟩
        · rw [opAddAssign_zero_right haz hbz]; exact remove_leading_zeroes_normalized _ ha.1
        · rw [value_of_sign_zero hbz]; ring
      · obtain ⟨wn, vn⟩ := opNeg_wellFormed hb
        have heq : a.sign_ = (opNeg b).sign_ := by
          rw [opNeg_sign]
          cases hA : a.sign_ <;> cases hB : b.sign_ <;> simp_all
        have hmis : ¬ Misdirected a (opNeg b) := hok hs haz hbz
        obtain ⟨r, h1, h2, h3⟩ := subSameSign_wellFormed ha wn heq (by
          unfold Misdirected at hmis
          rw [opNeg_digits] at hmis ⊢
          by_cases hl : a.digits_.length = b.digits_.length
          · right; simp [hl] at hmis; exact hmis
          · left; exact hl)
        refine ⟨r, ?_, h2, ?_⟩
        · unfold opAddAssign
          rw [opAddAssignN, if_neg hs, opEq_zero, if_neg (by simpa using haz), opSubAssignN,
            if_pos heq]
          exact h1
        · rw [h3, vn]; ring

/-- `operator-=` on well-formed non-negative operands, the operand not exceeding the
receiver. -/
theorem opSubAssign_nonneg {a b : BigInteger} (ha : WellFormed a) (hb : WellFormed b)
    (hsa : a.sign_ ≠ .NEGATIVE) (hle : value b ≤ value a) :
    ∃ r, opSubAssign a b = .ok r ∧ WellFormed r ∧ r.sign_ ≠ .NEGATIVE ∧
      value r = value a - value b := by
  obtain ⟨r, h1, h2, h3⟩ := opSubAssign_wellFormed ha hb (by
    intro hs hm
    unfold Misdirected at hm
    have e1 : value a = a.sign_.toInt * groupsValue a.digits_ := rfl
    have e2 : value b = b.sign_.toInt * groupsValue b.digits_ := rfl
    rw [← hs] at e2
    have := hm.2
    cases hA : a.sign_
    · exact hsa hA
    · rw [ha.2.1 hA, hb.2.1 (hs ▸ hA)] at this; simp at this
    · rw [hA] at e1 e2; simp only [sign.toInt, one_mul] at e1 e2; omega)
  refine ⟨r, h1, h2, ?_, h3⟩
  intro hneg
  have := groupsValue_nonneg h2.1.inRange
  have hp := h2.1.value_pos (fun h0 => by have := h2.2.2 h0; rw [hneg] at this; simp at this)
  have e : value r = r.sign_.toInt * groupsValue r.digits_ := rfl
  rw [hneg] at e
  simp only [sign.toInt] at e
  omega

end BigInteger

namespace BigInteger

/-- Arithmetic of one step of the inner multiplication loop. -/
theorem mul_step_arith {x s c : Int} (hx0 : 0 ≤ x) (hx1 : x < BASE) (hs0 : 0 ≤ s)
    (hs1 : s < BASE) (hc0 : 0 ≤ c) (hc1 : c < BASE) :
    wrap64 (wrap64 (x * s) + c) = x * s + c ∧
      (x * s + c).tdiv BASE = (x * s + c) / BASE ∧
      wrap32 ((x * s + c).tmod BASE) = (x * s + c) % BASE ∧
      0 ≤ (x * s + c) / BASE ∧ (x * s + c) / BASE < BASE ∧
      0 ≤ (x * s + c) % BASE ∧ (x * s + c) % BASE < BASE ∧
      (x * s + c) % BASE + BASE * ((x * s + c) / BASE) = x * s + c := by
  have h0 : 0 ≤ x * s := mul_nonneg hx0 hs0
  have h1 : x * s ≤ (BASE - 1) * (BASE - 1) :=
    mul_le_mul (by omega) (by omega) hs0 (by simp [BASE])
  generalize x * s = p at *
  simp only [BASE] at *
  have h2 : (999999999 : Int) * 999999999 = 999999998000000001 := by norm_num
  rw [show ((1000000000 : Int) - 1) = 999999999 by norm_num, h2] at h1
  have w1 : wrap64 p = p := wrap64_eq (by omega) (by omega)
  have w2 : wrap64 (p + c) = p + c := wrap64_eq (by omega) (by omega)
  rw [w1, w2, Int.tdiv_eq_ediv (by omega) (by omega), Int.tmod_eq_emod (by omega) (by omega),
    wrap32_eq (by omega) (by omega)]
  omega

theorem mulInner_spec (x : Int) (src : List Int) (hx0 : 0 ≤ x) (hx1 : x < BASE) :
    ∀ (fuel j : Nat) (S' : List Int) (c : Int) (level : BigInteger),
    src.drop j = S' → GroupsInRange S' → 0 ≤ c → c < BASE → S'.length + 1 ≤ fuel →
    ∃ D, mulInner x src fuel j c level =
        .ok { digits_ := level.digits_ ++ D,
              sign_ := if S' = [] then level.sign_ else .POSITIVE } ∧
      groupsValue D = x * groupsValue S' + c ∧ GroupsInRange D ∧ S'.length ≤ D.length := by
  intro fuel
  induction fuel with
  | zero => intro j S' c level _ _ _ _ hf; omega
  | succ fuel ih =>
    intro j S' c level hS hr hc0 hc1 hf
    cases S' with
    | nil =>
      have hlen := length_le_of_drop_nil hS
      have c1 : ¬ j < src.length := by omega
      by_cases hc : c > 0
      · refine ⟨[c], ?_, by simp [groupsValue], ?_, by simp⟩
        · rw [mulInner]
          have hw : wrap32 c = c := by
            simp only [BASE] at hc1; exact wrap32_eq (by omega) (by omega)
          simp [c1, hc, hw, pure, Except.pure]
        · intro d hd; simp at hd; subst hd; exact ⟨hc0, hc1⟩
      · refine ⟨[], ?_, ?_, GroupsInRange.nil, by simp⟩
        · rw [mulInner]
          simp [c1, hc, pure, Except.pure]
        · simp [groupsValue]; omega
    | cons s ss =>
      obtain ⟨hg, hd, hlt⟩ := vget_of_drop hS
      rw [groupsInRange_cons] at hr
      obtain ⟨e1, e2, e3, q0, q1, m0, m1, hsum⟩ :=
        mul_step_arith hx0 hx1 hr.1.1 hr.1.2 hc0 hc1
      obtain ⟨D, h1, h2, h3, h4⟩ := ih (j + 1) ss ((x * s + c) / BASE)
        { digits_ := level.digits_ ++ [(x * s + c) % BASE], sign_ := .POSITIVE }
        hd hr.2 q0 q1 (by simp at hf; omega)
      refine ⟨(x * s + c) % BASE :: D, ?_, ?_, ?_, by simp; omega⟩
      · rw [mulInner]
        have c1 : j < src.length ∨ c > 0 := Or.inl hlt
        have c2 : ¬ (j ≥ src.length ∧ c > 0) := by omega
        simp only [c1, c2, ↓reduceIte, hg, bind, Except.bind, e1, e2, e3]
        rw [h1]
        simp
      · simp only [groupsValue, h2]
        have : BASE * (x * groupsValue ss + (x * s + c) / BASE)
            = x * (BASE * groupsValue ss) + BASE * ((x * s + c) / BASE) := by ring
        have h5 : x * (s + BASE * groupsValue ss) = x * s + x * (BASE * groupsValue ss) := by
          ring
        omega
      · rw [groupsInRange_cons]; exact ⟨⟨m0, m1⟩, h3⟩

/-- The accumulator of `operator*=`: either still the initial zero, or a positive
normalized vector. -/
theorem mulOuter_spec (outer inner : List Int) (hin : inner ≠ []) (hI : GroupsInRange inner) :
    ∀ (fuel i : Nat) (O' : List Int) (self : BigInteger),
    outer.drop i = O' → GroupsInRange O' → O'.length + 1 ≤ fuel →
    Normalized self.digits_ →
    (self.sign_ = .POSITIVE ∨ (self.sign_ = .ZERO ∧ groupsValue self.digits_ = 0)) →
    ∃ r, mulOuter outer inner fuel i self = .ok r ∧ Normalized r.digits_ ∧
      groupsValue r.digits_ = groupsValue self.digits_ + BASE ^ i * (groupsValue O' * groupsValue inner) ∧
      (r.sign_ = .POSITIVE ∨ r.sign_ = .ZERO) := by
  intro fuel
  induction fuel with
  | zero => intro i O' self _ _ hf; omega
  | succ fuel ih =>
    intro i O' self hO hr hf hn hsg
    cases O' with
    | nil =>
      have hlen := length_le_of_drop_nil hO
      refine ⟨self, ?_, hn, by simp [groupsValue], ?_⟩
      · rw [mulOuter, if_neg (by omega)]; rfl
      · rcases hsg with h | h
        · exact Or.inl h
        · exact Or.inr h.1
    | cons x xs =>
      obtain ⟨hg, hd, hlt⟩ := vget_of_drop hO
      rw [groupsInRange_cons] at hr
      obtain ⟨D, h1, h2, h3, h4⟩ := mulInner_spec x inner hr.1.1 hr.1.2 (inner.length + 2) 0 inner 0
        { digits_ := List.replicate i 0, sign_ := .ZERO } rfl hI (le_refl _) BASE_pos (by omega)
      simp only [if_neg hin, add_zero] at h1 h2
      -- the partial product
      have hlv : GroupsInRange (List.replicate i 0 ++ D) :=
        groupsInRange_append.mpr ⟨groupsInRange_replicate_zero i, h3⟩
      have hDne : D ≠ [] := by
        intro h; subst h
        have : 0 < inner.length := List.length_pos.mpr hin
        simp only [List.length_nil] at h4; omega
      have hlne : List.replicate i 0 ++ D ≠ [] := by simp [hDne]
      have hlval : groupsValue (List.replicate i 0 ++ D) = BASE ^ i * (x * groupsValue inner) := by
        rw [groupsValue_append, groupsValue_replicate_zero, h2]; simp
      -- the accumulation
      have hacc : ∃ D', opAddAssign self
            { digits_ := List.replicate i 0 ++ D, sign_ := .POSITIVE } =
            .ok { digits_ := D', sign_ := .POSITIVE } ∧ Normalized D' ∧
          groupsValue D' = groupsValue self.digits_ + BASE ^ i * (x * groupsValue inner) := by
        rcases hsg with hp | ⟨hz, hv0⟩
        · obtain ⟨D', g1, g2, g3⟩ := addSameSign_spec self
            { digits_ := List.replicate i 0 ++ D, sign_ := .POSITIVE } hn.ne_nil hn.inRange hlv
          refine ⟨D', ?_, g2, ?_⟩
          · rw [opAddAssign_same_sign (by rw [hp]), g1, hp]
          · rw [g3, hlval]
        · obtain ⟨D', g1, g2, g3, _⟩ := remove_leading_zeroes_inRange
            { digits_ := List.replicate i 0 ++ D, sign_ := .POSITIVE } hlne hlv
          refine ⟨D', ?_, g3, ?_⟩
          · rw [opAddAssign_zero_left hz (by simp), g1]
          · rw [g2, hv0, zero_add]; exact hlval
      obtain ⟨D', a1, a2, a3⟩ := hacc
      obtain ⟨r, r1, r2, r3, r4⟩ := ih (i + 1) xs { digits_ := D', sign_ := .POSITIVE } hd hr.2
        (by simp at hf; omega) a2 (Or.inl rfl)
      refine ⟨r, ?_, r2, ?_, r4⟩
      · rw [mulOuter, if_pos hlt]
        simp only [hg, bind, Except.bind, h1, a1]
        exact r1
      · rw [r3]; simp only [a3, groupsValue, pow_succ]; ring

theorem signOfInt_toInt (a b : sign) :
    (signOfInt (a.toInt * b.toInt)).toInt = a.toInt * b.toInt := by
  cases a <;> cases b <;> decide

theorem signOfInt_eq_zero (a b : sign) :
    signOfInt (a.toInt * b.toInt) = .ZERO ↔ a = .ZERO ∨ b = .ZERO := by
  cases a <;> cases b <;> decide

/-- `operator*=` on well-formed operands: the product is well formed and denotes the
product of the operands. -/
theorem opMulAssign_wellFormed {a b : BigInteger} (ha : WellFormed a) (hb : WellFormed b) :
    ∃ r, opMulAssign a b = .ok r ∧ WellFormed r ∧ value r = value a * value b ∧
      r.sign_ = signOfInt (a.sign_.toInt * b.sign_.toInt) := by
  have hz : Normalized ({ ofLongLong 0 with sign_ := sign.ZERO } : BigInteger).digits_ := by
    decide
  have hz2 : ({ ofLongLong 0 with sign_ := sign.ZERO } : BigInteger).sign_ = .POSITIVE ∨
      (({ ofLongLong 0 with sign_ := sign.ZERO } : BigInteger).sign_ = .ZERO ∧
        groupsValue ({ ofLongLong 0 with sign_ := sign.ZERO } : BigInteger).digits_ = 0) := by
    decide
  have hz3 : groupsValue ({ ofLongLong 0 with sign_ := sign.ZERO } : BigInteger).digits_ = 0 := by
    decide
  -- both branches accumulate the same product
  have key : ∀ r : BigInteger, Normalized r.digits_ →
      groupsValue r.digits_ = groupsValue a.digits_ * groupsValue b.digits_ →
      ∃ r', (do
          let r ← remove_leading_zeroes r
          pure { r with sign_ := signOfInt (a.sign_.toInt * b.sign_.toInt) } :
            Except Err BigInteger) = .ok r' ∧
        WellFormed r' ∧ value r' = value a * value b ∧
        r'.sign_ = signOfInt (a.sign_.toInt * b.sign_.toInt) := by
    intro r hn hv
    refine ⟨{ r with sign_ := signOfInt (a.sign_.toInt * b.sign_.toInt) }, ?_, ⟨hn, ?_⟩, ?_, rfl⟩
    · rw [remove_leading_zeroes_normalized r hn]; rfl
    · simp only
      rw [signOfInt_eq_zero]
      constructor
      · intro h
        apply hn.eq_zero_of_value
        rw [hv]
        rcases h with h | h
        · rw [ha.2.1 h]; simp [groupsValue]
        · rw [hb.2.1 h]; simp [groupsValue]
      · intro h
        rw [h] at hv
        simp only [groupsValue, mul_zero, add_zero] at hv
        rcases mul_eq_zero.mp hv.symm with h0 | h0
        · left; exact ha.2.2 (ha.1.eq_zero_of_value h0)
        · right; exact hb.2.2 (hb.1.eq_zero_of_value h0)
    · simp only [value, signOfInt_toInt, hv]; ring
  unfold opMulAssign
  by_cases hgt : opGt (abs a) (abs b) = true
  · obtain ⟨r, r1, r2, r3, _⟩ := mulOuter_spec b.digits_ a.digits_ ha.1.ne_nil ha.1.inRange
      (b.digits_.length + 1) 0 b.digits_ _ rfl hb.1.inRange (le_refl _) hz hz2
    rw [hz3] at r3
    obtain ⟨r', k1, k2, k3, k4⟩ := key r r2 (by rw [r3]; ring)
    refine ⟨r', ?_, k2, k3, k4⟩
    simp only [hgt, if_true, r1, bind, Except.bind] at k1 ⊢
    exact k1
  · obtain ⟨r, r1, r2, r3, _⟩ := mulOuter_spec a.digits_ b.digits_ hb.1.ne_nil hb.1.inRange
      (a.digits_.length + 1) 0 a.digits_ _ rfl ha.1.inRange (le_refl _) hz hz2
    rw [hz3] at r3
    obtain ⟨r', k1, k2, k3, k4⟩ := key r r2 (by rw [r3]; ring)
    refine ⟨r', ?_, k2, k3, k4⟩
    simp only [hgt, if_false, r1, bind, Except.bind] at k1 ⊢
    exact k1

theorem opMul_wellFormed {a b : BigInteger} (ha : WellFormed a) (hb : WellFormed b) :
    ∃ r, opMul a b = .ok r ∧ WellFormed r ∧ value r = value a * value b ∧
      r.sign_ = signOfInt (a.sign_.toInt * b.sign_.toInt) :=
  opMulAssign_wellFormed ha hb

end BigInteger

namespace BigInteger

/-! ## `find_quotient` -/

theorem BASE_sq : BASE ^ 2 = 1000000000000000000 := by
  unfold BASE; norm_num

/-- A normalized vector denoting less than `2 * BASE` has one group, or two with the top
group 1. -/
theorem groups_of_lt_two_base {X : List Int} (hX : Normalized X)
    (hv : groupsValue X < 2 * BASE) :
    (∃ x, X = [x] ∧ 0 ≤ x ∧ x < BASE ∧ groupsValue X = x) ∨
    (∃ x, X = [x, 1] ∧ 0 ≤ x ∧ x < BASE ∧ groupsValue X = x + BASE) := by
  obtain ⟨hne, hr, hl⟩ := hX
  cases X with
  | nil => exact absurd rfl hne
  | cons x xs =>
    cases xs with
    | nil =>
      left
      exact ⟨x, rfl, (hr x (by simp)).1, (hr x (by simp)).2, by simp [groupsValue]⟩
    | cons y ys =>
      cases ys with
      | nil =>
        right
        have hx := hr x (by simp)
        have hy := hr y (by simp)
        have hy0 : y ≠ 0 := by
          intro h; subst h
          have := hl (by simp)
          simp at this
        simp only [groupsValue, mul_zero, add_zero] at hv
        have hy1 : y = 1 := by
          have h1 := hx.1; have h2 := hy.1
          unfold BASE at hv; omega
        subst hy1
        exact ⟨x, rfl, hx.1, hx.2, by simp [groupsValue]⟩
      | cons z rest =>
        exfalso
        have h0 : (x :: y :: z :: rest) ≠ [0] := by simp
        have h1 := Normalized.pow_le ⟨by simp, hr, hl⟩ h0
        have h2 : BASE ^ 2 ≤ BASE ^ ((x :: y :: z :: rest).length - 1) :=
          BASE_pow_mono (by simp)
        have h3 := BASE_sq
        generalize BASE ^ ((x :: y :: z :: rest).length - 1) = P at h1 h2
        generalize groupsValue (x :: y :: z :: rest) = v at h1 hv
        rw [h3] at h2
        unfold BASE at hv
        omega
theorem middle_term :
    (do let p ← power (ofLongLong 10) 8
        let t ← opMul (ofLongLong 5) p
        opMul t (ofLongLong 1)) = .ok { digits_ := [500000000], sign_ := .POSITIVE } := by
  decide!

/-- The midpoint computed by `find_quotient` from `sum = right + left` below `2 * BASE`. -/
theorem middleLoop_spec {sum : BigInteger} (hs : WellFormed sum) (hsn : sum.sign_ ≠ .NEGATIVE)
    (hv : value sum < 2 * BASE) :
    ∃ front middle, vfront sum.digits_ = .ok front ∧
      middleLoop sum.digits_ (sum.digits_.length + 1) 1 (ofLongLong (wrap32 (front.tdiv 2)))
        = .ok middle ∧
      WellFormed middle ∧ middle.sign_ ≠ .NEGATIVE ∧ value middle = value sum / 2 := by
  have hvs : value sum = groupsValue sum.digits_ := by
    have h0 := groupsValue_nonneg hs.1.inRange
    obtain ⟨d, s⟩ := sum
    cases s
    · exact absurd rfl hsn
    · have := hs.2.1 rfl; simp only at this; subst this; simp [value, sign.toInt, groupsValue]
    · simp [value, sign.toInt]
  rw [hvs] at hv ⊢
  have hmid : ∀ x : Int, 0 ≤ x → x < BASE →
      ofLongLong (wrap32 (x.tdiv 2)) = ofLongLong (x / 2) ∧ 0 ≤ x / 2 ∧ x / 2 < BASE := by
    intro x h0 h1
    simp only [BASE] at h1
    rw [Int.tdiv_eq_ediv h0 (by norm_num), wrap32_eq (by omega) (by omega)]
    refine ⟨rfl, by omega, ?_⟩
    unfold BASE; omega
  rcases groups_of_lt_two_base hs.1 hv with ⟨x, hX, hx0, hx1, hval⟩ | ⟨x, hX, hx0, hx1, hval⟩
  · obtain ⟨e, m0, m1⟩ := hmid x hx0 hx1
    obtain ⟨w, v, sn⟩ := ofLongLong_small_wellFormed m0 m1
    refine ⟨x, ofLongLong (x / 2), by rw [hX]; rfl, ?_, w, sn, by rw [v, hval]⟩
    rw [hX, e]
    simp [middleLoop, pure, Except.pure]
  · obtain ⟨e, m0, m1⟩ := hmid x hx0 hx1
    obtain ⟨w, v, sn⟩ := ofLongLong_small_wellFormed m0 m1
    obtain ⟨r, r1, r2, r3, r4⟩ := opAddAssign_nonneg w
      (show WellFormed { digits_ := [500000000], sign_ := .POSITIVE } by decide) sn (by simp)
    refine ⟨x, r, by rw [hX]; rfl, ?_, r2, r3, ?_⟩
    · rw [hX, e]
      have hmt := middle_term
      have hp : (SIZE : Int) * ((1 : Nat) : Int) - 1 = 8 := by simp [SIZE]
      rw [middleLoop]
      simp only [List.length_cons, List.length_nil, Nat.lt_add_one, Nat.one_lt_ofNat,
        ↓reduceIte, hp, show (1 : Nat) < 0 + 1 + 1 by omega]
      have hg : vget [x, 1] 1 = .ok 1 := rfl
      cases hpow : power (ofLongLong 10) 8 with
      | error e => rw [hpow] at hmt; simp [bind, Except.bind] at hmt
      | ok p =>
        rw [hpow] at hmt
        simp only [bind, Except.bind] at hmt ⊢
        cases ht : opMul (ofLongLong 5) p with
        | error e => rw [ht] at hmt; simp at hmt
        | ok t =>
          rw [ht] at hmt
          simp only [hg] at hmt ⊢
          rw [hmt]
          simp only [r1]
          simp [middleLoop, pure, Except.pure]
    · rw [r4, v, hval]
      simp only [value, sign.toInt, groupsValue, BASE]
      omega

end BigInteger

namespace BigInteger

theorem WellFormed.not_negative_of_value {a : BigInteger} (ha : WellFormed a)
    (hv : 0 ≤ value a) : a.sign_ ≠ .NEGATIVE := by
  intro hneg
  have hp := ha.1.value_pos (fun h0 => by have := ha.2.2 h0; rw [hneg] at this; simp at this)
  have e : value a = a.sign_.toInt * groupsValue a.digits_ := rfl
  rw [hneg] at e
  simp only [sign.toInt] at e
  omega

/-- One pass of the `while` loop of `find_quotient` on single-group bounds. -/
theorem findLoop_step {number divider left right : BigInteger}
    (hn : WellFormed number) (hnn : number.sign_ ≠ .NEGATIVE)
    (hd : WellFormed divider) (hdn : divider.sign_ ≠ .NEGATIVE)
    (hl : WellFormed left) (hln : left.sign_ ≠ .NEGATIVE)
    (hr : WellFormed right) (hrn : right.sign_ ≠ .NEGATIVE)
    (hlr : value left ≤ value right) (hrB : value right < BASE) (fuel : Nat) :
    (value right - value left ≤ 1 →
      findLoop number divider (fuel + 1) left right = .ok left) ∧
    (1 < value right - value left →
      ∃ middle, WellFormed middle ∧ middle.sign_ ≠ .NEGATIVE ∧
        value middle = (value left + value right) / 2 ∧
        findLoop number divider (fuel + 1) left right =
          if value middle * value divider = value number then .ok middle
          else if value number < value middle * value divider then
            findLoop number divider fuel left middle
          else findLoop number divider fuel middle right) := by
  obtain ⟨w, w1, w2, w3, w4⟩ := opSubAssign_nonneg hr hl hrn hlr
  have hone : WellFormed (ofLongLong 1) ∧ (ofLongLong 1).sign_ ≠ .NEGATIVE ∧
      value (ofLongLong 1) = 1 := by decide
  have hgt : opGt w (ofLongLong 1) = decide (1 < value right - value left) := by
    unfold opGt
    rw [opLt_of_nonneg hone.1 w2 hone.2.1 w3, hone.2.2, w4]
  constructor
  · intro hle
    rw [findLoop]
    simp only [opSub, w1, bind, Except.bind, hgt]
    rw [if_neg (by simp; omega)]
    rfl
  · intro hlt
    have hl0 := hl.value_nonneg hln
    obtain ⟨s, s1, s2, s3, s4⟩ := opAddAssign_nonneg hr hl hrn hln
    obtain ⟨front, middle, f1, f2, f3, f4, f5⟩ := middleLoop_spec s2 s3
      (by rw [s4]; simp only [BASE] at *; omega)
    have hm0 : 0 ≤ value middle := f3.value_nonneg f4
    obtain ⟨p, p1, p2, p3, _⟩ := opMul_wellFormed f3 hd
    have hp0 : 0 ≤ value p := by
      rw [p3]; exact mul_nonneg hm0 (hd.value_nonneg hdn)
    have hpn := p2.not_negative_of_value hp0
    refine ⟨middle, f3, f4, by rw [f5, s4, add_comm], ?_⟩
    rw [findLoop]
    simp only [opSub, w1, bind, Except.bind, hgt, opAdd, s1, f1, f2, p1]
    rw [if_pos (by simpa using hlt)]
    rw [opEq_of_wellFormed p2 hn, p3]
    unfold opGt
    rw [opLt_of_nonneg hn p2 hnn hpn, p3]
    by_cases h1 : value middle * value divider = value number
    · simp [h1, pure, Except.pure]
    · by_cases h2 : value number < value middle * value divider
      · simp [h1, h2]
      · simp [h1, h2]

/-- The binary search of `find_quotient` between single-group bounds: the result `q`
satisfies `q * d ≤ n`, and `n < (q + 1) * d` unless the search was cut short at `BASE - 2`
below the upper bound `BASE - 1`, which is never tested itself. -/
theorem findLoop_spec {number divider : BigInteger}
    (hn : WellFormed number) (hnn : number.sign_ ≠ .NEGATIVE)
    (hd : WellFormed divider) (hdn : divider.sign_ ≠ .NEGATIVE)
    (hpos : 0 < value divider ∨ 0 < value number) :
    ∀ (fuel k : Nat) (left right : BigInteger),
    WellFormed left → left.sign_ ≠ .NEGATIVE → WellFormed right → right.sign_ ≠ .NEGATIVE →
    value left < value right → value right ≤ BASE - 1 → k < fuel →
    value right - value left ≤ 2 ^ k →
    value left * value divider ≤ value number →
    (value number < value right * value divider ∨ value right = BASE - 1) →
    ∃ q, findLoop number divider fuel left right = .ok q ∧ WellFormed q ∧
      q.sign_ ≠ .NEGATIVE ∧ value left ≤ value q ∧ value q < value right ∧
      value q * value divider ≤ value number ∧
      (value number < (value q + 1) * value divider ∨ value q = BASE - 2) := by
  intro fuel
  induction fuel with
  | zero => intro k left right _ _ _ _ _ _ hk; omega
  | succ fuel ih =>
    intro k left right hl hln hr hrn hlr hrB hk hw hinv1 hinv2
    obtain ⟨st1, st2⟩ := findLoop_step hn hnn hd hdn hl hln hr hrn (le_of_lt hlr)
      (by omega) fuel
    by_cases hle : value right - value left ≤ 1
    · refine ⟨left, st1 hle, hl, hln, le_refl _, hlr, hinv1, ?_⟩
      have hr1 : value right = value left + 1 := by omega
      rcases hinv2 with h | h
      · left; rw [← hr1]; exact h
      · right; omega
    · obtain ⟨middle, m1, m2, m3, m4⟩ := st2 (by omega)
      have hk0 : k ≠ 0 := by
        intro h; subst h; simp at hw; omega
      obtain ⟨k', rfl⟩ := Nat.exists_eq_succ_of_ne_zero hk0
      have hpow : (2 : Int) ^ (k' + 1) = 2 * 2 ^ k' := by rw [pow_succ]; ring
      rw [hpow] at hw
      have hlm : value left < value middle := by omega
      have hmr : value middle < value right := by omega
      rw [m4]
      by_cases h1 : value middle * value divider = value number
      · rw [if_pos h1]
        refine ⟨middle, rfl, m1, m2, le_of_lt hlm, hmr, le_of_eq h1, ?_⟩
        left
        have hd0 := hd.value_nonneg hdn
        have hdpos : 0 < value divider := by
          rcases hpos with hp | hp
          · exact hp
          · rcases eq_or_lt_of_le hd0 with h0 | h0
            · rw [← h0] at h1; simp at h1; omega
            · exact h0
        have hexp : (value middle + 1) * value divider
            = value middle * value divider + value divider := by ring
        rw [hexp, ← h1]; omega
      · rw [if_neg h1]
        by_cases h2 : value number < value middle * value divider
        · rw [if_pos h2]
          obtain ⟨q, q1, q2, q3, q4, q5, q6, q7⟩ := ih k' left middle hl hln m1 m2 hlm
            (by omega) (by omega) (by omega) hinv1 (Or.inl h2)
          exact ⟨q, q1, q2, q3, q4, by omega, q6, q7⟩
        · rw [if_neg h2]
          obtain ⟨q, q1, q2, q3, q4, q5, q6, q7⟩ := ih k' middle right m1 m2 hr hrn hmr
            hrB (by omega) (by omega) (by omega) hinv2
          exact ⟨q, q1, q2, q3, by omega, q5, q6, q7⟩

theorem two_pow_thirty : BASE - 1 ≤ (2 : Int) ^ 30 := by norm_num [BASE]

/-- `find_quotient(0, BASE - 1, number, divider)` as called by the division. -/
theorem find_quotient_spec {number divider : BigInteger}
    (hn : WellFormed number) (hnn : number.sign_ ≠ .NEGATIVE)
    (hd : WellFormed divider) (hdn : divider.sign_ ≠ .NEGATIVE)
    (hpos : 0 < value divider ∨ 0 < value number) (fuel : Nat) (hf : 31 ≤ fuel) :
    ∃ q, find_quotient fuel (ofLongLong 0) (ofLongLong (BASE - 1)) number divider = .ok q ∧
      WellFormed q ∧ q.sign_ ≠ .NEGATIVE ∧ 0 ≤ value q ∧ value q ≤ BASE - 2 ∧
      value q * value divider ≤ value number ∧
      (value number < (value q + 1) * value divider ∨ value q = BASE - 2) := by
  have h0 : WellFormed (ofLongLong 0) ∧ (ofLongLong 0).sign_ ≠ .NEGATIVE ∧
      value (ofLongLong 0) = 0 := by decide
  have h1 : WellFormed (ofLongLong (BASE - 1)) ∧ (ofLongLong (BASE - 1)).sign_ ≠ .NEGATIVE ∧
      value (ofLongLong (BASE - 1)) = BASE - 1 := by decide
  obtain ⟨q, q1, q2, q3, q4, q5, q6, q7⟩ := findLoop_spec hn hnn hd hdn hpos fuel 30
    (ofLongLong 0) (ofLongLong (BASE - 1)) h0.1 h0.2.1 h1.1 h1.2.1
    (by rw [h0.2.2, h1.2.2]; norm_num [BASE]) (by rw [h1.2.2]) (by omega)
    (by rw [h0.2.2, h1.2.2]; have := two_pow_thirty; omega)
    (by rw [h0.2.2]; simpa using hn.value_nonneg hnn) (Or.inr h1.2.2)
  rw [h0.2.2] at q4
  rw [h1.2.2] at q5
  exact ⟨q, q1, q2, q3, q4, by omega, q6, q7⟩

end BigInteger

namespace BigInteger

/-! ## Long division -/

theorem ofLongLong_BASE_wellFormed :
    WellFormed (ofLongLong BASE) ∧ value (ofLongLong BASE) = BASE := by decide

/-- Multiplying a well-formed non-negative value by `BASE`. -/
theorem opMulAssign_BASE {a : BigInteger} (ha : WellFormed a) (hs : a.sign_ ≠ .NEGATIVE) :
    ∃ r, opMulAssign a (ofLongLong BASE) = .ok r ∧ WellFormed r ∧ r.sign_ ≠ .NEGATIVE ∧
      value r = BASE * value a := by
  obtain ⟨r, h1, h2, h3, _⟩ := opMulAssign_wellFormed ha ofLongLong_BASE_wellFormed.1
  rw [ofLongLong_BASE_wellFormed.2] at h3
  have h0 := ha.value_nonneg hs
  have hr0 : 0 ≤ value r := by
    rw [h3]; exact mul_nonneg h0 (le_of_lt BASE_pos)
  exact ⟨r, h1, h2, h2.not_negative_of_value hr0, by rw [h3]; ring⟩

theorem groupsValue_drop_succ {A : List Int} {j : Nat} (h : j < A.length) :
    vget A j = .ok A[j] ∧
      groupsValue (A.drop j) = A[j] + BASE * groupsValue (A.drop (j + 1)) := by
  constructor
  · unfold vget; rw [List.getElem?_eq_getElem h]
  · rw [List.drop_eq_getElem_cons h]; rfl

/-- The loop that brings down groups of the dividend. With `P j` the number denoted by the
groups `j, j + 1, ...` of the receiver, it keeps `quotient * d + dividend = P i`. -/
theorem bringDown_spec {self other : BigInteger} (hA : GroupsInRange self.digits_)
    (hb : WellFormed other) :
    ∀ (fuel i : Nat) (Q D : BigInteger), i < self.digits_.length → i + 1 ≤ fuel →
    WellFormed Q → Q.sign_ ≠ .NEGATIVE → WellFormed D → D.sign_ ≠ .NEGATIVE →
    value Q * groupsValue other.digits_ + value D = groupsValue (self.digits_.drop i) →
    value D < BASE * groupsValue other.digits_ →
    ∃ (i' : Int) (Q' D' : BigInteger),
      bringDown self other fuel (i : Int) Q D = .ok (i', Q', D') ∧
      -1 ≤ i' ∧ i' ≤ i ∧ WellFormed Q' ∧ Q'.sign_ ≠ .NEGATIVE ∧
      WellFormed D' ∧ D'.sign_ ≠ .NEGATIVE ∧
      value Q' * groupsValue other.digits_ + value D'
        = groupsValue (self.digits_.drop (max i' 0).toNat) ∧
      value D' < BASE * groupsValue other.digits_ ∧
      (groupsValue other.digits_ ≤ value D → i' = i ∧ Q' = Q ∧ D' = D) ∧
      (value D < groupsValue other.digits_ → i' < i) := by
  obtain ⟨wb, nb, _, vb⟩ := abs_wellFormed hb
  intro fuel
  induction fuel with
  | zero => intro i Q D _ hf; omega
  | succ fuel ih =>
    intro i Q D hi hf hQ hQn hD hDn hinv hlt
    have hcmp : opLt D (abs other) = decide (value D < groupsValue other.digits_) := by
      rw [opLt_of_nonneg hD wb hDn nb, vb]
    rw [bringDown, hcmp]
    by_cases hc : value D < groupsValue other.digits_
    · have c1 : (decide (value D < groupsValue other.digits_) = true ∧ (i : Int) ≥ 0) :=
        ⟨by simpa using hc, by omega⟩
      rw [if_pos c1]
      cases i with
      | zero =>
        refine ⟨-1, Q, D, ?_, le_refl _, by omega, hQ, hQn, hD, hDn, ?_, hlt,
          fun h => by omega, fun _ => by omega⟩
        · simp [pure, Except.pure]
        · simpa using hinv
      | succ j =>
        have hj : j < self.digits_.length := by omega
        obtain ⟨g1, g2⟩ := groupsValue_drop_succ hj
        have hx := hA _ (List.getElem_mem hj)
        obtain ⟨Q1, q1, q2, q3, q4⟩ := opMulAssign_BASE hQ hQn
        obtain ⟨D1, d1, d2, d3, d4⟩ := opMulAssign_BASE hD hDn
        obtain ⟨x1, x2, x3⟩ := ofLongLong_small_wellFormed hx.1 hx.2
        obtain ⟨D2, e1, e2, e3, e4⟩ := opAddAssign_nonneg d2 x1 d3 x3
        have hD0 := hD.value_nonneg hDn
        have hinv' : value Q1 * groupsValue other.digits_ + value D2
            = groupsValue (self.digits_.drop j) := by
          rw [g2, ← hinv, q4, e4, d4, x2]; ring
        have hlt' : value D2 < BASE * groupsValue other.digits_ := by
          rw [e4, d4, x2]
          have := hx.2
          simp only [BASE] at *
          omega
        obtain ⟨i', Q', D', r1, r2, r3, r4, r5, r6, r7, r8, r9, _, _⟩ :=
          ih j Q1 D2 hj (by omega) q2 q3 e2 e3 hinv' hlt'
        have hcast : ((j + 1 : Nat) : Int) - 1 = (j : Int) := by push_cast; ring
        refine ⟨i', Q', D', ?_, r2, by push_cast; omega, r4, r5, r6, r7, r8, r9,
          fun h => by omega, fun _ => by push_cast; omega⟩
        rw [hcast, if_neg (by omega)]
        simp only [q1, d1, bind, Except.bind, Int.toNat_ofNat, g1, e1]
        exact r1
    · have c1 : ¬ (decide (value D < groupsValue other.digits_) = true ∧ (i : Int) ≥ 0) := by
        simp [hc]
      rw [if_neg c1]
      refine ⟨i, Q, D, rfl, by omega, le_refl _, hQ, hQn, hD, hDn, ?_, hlt,
        fun _ => ⟨rfl, rfl, rfl⟩, fun h => absurd h hc⟩
      have : (max (i : Int) 0).toNat = i := by
        rw [max_eq_left (by omega)]; simp
      rw [this]; exact hinv

end BigInteger

namespace BigInteger

/-- The long-division loop: the quotient it returns never overshoots, and it is the exact
quotient unless the last quotient digit was cut short at `BASE - 2`. -/
theorem divLoop_spec {self other : BigInteger} (hA : GroupsInRange self.digits_)
    (hb : WellFormed other) (hdpos : 0 < groupsValue other.digits_)
    (fuel : Nat) (hfuel : 31 ≤ fuel) :
    ∀ (k i : Nat) (Q D : BigInteger), i < self.digits_.length →
    WellFormed Q → Q.sign_ ≠ .NEGATIVE → WellFormed D → D.sign_ ≠ .NEGATIVE →
    value Q * groupsValue other.digits_ + value D = groupsValue (self.digits_.drop i) →
    value D < (BASE - 1) * groupsValue other.digits_ →
    2 * i + (if groupsValue other.digits_ ≤ value D then 1 else 0) + 1 ≤ k →
    ∃ q, divLoop fuel self other k (i : Int) Q D = .ok q ∧ WellFormed q ∧
      q.sign_ ≠ .NEGATIVE ∧
      value q * groupsValue other.digits_ ≤ groupsValue self.digits_ ∧
      (groupsValue self.digits_ < (value q + 1) * groupsValue other.digits_ ∨
        (groupsValue self.digits_ < (value q + 2) * groupsValue other.digits_ ∧
          BASE - 2 ≤ value q)) := by
  obtain ⟨wb, nb, _, vb⟩ := abs_wellFormed hb
  intro k
  induction k with
  | zero => intro i Q D _ _ _ _ _ _ _ hk; omega
  | succ k ih =>
    intro i Q D hi hQ hQn hD hDn hinv hlt hk
    generalize hdv : groupsValue other.digits_ = dv at *
    have hlt' : value D < BASE * dv := by
      have : (BASE - 1) * dv = BASE * dv - dv := by ring
      omega
    obtain ⟨i', Q', D', b1, b2, b3, b4, b5, b6, b7, b8, b9, b10, b11⟩ :=
      bringDown_spec hA hb (i + 2) i Q D hi (by omega) hQ hQn hD hDn
        (by rw [hdv]; exact hinv) (by rw [hdv]; exact hlt')
    rw [hdv] at b8 b9 b10 b11
    have hD'0 := b6.value_nonneg b7
    have hQ'0 := b4.value_nonneg b5
    obtain ⟨q, f1, f2, f3, f4, f5, f6, f7⟩ := find_quotient_spec b6 b7 wb nb
      (Or.inl (by rw [vb]; exact hdpos)) fuel hfuel
    rw [vb] at f6 f7
    obtain ⟨Q2, a1, a2, a3, a4⟩ := opAddAssign_nonneg b4 f2 b5 f3
    obtain ⟨p, p1, p2, p3, _⟩ := opMul_wellFormed wb f2
    rw [vb] at p3
    have hpv : value p = value q * dv := by rw [p3]; ring
    obtain ⟨D2, s1, s2, s3, s4⟩ := opSubAssign_nonneg b6 p2 b7 (by rw [hpv]; exact f6)
    have hD20 := s2.value_nonneg s3
    -- the invariant after the pass
    have hinv2 : value Q2 * dv + value D2 = groupsValue (self.digits_.drop (max i' 0).toNat) := by
      rw [← b8, a4, s4, hpv]; ring
    have hexp1 : (value q + 1) * dv = value q * dv + dv := by ring
    have hB1 : (BASE - 1) * dv = BASE * dv - dv := by ring
    have hcase : value D2 < dv ∨
        (value D2 < 2 * dv ∧ value q = BASE - 2 ∧ (BASE - 1) * dv ≤ value D') := by
      by_cases hex : value D' < (value q + 1) * dv
      · left; rw [s4, hpv]; omega
      · right
        have hq : value q = BASE - 2 := by
          rcases f7 with h | h
          · exact absurd h hex
          · exact h
        rw [hq] at hex hpv
        have h2 : (BASE - 2) * dv = BASE * dv - 2 * dv := by ring
        have h3 : (BASE - 2 + 1) * dv = BASE * dv - dv := by ring
        rw [h3] at hex
        refine ⟨by rw [s4, hpv]; omega, hq, by omega⟩
    have hstep : divLoop fuel self other (k + 1) (i : Int) Q D =
        if i' ≤ 0 then .ok Q2 else divLoop fuel self other k i' Q2 D2 := by
      rw [divLoop, if_pos (by omega)]
      simp only [Int.toNat_ofNat, b1, bind, Except.bind, f1, a1, p1, s1]
      rfl
    rw [hstep]
    by_cases hi0 : i' ≤ 0
    · rw [if_pos hi0]
      have hmax : (max i' 0).toNat = 0 := by
        rw [max_eq_right hi0]; rfl
      rw [hmax, List.drop_zero] at hinv2
      refine ⟨Q2, rfl, a2, a3, by omega, ?_⟩
      have e1 : (value Q2 + 1) * dv = value Q2 * dv + dv := by ring
      have e2 : (value Q2 + 2) * dv = value Q2 * dv + 2 * dv := by ring
      rcases hcase with h | ⟨h1, h2, _⟩
      · left; omega
      · right; exact ⟨by omega, by rw [a4, h2]; omega⟩
    · rw [if_neg hi0]
      have hcast : ((i'.toNat : Nat) : Int) = i' := Int.toNat_of_nonneg (by omega)
      have hmax : (max i' 0).toNat = i'.toNat := by
        rw [max_eq_left (by omega)]
      rw [hmax] at hinv2
      have hD2B : value D2 < (BASE - 1) * dv := by
        have : value D2 < 2 * dv := by
          rcases hcase with h | ⟨h, _, _⟩
          · omega
          · exact h
        rw [hB1]
        simp only [BASE]
        omega
      have hpot : 2 * i'.toNat + (if dv ≤ value D2 then 1 else 0) + 1 ≤ k := by
        by_cases hge : dv ≤ value D
        · obtain ⟨e1, _, e3⟩ := b10 hge
          have hlt2 : value D2 < dv := by
            rcases hcase with h | ⟨_, _, h⟩
            · exact h
            · rw [e3] at h; omega
          rw [if_pos hge] at hk
          rw [if_neg (by omega)]
          omega
        · have := b11 (by omega)
          rw [if_neg hge] at hk
          split <;> omega
      obtain ⟨r, r1, r2, r3, r4, r5⟩ := ih i'.toNat Q2 D2 (by omega) a2 a3 s2 s3 hinv2 hD2B hpot
      rw [hcast] at r1
      exact ⟨r, r1, r2, r3, r4, r5⟩

end BigInteger

namespace BigInteger

theorem WellFormed.value_eq_groupsValue {a : BigInteger} (ha : WellFormed a)
    (hs : a.sign_ ≠ .NEGATIVE) : value a = groupsValue a.digits_ := by
  obtain ⟨d, s⟩ := a
  cases s
  · exact absurd rfl hs
  · have := ha.2.1 rfl; simp only at this; subst this; simp [value, sign.toInt, groupsValue]
  · simp [value, sign.toInt]

theorem sign_toInt_sq {s : sign} (h : s ≠ .ZERO) : s.toInt * s.toInt = 1 := by
  cases s
  · rfl
  · exact absurd rfl h
  · rfl

/-- `operator/=` with a nonzero divisor returns, given enough budget, a well-formed value
`sign(a) * sign(b) * m` where `m * |b| ≤ |a|`; `m` is the truncated quotient of the
magnitudes unless the last quotient digit was cut short. -/
theorem opDivAssign_spec {a b : BigInteger} (ha : WellFormed a) (hb : WellFormed b)
    (hb0 : b.sign_ ≠ .ZERO) (fuel : Nat) (hf : 2 * a.digits_.length + 31 ≤ fuel) :
    ∃ q m, opDivAssign fuel a b = .ok q ∧ WellFormed q ∧ 0 ≤ m ∧
      value q = a.sign_.toInt * b.sign_.toInt * m ∧
      m * groupsValue b.digits_ ≤ groupsValue a.digits_ ∧
      (groupsValue a.digits_ < (m + 1) * groupsValue b.digits_ ∨
        (groupsValue a.digits_ < (m + 2) * groupsValue b.digits_ ∧ BASE - 2 ≤ m)) := by
  obtain ⟨wa, na, _, va⟩ := abs_wellFormed ha
  obtain ⟨wb, nb, _, vb⟩ := abs_wellFormed hb
  have hA0 := groupsValue_nonneg ha.1.inRange
  have hBpos : 0 < groupsValue b.digits_ :=
    hb.1.value_pos (fun h => hb0 (hb.2.2 h))
  unfold opDivAssign
  by_cases hz : a.sign_ = .ZERO
  · refine ⟨a, 0, ?_, ha, le_refl _, ?_, ?_, ?_⟩
    · simp [hz, pure, Except.pure]
    · rw [value_of_sign_zero hz]; simp
    · simpa using hA0
    · left; rw [ha.2.1 hz]; simpa [groupsValue] using hBpos
  · have hApos : 0 < groupsValue a.digits_ :=
      ha.1.value_pos (fun h => hz (ha.2.2 h))
    have hlt : opLt (abs a) (abs b) = decide (groupsValue a.digits_ < groupsValue b.digits_) := by
      rw [opLt_of_nonneg wa wb na nb, va, vb]
    have hone : WellFormed (ofLongLong 1) ∧ value (ofLongLong 1) = 1 := by decide
    have heq : opEq (abs b) (ofLongLong 1) = decide (groupsValue b.digits_ = 1) := by
      rw [opEq_of_wellFormed wb hone.1, vb, hone.2]
    simp only [hz, if_false, hlt, heq, bind, Except.bind, pure, Except.pure]
    by_cases h1 : groupsValue a.digits_ < groupsValue b.digits_
    · refine ⟨ofLongLong 0, 0, ?_, by decide, le_refl _, ?_, ?_, ?_⟩
      · simp only [h1, decide_True, if_true]; decide
      · simp [ofLongLong_zero, value, sign.toInt]
      · simpa using hA0
      · left; simpa using h1
    · simp only [h1, decide_False, Bool.false_eq_true, if_false]
      have hsne : signOfInt (a.sign_.toInt * b.sign_.toInt) ≠ .ZERO := by
        intro h
        rcases (signOfInt_eq_zero _ _).mp h with h | h
        · exact hz h
        · exact hb0 h
      by_cases h2 : groupsValue b.digits_ = 1
      · simp only [h2, decide_True, if_true]
        refine ⟨_, groupsValue a.digits_, rfl, ⟨ha.1, ?_⟩, hA0, ?_, by omega, by left; omega⟩
        · simp only
          constructor
          · intro h; exact absurd h hsne
          · intro h; exact absurd (ha.2.2 h) hz
        · simp only [value, signOfInt_toInt]
      · simp only [h2, decide_False, Bool.false_eq_true, if_false]
        have hB2 : 2 ≤ groupsValue b.digits_ := by omega
        -- the top group
        obtain ⟨L, back, hL⟩ : ∃ L back, a.digits_ = L ++ [back] := by
          rcases List.eq_nil_or_concat a.digits_ with h | ⟨L, x, h⟩
          · exact absurd h ha.1.ne_nil
          · exact ⟨L, x, by rw [h, List.concat_eq_append]⟩
        have hback := ha.1.inRange back (by rw [hL]; simp)
        have hvb : vback a.digits_ = .ok back := by rw [hL]; exact vback_concat L back
        obtain ⟨x1, x2, x3⟩ := ofLongLong_small_wellFormed hback.1 hback.2
        have hlen : a.digits_.length = L.length + 1 := by rw [hL]; simp
        have hcast : ((a.digits_.length : Nat) : Int) - 1 = ((L.length : Nat) : Int) := by
          rw [hlen]; push_cast; ring
        have hdrop : groupsValue (a.digits_.drop L.length) = back := by
          rw [hL, List.drop_left]; simp [groupsValue]
        have hz0 : WellFormed (ofLongLong 0) ∧ (ofLongLong 0).sign_ ≠ .NEGATIVE ∧
            value (ofLongLong 0) = 0 := by decide
        obtain ⟨q, d1, d2, d3, d4, d5⟩ := divLoop_spec ha.1.inRange hb hBpos fuel (by omega)
          fuel L.length (ofLongLong 0) (ofLongLong back) (by omega) hz0.1 hz0.2.1 x1 x3
          (by rw [hz0.2.2, x2, hdrop]; ring)
          (by rw [x2]
              have : (BASE - 1) * groupsValue b.digits_
                = BASE * groupsValue b.digits_ - groupsValue b.digits_ := by ring
              have := hback.2
              simp only [BASE] at *
              omega)
          (by split <;> omega)
        have hq0 := d2.value_nonneg d3
        have hq1 : 1 ≤ value q := by
          rcases d5 with h | ⟨_, h⟩
          · by_contra hc
            have h0 : value q = 0 := by omega
            rw [h0] at h
            simp at h
            omega
          · simp only [BASE] at h; omega
        have hqv := d2.value_eq_groupsValue d3
        have hqne : q.digits_ ≠ [0] := by
          intro h; rw [h] at hqv; simp [groupsValue] at hqv; omega
        refine ⟨{ q with sign_ := signOfInt (a.sign_.toInt * b.sign_.toInt) }, value q, ?_,
          ⟨d2.1, ?_⟩, hq0, ?_, d4, d5⟩
        · rw [hvb]
          simp only [hcast, d1]
          exact remove_leading_zeroes_normalized _ d2.1
        · simp only
          constructor
          · intro h; exact absurd h hsne
          · intro h; exact absurd h hqne
        · rw [hqv]
          show (signOfInt (a.sign_.toInt * b.sign_.toInt)).toInt * groupsValue q.digits_ = _
          rw [signOfInt_toInt]

end BigInteger

namespace BigInteger

theorem WellFormed.groupsValue_eq_abs {a : BigInteger} (ha : WellFormed a) :
    groupsValue a.digits_ = |value a| := by
  obtain ⟨_, _, h1, h2⟩ := abs_wellFormed ha
  rw [← h2, h1]

/-- Quotient, product, remainder and their sum for a nonzero divisor: `a / b`, `(a / b) * b`,
`a % b` and `(a / b) * b + a % b` all evaluate, and the sum is `a` again. -/
theorem div_mod_spec {a b : BigInteger} (ha : WellFormed a) (hb : WellFormed b)
    (hb0 : b.sign_ ≠ .ZERO) (fuel : Nat) (hf : 2 * a.digits_.length + 31 ≤ fuel) :
    ∃ q p r m, opDiv fuel a b = .ok q ∧ opMul q b = .ok p ∧ opMod fuel a b = .ok r ∧
      opAdd p r = .ok a ∧ WellFormed q ∧ WellFormed p ∧ WellFormed r ∧ 0 ≤ m ∧
      value q = a.sign_.toInt * b.sign_.toInt * m ∧
      value p = a.sign_.toInt * (m * groupsValue b.digits_) ∧
      value r = a.sign_.toInt * (groupsValue a.digits_ - m * groupsValue b.digits_) ∧
      m * groupsValue b.digits_ ≤ groupsValue a.digits_ ∧
      (groupsValue a.digits_ < (m + 1) * groupsValue b.digits_ ∨
        (groupsValue a.digits_ < (m + 2) * groupsValue b.digits_ ∧ BASE - 2 ≤ m)) := by
  obtain ⟨q, m, q1, q2, q3, q4, q5, q6⟩ := opDivAssign_spec ha hb hb0 fuel hf
  obtain ⟨p, p1, p2, p3, _⟩ := opMul_wellFormed q2 hb
  have hva : value a = a.sign_.toInt * groupsValue a.digits_ := rfl
  have hvb : value b = b.sign_.toInt * groupsValue b.digits_ := rfl
  have hpv : value p = a.sign_.toInt * (m * groupsValue b.digits_) := by
    rw [p3, q4, hvb]
    have := sign_toInt_sq hb0
    calc a.sign_.toInt * b.sign_.toInt * m * (b.sign_.toInt * groupsValue b.digits_)
        = a.sign_.toInt * (b.sign_.toInt * b.sign_.toInt) * (m * groupsValue b.digits_) := by
          ring
      _ = a.sign_.toInt * (m * groupsValue b.digits_) := by rw [this]; ring
  have hB0 := groupsValue_nonneg hb.1.inRange
  have hmB : 0 ≤ m * groupsValue b.digits_ := mul_nonneg q3 hB0
  generalize hM : m * groupsValue b.digits_ = M at *
  have hpabs : groupsValue p.digits_ ≤ groupsValue a.digits_ := by
    rw [p2.groupsValue_eq_abs, hpv]
    cases hA : a.sign_
    · simp only [sign.toInt]
      rw [show (-1 : Int) * M = -M by ring, abs_neg, abs_of_nonneg hmB]; exact q5
    · simp only [sign.toInt, zero_mul, abs_zero]
      exact groupsValue_nonneg ha.1.inRange
    · simp only [sign.toInt, one_mul]
      rw [abs_of_nonneg hmB]; exact q5
  obtain ⟨r, r1, r2, r3⟩ := opSubAssign_wellFormed ha p2 (by
    intro _ hm
    unfold Misdirected at hm
    omega)
  have hrv : value r = a.sign_.toInt * (groupsValue a.digits_ - M) := by
    rw [r3, hpv, hva]; ring
  obtain ⟨s, s1, s2, s3⟩ := opAddAssign_wellFormed p2 r2 (by
    intro hne hpz hrz _
    apply hne
    have hp0 : value p ≠ 0 := fun h => hpz (p2.sign_zero_iff.mpr h)
    have hr0 : value r ≠ 0 := fun h => hrz (r2.sign_zero_iff.mpr h)
    have hpp := p2.sign_positive_iff
    have hrp := r2.sign_positive_iff
    have hD : 0 ≤ groupsValue a.digits_ - M := by omega
    rw [hpv] at hp0 hpp
    rw [hrv] at hr0 hrp
    generalize groupsValue a.digits_ - M = R at *
    cases hA : a.sign_
    · rw [hA] at hp0 hpp hr0 hrp
      simp only [sign.toInt] at hp0 hpp hr0 hrp
      have e1 : ¬ p.sign_ = .POSITIVE := by rw [hpp]; omega
      have e2 : ¬ r.sign_ = .POSITIVE := by rw [hrp]; omega
      cases hP : p.sign_ <;> cases hR : r.sign_ <;> simp_all
    · rw [hA] at hp0; simp [sign.toInt] at hp0
    · rw [hA] at hp0 hpp hr0 hrp
      simp only [sign.toInt, one_mul] at hp0 hpp hr0 hrp
      have e1 : p.sign_ = .POSITIVE := by rw [hpp]; omega
      have e2 : r.sign_ = .POSITIVE := by rw [hrp]; omega
      rw [e1, e2])
  have hsa : s = a := s2.ext_value ha (by rw [s3, hpv, hrv, hva]; ring)
  refine ⟨q, p, r, m, q1, p1, ?_, ?_, q2, p2, r2, q3, q4, ?_, ?_, ?_, q6⟩
  · unfold opMod opModAssign
    simp only [opDiv, opMul] at q1 p1 ⊢
    simp only [q1, p1, bind, Except.bind]
    exact r1
  · unfold opAdd; rw [s1, hsa]
  · rw [hpv, hM]
  · rw [hrv, hM]
  · rw [hM]; exact q5

end BigInteger

namespace BigInteger

/-! ## Decimal digits: `std::stoi` and `std::to_string` -/

theorem isDigit_iff (c : Char) : c.isDigit = true ↔ 48 ≤ c.toNat ∧ c.toNat ≤ 57 := by
  simp only [Char.isDigit, Char.toNat, Bool.and_eq_true, decide_eq_true_eq, ge_iff_le,
    UInt32.le_def]
  exact Iff.rfl

theorem char_eq_of_toNat {c d : Char} (h : c.toNat = d.toNat) : c = d := by
  rw [← Char.ofNat_toNat c, ← Char.ofNat_toNat d, h]

theorem digit_char_roundtrip {c : Char} (h : c.isDigit = true) :
    Char.ofNat (48 + (c.toNat - 48)) = c := by
  have := (isDigit_iff c).mp h
  rw [show 48 + (c.toNat - 48) = c.toNat by omega, Char.ofNat_toNat]

theorem digit_not_space {c : Char} (h : c.isDigit = true) :
    isSpaceChar c = false ∧ c ≠ '-' ∧ c ≠ '+' := by
  have hd := (isDigit_iff c).mp h
  refine ⟨?_, ?_, ?_⟩
  · by_contra hs
    simp only [isSpaceChar, Bool.not_eq_false, Bool.or_eq_true, decide_eq_true_eq] at hs
    rcases hs with ((((hs | hs) | hs) | hs) | hs) | hs <;>
      (rw [hs] at hd; revert hd; decide)
  · intro hs; rw [hs] at hd; revert hd; decide
  · intro hs; rw [hs] at hd; revert hd; decide

theorem digitsValue_concat (ds : List Char) (c : Char) :
    digitsValue (ds ++ [c]) = digitsValue ds * 10 + (c.toNat - 48) := by
  simp [digitsValue, List.foldl_append]

theorem digitsValue_nil : digitsValue [] = 0 := rfl

theorem digitsValue_lt (ds : List Char) (h : ∀ c ∈ ds, c.isDigit = true) :
    digitsValue ds < 10 ^ ds.length := by
  induction ds using List.reverseRecOn with
  | nil => simp [digitsValue]
  | append_singleton ds c ih =>
    have h1 := ih (fun x hx => h x (by simp [hx]))
    have h2 := (isDigit_iff c).mp (h c (by simp))
    rw [digitsValue_concat, List.length_append, List.length_singleton, pow_succ]
    omega

theorem foldl_digits_ge (rest : List Char) (acc : Nat) :
    acc ≤ rest.foldl (fun acc c => acc * 10 + (c.toNat - 48)) acc := by
  induction rest generalizing acc with
  | nil => simp
  | cons c cs ih =>
    simp only [List.foldl_cons]
    exact le_trans (by omega) (ih _)

theorem digitsValue_pos {c : Char} (rest : List Char) (hc : c.isDigit = true)
    (h0 : c ≠ '0') : 0 < digitsValue (c :: rest) := by
  have hd := (isDigit_iff c).mp hc
  have h48 : c.toNat ≠ 48 := by
    intro h; exact h0 (char_eq_of_toNat (by rw [h]; decide))
  have := foldl_digits_ge rest (0 * 10 + (c.toNat - 48))
  simp only [digitsValue, List.foldl_cons]
  omega

theorem digitsValue_zeros (z : Nat) (ds : List Char) :
    digitsValue (List.replicate z '0' ++ ds) = digitsValue ds := by
  induction z with
  | zero => simp
  | succ z ih =>
    rw [List.replicate_succ, List.cons_append]
    have : digitsValue ('0' :: (List.replicate z '0' ++ ds))
        = digitsValue (List.replicate z '0' ++ ds) := by
      simp [digitsValue]
    rw [this, ih]

/-- `std::stoi` on a non-empty run of at most nine digit characters. -/
theorem stoi_digits {ds : List Char} (hne : ds ≠ []) (h : ∀ c ∈ ds, c.isDigit = true)
    (hlen : ds.length ≤ 9) : stoi ds = .ok (digitsValue ds : Int) := by
  obtain ⟨c, rest, rfl⟩ := List.exists_cons_of_ne_nil hne
  obtain ⟨s1, s2, s3⟩ := digit_not_space (h c (by simp))
  have hlt := digitsValue_lt (c :: rest) h
  have hpow : 10 ^ (c :: rest).length ≤ 10 ^ 9 := Nat.pow_le_pow_right (by norm_num) hlen
  have htw : List.takeWhile Char.isDigit (c :: rest) = c :: rest := by
    rw [List.takeWhile_eq_self_iff]; exact h
  unfold stoi
  simp only [List.dropWhile_cons, s1, Bool.false_eq_true, if_false, List.head?_cons,
    Option.some.injEq, s2, s3, or_self, htw, reduceCtorEq]
  rw [if_neg (by
    have : (0 : Int) ≤ (digitsValue (c :: rest) : Int) := Int.natCast_nonneg _
    have : (digitsValue (c :: rest) : Int) < 1000000000 := by
      have : digitsValue (c :: rest) < 1000000000 := by
        have : (10 : Nat) ^ 9 = 1000000000 := by norm_num
        omega
      exact_mod_cast this
    omega)]

/-- A list of digits is a run of `'0'` followed by nothing or by a list that does not start
with `'0'`. -/
theorem split_leading_zeros (ds : List Char) :
    ∃ z rest, ds = List.replicate z '0' ++ rest ∧ (rest = [] ∨ rest.head? ≠ some '0') := by
  induction ds with
  | nil => exact ⟨0, [], rfl, Or.inl rfl⟩
  | cons c cs ih =>
    by_cases hc : c = '0'
    · obtain ⟨z, rest, h1, h2⟩ := ih
      exact ⟨z + 1, rest, by rw [hc, h1, List.replicate_succ, List.cons_append], h2⟩
    · exact ⟨0, c :: cs, rfl, Or.inr (by simpa using hc)⟩

/-- `std::to_string` writes back a digit string without a leading zero. -/
theorem to_stringLoop_digits : ∀ (fuel : Nat) (ds acc : List Char), ds ≠ [] →
    (∀ c ∈ ds, c.isDigit = true) → (ds.head? ≠ some '0' ∨ ds.length = 1) →
    ds.length ≤ fuel → to_stringLoop fuel (digitsValue ds) acc = ds ++ acc := by
  intro fuel
  induction fuel with
  | zero =>
    intro ds acc hne _ _ hlen
    exact absurd (List.length_eq_zero.mp (Nat.le_zero.mp hlen)) hne
  | succ fuel ih =>
    intro ds acc hne hd hz hlen
    rcases List.eq_nil_or_concat ds with h | ⟨ds', x, h⟩
    · exact absurd h hne
    · subst h
      rw [List.concat_eq_append] at *
      have hx := hd x (by simp)
      have hxr := (isDigit_iff x).mp hx
      rw [digitsValue_concat, to_stringLoop]
      have hmod : (digitsValue ds' * 10 + (x.toNat - 48)) % 10 = x.toNat - 48 := by omega
      have hdiv : (digitsValue ds' * 10 + (x.toNat - 48)) / 10 = digitsValue ds' := by omega
      rw [hmod, hdiv, digit_char_roundtrip hx]
      cases ds' with
      | nil => simp [digitsValue]
      | cons c cs =>
        have hc0 : c ≠ '0' := by
          rcases hz with h | h
          · simpa using h
          · simp at h
        have hpos := digitsValue_pos cs (hd c (by simp)) hc0
        rw [if_neg (by omega)]
        rw [ih (c :: cs) (x :: acc) (by simp)
          (fun y hy => hd y (List.mem_append_left _ hy))
          (Or.inl (by simpa using hc0)) (by simp at hlen ⊢; omega)]
        simp

theorem to_string_digits {ds : List Char} (hne : ds ≠ []) (hd : ∀ c ∈ ds, c.isDigit = true)
    (hz : ds.head? ≠ some '0' ∨ ds.length = 1) (hlen : ds.length ≤ 10) :
    to_string (digitsValue ds : Int) = ds := by
  unfold to_string
  rw [if_neg (by have := Int.natCast_nonneg (digitsValue ds); omega)]
  rw [Int.toNat_ofNat, to_stringLoop_digits 10 ds [] hne hd hz hlen]
  simp

/-- A group written with its zero padding is the nine-digit chunk it was read from. -/
theorem pad_to_string_chunk {c : List Char} (hd : ∀ x ∈ c, x.isDigit = true)
    (hlen : c.length = 9) :
    List.replicate (((SIZE : Int) - (to_string (digitsValue c : Int)).length)
        % 18446744073709551616).toNat '0' ++ to_string (digitsValue c : Int) = c := by
  obtain ⟨z, rest, h1, h2⟩ := split_leading_zeros c
  have hlen2 : z + rest.length = 9 := by
    rw [h1] at hlen; simpa using hlen
  have hdr : ∀ x ∈ rest, x.isDigit = true := fun x hx => hd x (by rw [h1]; simp [hx])
  have hv : digitsValue c = digitsValue rest := by rw [h1, digitsValue_zeros]
  rw [hv]
  by_cases hr : rest = []
  · subst hr
    have hz9 : z = 9 := by simpa using hlen2
    rw [h1, hz9]
    decide
  · have hz : rest.head? ≠ some '0' := by
      rcases h2 with h | h
      · exact absurd h hr
      · exact h
    rw [to_string_digits hr hdr (Or.inl hz) (by omega)]
    have : (((SIZE : Int) - (rest.length : Int)) % 18446744073709551616).toNat = z := by
      simp only [SIZE]
      omega
    rw [this, h1]

end BigInteger

namespace BigInteger

/-! ## The text constructor and `toString` on chunked digit strings -/

theorem length_flatten_chunks {L : List (List Char)} (h : NineDigitChunks L) :
    L.reverse.flatten.length = 9 * L.length := by
  induction L with
  | nil => simp
  | cons c cs ih =>
    have h1 := (h c (by simp)).1
    have h2 := ih (fun x hx => h x (by simp [hx]))
    simp only [List.reverse_cons, List.flatten_append, List.length_append, h2, List.flatten_cons,
      List.flatten_nil, List.append_nil, h1, List.length_cons]
    omega

theorem chunkLoop_chunks (lo : Nat) : ∀ (chunks : List (List Char)) (P suffix : List Char)
    (acc : List Int) (fuel : Nat), NineDigitChunks chunks → P.length < lo →
    lo ≤ P.length + 9 → chunks.length + 1 ≤ fuel →
    chunkLoop (P ++ chunks.reverse.flatten ++ suffix) lo fuel
        (P ++ chunks.reverse.flatten).length acc
      = .ok (acc ++ chunks.map (fun c => (digitsValue c : Int))) := by
  intro chunks
  induction chunks with
  | nil =>
    intro P suffix acc fuel _ hP _ hf
    obtain ⟨f, rfl⟩ : ∃ f, fuel = f + 1 := ⟨fuel - 1, by simp at hf; omega⟩
    rw [chunkLoop, if_neg (by simp; omega)]
    simp [pure, Except.pure]
  | cons c rest ih =>
    intro P suffix acc fuel hch hP hlo hf
    obtain ⟨f, rfl⟩ : ∃ f, fuel = f + 1 := ⟨fuel - 1, by simp at hf; omega⟩
    have hc := hch c (by simp)
    have hrest : NineDigitChunks rest := fun x hx => hch x (by simp [hx])
    have hstr : P ++ (c :: rest).reverse.flatten ++ suffix
        = P ++ rest.reverse.flatten ++ (c ++ suffix) := by
      simp [List.append_assoc]
    have hi : (P ++ (c :: rest).reverse.flatten).length
        = (P ++ rest.reverse.flatten).length + 9 := by
      simp [hc.1, Nat.add_assoc]
    have hsub : substr (P ++ rest.reverse.flatten ++ (c ++ suffix))
        ((P ++ rest.reverse.flatten).length + 9 - SIZE) SIZE = .ok c := by
      unfold substr
      simp only [SIZE, Nat.add_sub_cancel]
      rw [if_neg (by simp), List.drop_left, List.take_left' hc.1]
    have hstoi := stoi_digits (by intro h; have := hc.1; rw [h] at this; simp at this) hc.2
      (le_of_eq hc.1)
    rw [hstr, hi, chunkLoop, if_pos (by simp at hlo ⊢; omega)]
    simp only [hsub, hstoi, bind, Except.bind]
    have hidx : (P ++ rest.reverse.flatten).length + 9 - SIZE
        = (P ++ rest.reverse.flatten).length := by simp [SIZE]
    rw [hidx, ih P (c ++ suffix) (acc ++ [(digitsValue c : Int)]) f hrest hP hlo
      (by simp at hf ⊢; omega)]
    simp

theorem toStringLoop_chunks (L : List (List Char)) : ∀ (rest : List Int) (acc : List Char)
    (fuel : Nat), NineDigitChunks L → L.length + 1 ≤ fuel →
    toStringLoop (L.map (fun c => (digitsValue c : Int)) ++ rest) fuel
        ((L.length : Int) - 1) acc
      = .ok (acc ++ L.reverse.flatten) := by
  induction L using List.reverseRecOn with
  | nil =>
    intro rest acc fuel _ hf
    obtain ⟨f, rfl⟩ : ∃ f, fuel = f + 1 := ⟨fuel - 1, by simp at hf; omega⟩
    rw [toStringLoop, if_neg (by simp)]
    simp [pure, Except.pure]
  | append_singleton L c ih =>
    intro rest acc fuel hch hf
    obtain ⟨f, rfl⟩ : ∃ f, fuel = f + 1 := ⟨fuel - 1, by simp at hf; omega⟩
    have hc := hch c (by simp)
    have hL : NineDigitChunks L := fun x hx => hch x (by simp [hx])
    have hi : (((L ++ [c]).length : Nat) : Int) - 1 = (L.length : Int) := by
      simp
    have hD : (L ++ [c]).map (fun c => (digitsValue c : Int)) ++ rest
        = L.map (fun c => (digitsValue c : Int)) ++ ((digitsValue c : Int) :: rest) := by
      simp
    have hget : vget (L.map (fun c => (digitsValue c : Int)) ++ ((digitsValue c : Int) :: rest))
        L.length = .ok (digitsValue c : Int) := by
      have := vget_append_cons (L.map (fun c => (digitsValue c : Int))) (digitsValue c : Int) rest
      simpa using this
    rw [hi, hD, toStringLoop, if_pos (by omega)]
    simp only [Int.toNat_ofNat, hget, bind, Except.bind]
    rw [List.append_assoc, pad_to_string_chunk hc.2 hc.1,
      ih ((digitsValue c : Int) :: rest) (acc ++ c) f hL (by simp at hf ⊢; omega)]
    simp

/-- Every non-empty string is a top chunk of one to nine characters followed by chunks of
nine characters. -/
theorem exists_chunks : ∀ (n : Nat) (body : List Char), body.length = n → body ≠ [] →
    ∃ (T : List Char) (L : List (List Char)), body = T ++ L.reverse.flatten ∧ T ≠ [] ∧
      T.length ≤ 9 ∧ ∀ c ∈ L, c.length = 9 := by
  intro n
  induction n using Nat.strong_induction_on with
  | _ n ih =>
    intro body hn hne
    by_cases hle : body.length ≤ 9
    · exact ⟨body, [], by simp, hne, hle, by simp⟩
    · have hn9 : 9 < n := by omega
      have hsplit : body.take (n - 9) ++ body.drop (n - 9) = body :=
        List.take_append_drop _ _
      have hlt : (body.take (n - 9)).length = n - 9 := by
        rw [List.length_take, hn]; omega
      have hld : (body.drop (n - 9)).length = 9 := by
        rw [List.length_drop, hn]; omega
      obtain ⟨T, L, h1, h2, h3, h4⟩ := ih (n - 9) (by omega) (body.take (n - 9)) hlt (by
          intro h
          rw [h] at hlt
          simp at hlt; omega)
      refine ⟨T, body.drop (n - 9) :: L, ?_, h2, h3, ?_⟩
      · rw [List.reverse_cons, List.flatten_append, ← List.append_assoc, ← h1]
        simp only [List.flatten_cons, List.flatten_nil, List.append_nil]
        exact hsplit.symm
      · intro c hc
        rcases List.mem_cons.mp hc with h | h
        · rw [h]; exact hld
        · exact h4 c h

end BigInteger

namespace BigInteger

theorem chunkLoop_text (lo : Nat) (str P : List Char) (chunks : List (List Char))
    (hstr : str = P ++ chunks.reverse.flatten) (hch : NineDigitChunks chunks)
    (hP : P.length < lo) (hlo : lo ≤ P.length + 9) :
    chunkLoop str lo (str.length + 1) str.length []
      = .ok (chunks.map (fun c => (digitsValue c : Int))) := by
  subst hstr
  have hlen := length_flatten_chunks hch
  have h := chunkLoop_chunks lo chunks P [] [] ((P ++ chunks.reverse.flatten).length + 1) hch
    hP hlo (by simp [hlen]; omega)
  simpa using h

/-- The text constructor on an unsigned digit string, cut into a top chunk `T` and
nine-digit chunks `L` (least significant first). -/
theorem ofString_unsigned {T : List Char} {L : List (List Char)} (hT : T ≠ [])
    (hTd : ∀ x ∈ T, x.isDigit = true) (hTlen : T.length ≤ 9) (hT0 : T.head? ≠ some '0')
    (hL : NineDigitChunks L) :
    ofString (T ++ L.reverse.flatten)
      = .ok { digits_ := L.map (fun c => (digitsValue c : Int)) ++ [(digitsValue T : Int)],
              sign_ := .POSITIVE } := by
  obtain ⟨t, T', rfl⟩ := List.exists_cons_of_ne_nil hT
  have htd := hTd t (by simp)
  obtain ⟨_, hminus, _⟩ := digit_not_space htd
  have ht0 : t ≠ '0' := by simpa using hT0
  have hF := length_flatten_chunks hL
  have hlen : (t :: T' ++ L.reverse.flatten).length = (t :: T').length + 9 * L.length := by
    rw [List.length_append, hF]
  unfold ofString
  rw [if_neg (by simpa using hminus), if_neg (by simpa using ht0)]
  by_cases h9 : (t :: T').length = 9
  · have hch : NineDigitChunks (L ++ [t :: T']) := by
      intro c hc
      rcases List.mem_append.mp hc with h | h
      · exact hL c h
      · simp at h; subst h; exact ⟨h9, hTd⟩
    rw [chunkLoop_text SIZE _ [] (L ++ [t :: T']) (by simp) hch (by simp [SIZE])
      (by simp [SIZE])]
    simp only [bind, Except.bind]
    rw [if_neg (by rw [hlen, h9]; simp [SIZE])]
    simp [pure, Except.pure]
  · rw [chunkLoop_text SIZE _ (t :: T') L rfl hL (by simp only [SIZE]; omega)
      (by simp [SIZE])]
    simp only [bind, Except.bind]
    have hTpos : 0 < (t :: T').length := by simp
    rw [if_pos (by
      rw [hlen]
      generalize (t :: T').length = n at h9 hTlen hTpos
      simp only [SIZE]; omega)]
    have hsub : substr (t :: T' ++ L.reverse.flatten) 0
        ((t :: T' ++ L.reverse.flatten).length
          - (L.map (fun c => (digitsValue c : Int))).length * SIZE) = .ok (t :: T') := by
      unfold substr
      rw [if_neg (by simp), hlen, List.length_map]
      have : (t :: T').length + 9 * L.length - L.length * SIZE = (t :: T').length := by
        simp only [SIZE]; omega
      rw [this, List.drop_zero, List.take_left]
    simp only [hsub, stoi_digits hT hTd hTlen, pure, Except.pure]

/-- The text constructor on a digit string with a minus sign. -/
theorem ofString_signed {T : List Char} {L : List (List Char)} (hT : T ≠ [])
    (hTd : ∀ x ∈ T, x.isDigit = true) (hTlen : T.length ≤ 9)
    (hL : NineDigitChunks L) :
    ofString ('-' :: (T ++ L.reverse.flatten))
      = .ok { digits_ := L.map (fun c => (digitsValue c : Int)) ++ [(digitsValue T : Int)],
              sign_ := .NEGATIVE } := by
  have hF := length_flatten_chunks hL
  have hlen : ('-' :: (T ++ L.reverse.flatten)).length = 1 + T.length + 9 * L.length := by
    rw [List.length_cons, List.length_append, hF]; omega
  unfold ofString
  rw [if_pos (by simp)]
  by_cases h9 : T.length = 9
  · have hch : NineDigitChunks (L ++ [T]) := by
      intro c hc
      rcases List.mem_append.mp hc with h | h
      · exact hL c h
      · simp at h; subst h; exact ⟨h9, hTd⟩
    rw [chunkLoop_text (SIZE + 1) _ ['-'] (L ++ [T]) (by simp) hch (by simp [SIZE])
      (by simp [SIZE])]
    simp only [bind, Except.bind]
    rw [if_neg (by rw [hlen, h9]; simp [SIZE])]
    simp [pure, Except.pure]
  · rw [chunkLoop_text (SIZE + 1) ('-' :: (T ++ L.reverse.flatten)) ('-' :: T) L rfl hL
      (by simp only [SIZE, List.length_cons]; omega) (by simp [SIZE])]
    simp only [bind, Except.bind]
    have hTpos : 0 < T.length := List.length_pos.mpr hT
    rw [if_pos (by rw [hlen]; simp only [SIZE]; omega)]
    have hsub : substr ('-' :: (T ++ L.reverse.flatten)) 1
        (('-' :: (T ++ L.reverse.flatten)).length - 1
          - (L.map (fun c => (digitsValue c : Int))).length * SIZE) = .ok T := by
      unfold substr
      rw [if_neg (by simp), hlen, List.length_map]
      have : 1 + T.length + 9 * L.length - 1 - L.length * SIZE = T.length := by
        simp only [SIZE]; omega
      rw [this]
      simp
    simp only [hsub, stoi_digits hT hTd hTlen, pure, Except.pure]

/-- `toString` on the groups read from a chunked digit string. -/
theorem toString_chunks {T : List Char} {L : List (List Char)} (hT : T ≠ [])
    (hTd : ∀ x ∈ T, x.isDigit = true) (hTlen : T.length ≤ 9) (hT0 : T.head? ≠ some '0')
    (hL : NineDigitChunks L) (s : sign) (hs : s ≠ .ZERO) :
    toString { digits_ := L.map (fun c => (digitsValue c : Int)) ++ [(digitsValue T : Int)],
               sign_ := s }
      = .ok ((if s = .NEGATIVE then ['-'] else []) ++ (T ++ L.reverse.flatten)) := by
  unfold toString
  simp only [hs, if_false, vback_concat, bind, Except.bind]
  rw [to_string_digits hT hTd (Or.inl hT0) (by omega)]
  have hi : (((L.map (fun c => (digitsValue c : Int)) ++ [(digitsValue T : Int)]).length : Nat)
      : Int) - 2 = (L.length : Int) - 1 := by
    simp; omega
  rw [hi, toStringLoop_chunks L [(digitsValue T : Int)] _ _ hL (by simp)]
  simp

/-- Parsing a well-formed decimal text and rendering the value gives the text back. -/
theorem ofString_toString {s : List Char} (h : isDecimalText s = true) :
    (do let x ← ofString s
        toString x) = .ok s := by
  unfold isDecimalText at h
  simp only [Bool.or_eq_true, beq_iff_eq, Bool.and_eq_true, Bool.not_eq_true',
    List.isEmpty_eq_false, List.all_eq_true, bne_iff_ne, ne_eq] at h
  rcases h with h | ⟨⟨hne, hd⟩, h0⟩
  · subst h; decide
  · -- the digits after the optional sign
    have key : ∀ body : List Char, body ≠ [] → (∀ x ∈ body, x.isDigit = true) →
        body.head? ≠ some '0' →
        ∃ (T : List Char) (L : List (List Char)), body = T ++ L.reverse.flatten ∧ T ≠ [] ∧
          (∀ x ∈ T, x.isDigit = true) ∧ T.length ≤ 9 ∧ T.head? ≠ some '0' ∧
          NineDigitChunks L := by
      intro body hb hbd hb0
      obtain ⟨T, L, e, t1, t2, t3⟩ := exists_chunks body.length body rfl hb
      refine ⟨T, L, e, t1, ?_, t2, ?_, ?_⟩
      · intro x hx; exact hbd x (by rw [e]; simp [hx])
      · obtain ⟨t, T', rfl⟩ := List.exists_cons_of_ne_nil t1
        rw [e] at hb0; simpa using hb0
      · intro c hc
        refine ⟨t3 c hc, fun x hx => hbd x ?_⟩
        rw [e]
        apply List.mem_append_right
        rw [List.mem_flatten]
        exact ⟨c, by simpa using hc, hx⟩
    by_cases hm : s.head? = some '-'
    · rw [if_pos hm] at hne hd h0
      obtain ⟨c, rest, rfl⟩ : ∃ c rest, s = c :: rest := by
        cases s with
        | nil => simp at hm
        | cons c rest => exact ⟨c, rest, rfl⟩
      have hc : c = '-' := by simpa using hm
      subst hc
      simp only [List.tail_cons] at hne hd h0
      obtain ⟨T, L, e, t1, t2, t3, t4, t5⟩ := key rest (by simpa using hne) hd h0
      rw [e, ofString_signed t1 t2 t3 t5]
      simp only [bind, Except.bind]
      rw [toString_chunks t1 t2 t3 t4 t5 _ (by simp)]
      simp
    · rw [if_neg hm] at hne hd h0
      obtain ⟨T, L, e, t1, t2, t3, t4, t5⟩ := key s (by simpa using hne) hd h0
      rw [e, ofString_unsigned t1 t2 t3 t4 t5]
      simp only [bind, Except.bind]
      rw [toString_chunks t1 t2 t3 t4 t5 _ (by simp)]
      simp

end BigInteger

namespace BigInteger

/-! ## Failures of the text constructor -/

/-- On at most nine characters `std::stoi` fails only for want of a number. -/
theorem stoi_error {str : List Char} (hlen : str.length ≤ 9) {e : Err}
    (h : stoi str = .error e) : e = .invalidArgument := by
  unfold stoi at h
  simp only at h
  generalize hs : List.dropWhile isSpaceChar str = s at h
  have hsl : s.length ≤ 9 := by
    rw [← hs]
    exact le_trans (List.dropWhile_suffix isSpaceChar).length_le hlen
  generalize hs2 : (if s.head? = some '-' ∨ s.head? = some '+' then s.tail else s) = s2 at h
  have hs2l : s2.length ≤ 9 := by
    rw [← hs2]
    split
    · rw [List.length_tail]; omega
    · exact hsl
  generalize hds : List.takeWhile Char.isDigit s2 = ds at h
  have hdl : ds.length ≤ 9 := by
    rw [← hds]
    exact le_trans (List.takeWhile_prefix Char.isDigit).length_le hs2l
  have hdd : ∀ c ∈ ds, c.isDigit = true := by
    intro c hc; rw [← hds] at hc; exact List.mem_takeWhile_imp hc
  have hv := digitsValue_lt ds hdd
  have hpow : 10 ^ ds.length ≤ 10 ^ 9 := Nat.pow_le_pow_right (by norm_num) hdl
  have hv9 : (digitsValue ds : Int) < 1000000000 := by
    have : digitsValue ds < 1000000000 := by
      have : (10 : Nat) ^ 9 = 1000000000 := by norm_num
      omega
    exact_mod_cast this
  have hv0 : (0 : Int) ≤ (digitsValue ds : Int) := Int.natCast_nonneg _
  by_cases hnil : ds = []
  · rw [if_pos hnil] at h
    injection h with h; exact h.symm
  · rw [if_neg hnil] at h
    exfalso
    by_cases hneg : s.head? = some '-'
    · simp only [hneg, if_true] at h
      rw [if_neg (by omega)] at h
      simp at h
    · simp only [hneg, if_false] at h
      rw [if_neg (by omega)] at h
      simp at h

theorem substr_length {str : List Char} {pos n : Nat} {c : List Char}
    (h : substr str pos n = .ok c) : c.length ≤ n := by
  unfold substr at h
  split at h
  · simp at h
  · injection h with h
    rw [← h, List.length_take]
    exact Nat.min_le_left _ _

theorem substr_ok (str : List Char) (pos n : Nat) (h : pos ≤ str.length) :
    ∃ c, substr str pos n = .ok c := by
  unfold substr
  rw [if_neg (by omega)]
  exact ⟨_, rfl⟩

/-- The chunk loop on an arbitrary string: it takes a fixed number of chunks, or fails with
the error of `std::stoi`. -/
theorem chunkLoop_total (str : List Char) (lo : Nat) (hlo : SIZE ≤ lo) :
    ∀ (fuel i : Nat) (acc : List Int), i ≤ str.length → i < fuel →
    (∃ ds, chunkLoop str lo fuel i acc = .ok ds ∧
      ds.length = acc.length + (if i ≥ lo then (i - lo) / 9 + 1 else 0)) ∨
    chunkLoop str lo fuel i acc = .error .invalidArgument := by
  simp only [SIZE] at hlo
  intro fuel
  induction fuel with
  | zero => intro i acc _ hf; omega
  | succ fuel ih =>
    intro i acc hi hf
    rw [chunkLoop]
    by_cases hc : i ≥ lo
    · rw [if_pos hc]
      obtain ⟨c, hsub⟩ := substr_ok str (i - SIZE) SIZE
        (by simp only [SIZE]; omega)
      have hcl := substr_length hsub
      simp only [hsub, bind, Except.bind]
      cases hst : stoi c with
      | error e =>
        right
        rw [stoi_error (by simpa [SIZE] using hcl) hst]
      | ok v =>
        simp only
        rcases ih (i - SIZE) (acc ++ [v]) (by simp only [SIZE]; omega)
          (by simp only [SIZE]; omega) with ⟨ds, h1, h2⟩ | h
        · left
          refine ⟨ds, h1, ?_⟩
          rw [h2, if_pos hc]
          simp only [SIZE, List.length_append, List.length_singleton]
          split <;> omega
        · right; exact h
    · rw [if_neg hc]
      left
      exact ⟨acc, rfl, by rw [if_neg hc]; simp⟩

/-- The text constructor fails only with `std::invalid_argument`, raised by `std::stoi`. -/
theorem ofString_error {s : List Char} {e : Err} (h : ofString s = .error e) :
    e = .invalidArgument := by
  unfold ofString at h
  split at h
  · rename_i hm
    have hlen : 1 ≤ s.length := by
      cases s with
      | nil => simp at hm
      | cons c cs => simp
    rcases chunkLoop_total s (SIZE + 1) (by simp) (s.length + 1) s.length [] (le_refl _)
      (by omega) with ⟨ds, h1, h2⟩ | h1
    · simp only [h1, bind, Except.bind] at h
      split at h
      · obtain ⟨c, hsub⟩ := substr_ok s 1
          (s.length - 1 - ds.length * SIZE) hlen
        have hcl := substr_length hsub
        simp only [hsub] at h
        cases hst : stoi c with
        | error e' =>
          rw [hst] at h
          simp only at h
          injection h with h
          rw [← h]
          apply stoi_error _ hst
          rw [h2] at hcl
          simp only [SIZE, List.length_nil, Nat.zero_add] at hcl
          split at hcl <;> omega
        | ok v => rw [hst] at h; simp [pure, Except.pure] at h
      · simp [pure, Except.pure] at h
    · simp only [h1, bind, Except.bind] at h
      injection h with h; exact h.symm
  · split at h
    · simp [pure, Except.pure] at h
    · rcases chunkLoop_total s SIZE (le_refl _) (s.length + 1) s.length [] (le_refl _)
        (by omega) with ⟨ds, h1, h2⟩ | h1
      · simp only [h1, bind, Except.bind] at h
        split at h
        · obtain ⟨c, hsub⟩ := substr_ok s 0
            (s.length - ds.length * SIZE) (Nat.zero_le _)
          have hcl := substr_length hsub
          simp only [hsub] at h
          cases hst : stoi c with
          | error e' =>
            rw [hst] at h
            simp only at h
            injection h with h
            rw [← h]
            apply stoi_error _ hst
            rw [h2] at hcl
            simp only [SIZE, List.length_nil, Nat.zero_add] at hcl
            split at hcl <;> omega
          | ok v => rw [hst] at h; simp [pure, Except.pure] at h
        · simp [pure, Except.pure] at h
      · simp only [h1, bind, Except.bind] at h
        injection h with h; exact h.symm

/-- Every text that starts with `'0'` is read as the ZERO value, whatever follows. -/
theorem ofString_leading_zero {s : List Char} (h : s.head? = some '0') :
    ofString s = .ok { digits_ := [0], sign_ := .ZERO } := by
  obtain ⟨c, rest, rfl⟩ : ∃ c rest, s = c :: rest := by
    cases s with
    | nil => simp at h
    | cons c rest => exact ⟨c, rest, rfl⟩
  have hc : c = '0' := by simpa using h
  subst hc
  unfold ofString
  simp only [List.headD_cons]
  rw [if_pos trivial]
  rfl

end BigInteger

namespace BigInteger

/-! ## Division by the ZERO value -/

theorem zero_facts : WellFormed (ofLongLong 0) ∧ (ofLongLong 0).sign_ ≠ .NEGATIVE ∧
    value (ofLongLong 0) = 0 ∧ abs (ofLongLong 0) = ofLongLong 0 ∧
    (ofLongLong 0).sign_ = .ZERO := by decide

/-- One pass of the division loop when the divisor is the ZERO value: no group is brought
down, the quotient grows by `BASE - 2` and the dividend is unchanged. -/
theorem divLoop_zero_pass (self : BigInteger) (fuel : Nat) (hfuel : 31 ≤ fuel) (k i : Nat)
    {Q D : BigInteger} (hQ : WellFormed Q) (hQn : Q.sign_ ≠ .NEGATIVE) (hD : WellFormed D)
    (hDp : D.sign_ = .POSITIVE) :
    ∃ Q2, WellFormed Q2 ∧ Q2.sign_ ≠ .NEGATIVE ∧ value Q2 = value Q + (BASE - 2) ∧
      divLoop fuel self (ofLongLong 0) (k + 1) (i : Int) Q D =
        if (i : Int) ≤ 0 then .ok Q2 else divLoop fuel self (ofLongLong 0) k (i : Int) Q2 D := by
  obtain ⟨z1, z2, z3, z4, z5⟩ := zero_facts
  have hDn : D.sign_ ≠ .NEGATIVE := by rw [hDp]; simp
  have hDv : 0 < value D := hD.sign_positive_iff.mp hDp
  have hbd : bringDown self (ofLongLong 0) (i + 2) (i : Int) Q D = .ok ((i : Int), Q, D) := by
    rw [bringDown, z4, opLt_of_nonneg hD z1 hDn z2, z3]
    rw [if_neg (by simp; omega)]
    rfl
  obtain ⟨q, f1, f2, f3, f4, f5, f6, f7⟩ := find_quotient_spec hD hDn z1 z2 (Or.inr hDv)
    fuel hfuel
  rw [z3] at f7
  have hq : value q = BASE - 2 := by
    rcases f7 with h | h
    · simp at h; omega
    · exact h
  obtain ⟨Q2, a1, a2, a3, a4⟩ := opAddAssign_nonneg hQ f2 hQn f3
  obtain ⟨p, p1, p2, p3, _⟩ := opMul_wellFormed z1 f2
  have hp : p = ofLongLong 0 := p2.ext_value z1 (by rw [p3, z3]; simp)
  obtain ⟨D2, s1, s2, s3, s4⟩ := opSubAssign_nonneg hD z1 hDn (by rw [z3]; omega)
  have hD2 : D2 = D := s2.ext_value hD (by rw [s4, z3]; simp)
  refine ⟨Q2, a2, a3, by rw [a4, hq], ?_⟩
  rw [divLoop, if_pos (by omega)]
  simp only [Int.toNat_ofNat, hbd, bind, Except.bind, z4, f1, a1, p1, hp, s1, hD2]
  rfl

/-- With the ZERO value as divisor the division loop does not end while groups remain:
whatever its budget, it is still running when the budget is used up. -/
theorem divLoop_zero_diverges (self : BigInteger) (fuel : Nat) (hfuel : 31 ≤ fuel) {i : Nat}
    (hi : 1 ≤ i) {D : BigInteger} (hD : WellFormed D) (hDp : D.sign_ = .POSITIVE) :
    ∀ (k : Nat) (Q : BigInteger), WellFormed Q → Q.sign_ ≠ .NEGATIVE →
    divLoop fuel self (ofLongLong 0) k (i : Int) Q D = .error .outOfFuel := by
  intro k
  induction k with
  | zero => intro Q _ _; rfl
  | succ k ih =>
    intro Q hQ hQn
    obtain ⟨Q2, q1, q2, _, q4⟩ := divLoop_zero_pass self fuel hfuel k i hQ hQn hD hDp
    rw [q4, if_neg (by omega)]
    exact ih Q2 q1 q2

theorem top_group {a : BigInteger} (ha : WellFormed a) (hs : a.sign_ ≠ .ZERO) :
    ∃ L back, a.digits_ = L ++ [back] ∧ vback a.digits_ = .ok back ∧
      WellFormed (ofLongLong back) ∧ (ofLongLong back).sign_ = .POSITIVE := by
  rcases List.eq_nil_or_concat a.digits_ with h | ⟨L, x, h⟩
  · exact absurd h ha.1.ne_nil
  · rw [List.concat_eq_append] at h
    have hx := ha.1.inRange x (by rw [h]; simp)
    have hx0 : x ≠ 0 := by
      intro h0
      have := ha.1.2.2 (by rw [h, h0]; simp)
      exact hs (ha.2.2 this)
    refine ⟨L, x, h, by rw [h]; exact vback_concat L x, ?_, ?_⟩
    · exact (ofLongLong_small_wellFormed hx.1 hx.2).1
    · rw [ofLongLong_pos (by omega) hx.2]

/-- The prologue of `operator/=` when the divisor is the ZERO value and the dividend is
not. -/
theorem opDivAssign_zero_unfold {a : BigInteger} (ha : WellFormed a) (hs : a.sign_ ≠ .ZERO)
    (fuel : Nat) {back : Int} (hb : vback a.digits_ = .ok back) :
    opDivAssign fuel a (ofLongLong 0) = (do
      let q ← divLoop fuel a (ofLongLong 0) fuel ((a.digits_.length : Int) - 1)
        (ofLongLong 0) (ofLongLong back)
      remove_leading_zeroes { q with sign_ := .ZERO }) := by
  obtain ⟨z1, z2, z3, z4, z5⟩ := zero_facts
  obtain ⟨wa, na, _, va⟩ := abs_wellFormed ha
  have hA := groupsValue_nonneg ha.1.inRange
  unfold opDivAssign
  rw [if_neg hs, z4, opLt_of_nonneg wa z1 na z2, va, z3, if_neg (by simp; omega),
    if_neg (by decide), hb, z5]
  simp [bind, Except.bind, sign.toInt, signOfInt]

/-- `a / 0` and `a % 0` for a dividend of two or more groups: the loop never ends. -/
theorem opDiv_zero_long {a : BigInteger} (ha : WellFormed a) (hlen : 2 ≤ a.digits_.length)
    (fuel : Nat) (hfuel : 31 ≤ fuel) :
    opDiv fuel a (ofLongLong 0) = .error .outOfFuel ∧
    opMod fuel a (ofLongLong 0) = .error .outOfFuel := by
  obtain ⟨z1, z2, z3, z4, z5⟩ := zero_facts
  have hs : a.sign_ ≠ .ZERO := by
    intro h; rw [ha.2.1 h] at hlen; simp at hlen
  obtain ⟨L, back, hL, hb, wb, pb⟩ := top_group ha hs
  have hi : ((a.digits_.length : Nat) : Int) - 1 = ((a.digits_.length - 1 : Nat) : Int) := by
    omega
  have hdiv : opDiv fuel a (ofLongLong 0) = .error .outOfFuel := by
    unfold opDiv
    rw [opDivAssign_zero_unfold ha hs fuel hb, hi,
      divLoop_zero_diverges a fuel hfuel (by omega) wb pb fuel (ofLongLong 0) z1 z2]
    rfl
  refine ⟨hdiv, ?_⟩
  unfold opMod opModAssign
  rw [hdiv]; rfl

/-- `a / 0` and `a % 0` for a nonzero dividend of one group: a value with sign ZERO and
the group `BASE - 2`, and the dividend itself. -/
theorem opDiv_zero_short {a : BigInteger} (ha : WellFormed a) (hs : a.sign_ ≠ .ZERO)
    (hlen : a.digits_.length = 1) (fuel : Nat) (hfuel : 31 ≤ fuel) :
    opDiv fuel a (ofLongLong 0) = .ok { digits_ := [999999998], sign_ := .ZERO } ∧
    opMod fuel a (ofLongLong 0) = .ok a := by
  obtain ⟨z1, z2, z3, z4, z5⟩ := zero_facts
  obtain ⟨L, back, hL, hb, wb, pb⟩ := top_group ha hs
  obtain ⟨k, rfl⟩ : ∃ k, fuel = k + 1 := ⟨fuel - 1, by omega⟩
  obtain ⟨Q2, q1, q2, q3, q4⟩ := divLoop_zero_pass a (k + 1) hfuel k 0 z1 z2 wb pb
  have hQ2 : Q2 = { digits_ := [999999998], sign_ := .POSITIVE } :=
    q1.ext_value (by decide) (by rw [q3, z3]; decide)
  have hdiv : opDiv (k + 1) a (ofLongLong 0)
      = .ok { digits_ := [999999998], sign_ := .ZERO } := by
    unfold opDiv
    rw [opDivAssign_zero_unfold ha hs (k + 1) hb, hlen]
    have hi : (((1 : Nat) : Int) - 1) = ((0 : Nat) : Int) := by simp
    rw [hi, q4, if_pos (by simp), hQ2]
    decide
  refine ⟨hdiv, ?_⟩
  unfold opMod opModAssign
  rw [hdiv]
  have hmul : opMul { digits_ := [999999998], sign_ := .ZERO } (ofLongLong 0)
      = .ok (ofLongLong 0) := by decide!
  simp only [bind, Except.bind, hmul]
  rw [opSubAssign_zero_right hs z5]
  exact remove_leading_zeroes_normalized _ ha.1

/-- `0 / b` and `0 % b`, for every divisor, the ZERO value included. -/
theorem opDiv_zero_left {b : BigInteger} (hb : WellFormed b) (fuel : Nat) :
    opDiv fuel (ofLongLong 0) b = .ok (ofLongLong 0) ∧
    opMod fuel (ofLongLong 0) b = .ok (ofLongLong 0) := by
  obtain ⟨z1, z2, z3, z4, z5⟩ := zero_facts
  have hdiv : opDiv fuel (ofLongLong 0) b = .ok (ofLongLong 0) := by
    unfold opDiv opDivAssign
    rw [if_pos z5]; rfl
  refine ⟨hdiv, ?_⟩
  obtain ⟨p, p1, p2, p3, _⟩ := opMul_wellFormed z1 hb
  have hp : p = ofLongLong 0 := p2.ext_value z1 (by rw [p3, z3]; simp)
  unfold opMod opModAssign
  rw [hdiv]
  simp only [bind, Except.bind, p1, hp]
  decide

end BigInteger


/-! ## `Rational` division by zero -/

namespace Rational

theorem ofInt_zero :
    ofInt 0 = { numerator_ := BigInteger.ofLongLong 0, denominator_ := BigInteger.ofLongLong 1,
                sign_ := .ZERO } := by decide

/-- A zero `Rational` divided by anything, `Rational(0)` included, is returned unchanged:
the guard `if (*this == 0) return *this` comes first. -/
theorem ratDiv_of_zero {r : Rational} (h : opEq r (ofInt 0) = true) (fuel : Nat)
    (other : Rational) : opDiv fuel r other = .ok r := by
  unfold opDiv opDivAssign
  rw [if_pos h]; rfl

/-- The operands handed to `reduction` when a `Rational` with a positive numerator is
divided by `Rational(0)`: the numerator itself over the ZERO value, with sign ZERO. -/
theorem ratDiv_zero_unfold {r : Rational} (hn : BigInteger.WellFormed r.numerator_)
    (hp : r.numerator_.sign_ = .POSITIVE) (hd : BigInteger.WellFormed r.denominator_)
    (fuel : Nat) :
    opDiv fuel r (ofInt 0) = reduction fuel
      { numerator_ := r.numerator_, denominator_ := BigInteger.ofLongLong 0, sign_ := .ZERO } := by
  obtain ⟨z1, z2, z3, z4, z5⟩ := BigInteger.zero_facts
  have hone : BigInteger.WellFormed (BigInteger.ofLongLong 1) ∧
      BigInteger.value (BigInteger.ofLongLong 1) = 1 := by decide
  obtain ⟨n, n1, n2, n3, _⟩ := BigInteger.opMulAssign_wellFormed hn hone.1
  have hnn : n = r.numerator_ := n2.ext_value hn (by rw [n3, hone.2]; simp)
  obtain ⟨d, d1, d2, d3, _⟩ := BigInteger.opMulAssign_wellFormed hd z1
  have hdd : d = BigInteger.ofLongLong 0 := d2.ext_value z1 (by rw [d3, z3]; simp)
  have hne : opEq r (ofInt 0) = false := by
    unfold opEq
    rw [ofInt_zero]
    simp only [BigInteger.opEq_zero, hp]
    simp
  unfold opDiv opDivAssign
  rw [hne, ofInt_zero]
  simp only [Bool.false_eq_true, if_false, bind, Except.bind, n1, d1, hnn, hdd,
    sign.toInt, mul_zero]
  rfl

/-- `r / Rational(0)` for a numerator of two or more groups: the reduction divides by the
ZERO value and never ends. -/
theorem ratDiv_zero_long {r : Rational} (hn : BigInteger.WellFormed r.numerator_)
    (hp : r.numerator_.sign_ = .POSITIVE) (hd : BigInteger.WellFormed r.denominator_)
    (hlen : 2 ≤ r.numerator_.digits_.length) (fuel : Nat) (hfuel : 31 ≤ fuel) :
    opDiv fuel r (ofInt 0) = .error .outOfFuel := by
  rw [ratDiv_zero_unfold hn hp hd fuel]
  unfold reduction
  simp only [BigInteger.opEq_zero, hp, (BigInteger.opDiv_zero_long hn hlen fuel hfuel).2]
  simp [bind, Except.bind]

/-- `r / Rational(0)` for a numerator of one group: the result is the `Rational` with
numerator 1, denominator 0 and sign ZERO. -/
theorem ratDiv_zero_short {r : Rational} (hn : BigInteger.WellFormed r.numerator_)
    (hp : r.numerator_.sign_ = .POSITIVE) (hd : BigInteger.WellFormed r.denominator_)
    (hlen : r.numerator_.digits_.length = 1) (fuel : Nat) (hfuel : 31 ≤ fuel) :
    opDiv fuel r (ofInt 0) = .ok
      { numerator_ := BigInteger.ofLongLong 1, denominator_ := BigInteger.ofLongLong 0,
        sign_ := .ZERO } := by
  obtain ⟨z1, z2, z3, z4, z5⟩ := BigInteger.zero_facts
  have hs : r.numerator_.sign_ ≠ .ZERO := by rw [hp]; simp
  have hdl := BigInteger.opDiv_zero_left hn fuel
  have hdl1 : BigInteger.opDivAssign fuel (BigInteger.ofLongLong 0) r.numerator_
      = .ok (BigInteger.ofLongLong 0) := hdl.1
  rw [ratDiv_zero_unfold hn hp hd fuel]
  unfold reduction
  simp only [BigInteger.opEq_zero, hp, (BigInteger.opDiv_zero_short hn hs hlen fuel hfuel).2,
    hdl.2, hdl1, z5]
  simp [bind, Except.bind, pure, Except.pure, hp, (BigInteger.opDiv_zero_short hn hs hlen fuel hfuel).2,
    hdl.2, hdl1, z5, BigInteger.opEq_zero]

end Rational

namespace BigInteger

/-! ## The claims -/

/-- C1 (the code departs from the claim): `1999999999 / 2` is computed as `999999998` and
`1999999999 % 2` as `3`, so the quotient is not the truncated quotient `999999999` and the
remainder is not smaller than the divisor; the spec's own examples `100 / 7 = 14`,
`100 % 7 = 2`, `-7 / 2 = -3`, `-7 % 2 = -1` are computed as stated. -/
theorem C1_quotient_one_short :
    WellFormed (ofLongLong 1999999999) ∧ WellFormed (ofLongLong 2) ∧
    opDiv 31 (ofLongLong 1999999999) (ofLongLong 2) = .ok (ofLongLong 999999998) ∧
    opMod 31 (ofLongLong 1999999999) (ofLongLong 2) = .ok (ofLongLong 3) ∧
    opDiv 31 (ofLongLong 100) (ofLongLong 7) = .ok (ofLongLong 14) ∧
    opMod 31 (ofLongLong 100) (ofLongLong 7) = .ok (ofLongLong 2) ∧
    opDiv 31 (ofLongLong (-7)) (ofLongLong 2) = .ok (ofLongLong (-3)) ∧
    opMod 31 (ofLongLong (-7)) (ofLongLong 2) = .ok (ofLongLong (-1)) := by
  decide!

/-- C2: for well-formed `a` and well-formed nonzero `b`, once the budget covers the
division loops, the program's own expression `a == (a / b) * b + (a % b)` evaluates, and
it evaluates to true. -/
theorem C2_div_mod_identity (a b : BigInteger) (ha : WellFormed a) (hb : WellFormed b)
    (hb0 : b.sign_ ≠ .ZERO) (fuel : Nat) (hf : 2 * a.digits_.length + 31 ≤ fuel) :
    (do let q ← opDiv fuel a b
        let p ← opMul q b
        let r ← opMod fuel a b
        let s ← opAdd p r
        pure (opEq a s)) = .ok true := by
  obtain ⟨q, p, r, m, h1, h2, h3, h4, _⟩ := div_mod_spec ha hb hb0 fuel hf
  simp only [h1, h2, h3, h4, bind, Except.bind, pure, Except.pure]
  congr 1
  rw [opEq_of_wellFormed ha ha]
  simp

/-- C2, instance: `a = -1999999999999`, `b = 7`. -/
theorem C2_div_mod_identity_witness :
    (do let q ← opDiv 40 (ofLongLong (-1999999999999)) (ofLongLong 7)
        let p ← opMul q (ofLongLong 7)
        let r ← opMod 40 (ofLongLong (-1999999999999)) (ofLongLong 7)
        let s ← opAdd p r
        pure (opEq (ofLongLong (-1999999999999)) s)) = .ok true :=
  C2_div_mod_identity (ofLongLong (-1999999999999)) (ofLongLong 7) (by decide) (by decide)
    (by decide) 40 (by decide)

/-- C3 (the code departs from the claim): `3 - 5` reads `digits_[1]` of a one-group vector,
an access outside the stored sequence, while `5 - 3` is computed as `2`. -/
theorem C3_sub_reads_outside :
    WellFormed (ofLongLong 3) ∧ WellFormed (ofLongLong 5) ∧
    opSub (ofLongLong 3) (ofLongLong 5) = .error .outOfBounds ∧
    opSub (ofLongLong 5) (ofLongLong 3) = .ok (ofLongLong 2) := by
  decide!

/-- C4 (the code departs from the claim): `3 + (-5)` is redirected to `3 -= 5` and ends in
an access outside the stored sequence, while `(-5) + 3` is computed as `-2`. -/
theorem C4_add_reads_outside :
    WellFormed (ofLongLong 3) ∧ WellFormed (ofLongLong (-5)) ∧
    opAdd (ofLongLong 3) (ofLongLong (-5)) = .error .outOfBounds ∧
    opAdd (ofLongLong (-5)) (ofLongLong 3) = .ok (ofLongLong (-2)) := by
  decide!

/-- C7 (the code departs from the claim): for the negative values `-5` and `-3`, which have
the same number of groups, `operator<` answers `-5 < -3` with false and `-3 < -5` with
true. -/
theorem C7_lt_negative_not_inverted :
    WellFormed (ofLongLong (-5)) ∧ WellFormed (ofLongLong (-3)) ∧
    value (ofLongLong (-5)) < value (ofLongLong (-3)) ∧
    opLt (ofLongLong (-5)) (ofLongLong (-3)) = false ∧
    opLt (ofLongLong (-3)) (ofLongLong (-5)) = true := by
  decide!

/-- C5: for well-formed operands of the same sign, `a + b` is a well-formed value of that
sign denoting `value a + value b`; the result has as many groups as the longer operand
when the sum of the magnitudes is below `BASE ^ max_size`, and exactly one more group, the
carry 1, otherwise; `"12345678901234567890" + "1"` renders as `"12345678901234567891"`. -/
theorem C5_add_same_sign (a b : BigInteger) (ha : WellFormed a) (hb : WellFormed b)
    (hs : a.sign_ = b.sign_) :
    (∃ r, opAdd a b = .ok r ∧ WellFormed r ∧ r.sign_ = a.sign_ ∧
      value r = value a + value b ∧
      ((groupsValue a.digits_ + groupsValue b.digits_
            < BASE ^ (max a.digits_.length b.digits_.length) ∧
          r.digits_.length = max a.digits_.length b.digits_.length) ∨
        (BASE ^ (max a.digits_.length b.digits_.length)
            ≤ groupsValue a.digits_ + groupsValue b.digits_ ∧
          r.digits_.length = max a.digits_.length b.digits_.length + 1 ∧
          r.digits_.getLast? = some 1))) ∧
    (do let x ← ofString "12345678901234567890".toList
        let y ← ofString "1".toList
        let z ← opAdd x y
        toString z) = .ok "12345678901234567891".toList := by
  refine ⟨?_, by decide!⟩
  obtain ⟨r, h1, h2, h3, h4, h5⟩ := addSameSign_wellFormed ha hb hs
  refine ⟨r, by unfold opAdd; rw [opAddAssign_same_sign hs]; exact h1, h2, h3, h4, ?_⟩
  have hv : groupsValue r.digits_ = groupsValue a.digits_ + groupsValue b.digits_ := by
    have e1 : value r = r.sign_.toInt * groupsValue r.digits_ := rfl
    have e2 : value a = a.sign_.toInt * groupsValue a.digits_ := rfl
    have e3 : value b = b.sign_.toInt * groupsValue b.digits_ := rfl
    rw [h3] at e1
    rw [← hs] at e3
    by_cases hz : a.sign_ = .ZERO
    · have hr := h2.2.1 (h3 ▸ hz)
      rw [hr, ha.2.1 hz, hb.2.1 (hs ▸ hz)]; rfl
    · have hne : a.sign_.toInt ≠ 0 := by
        cases hA : a.sign_ <;> simp_all [sign.toInt]
      have : a.sign_.toInt * groupsValue r.digits_ =
          a.sign_.toInt * (groupsValue a.digits_ + groupsValue b.digits_) := by
        rw [← e1, h4, e2, e3]; ring
      exact mul_left_cancel₀ hne this
  rcases h5 with h5 | ⟨h5, h6⟩
  · left
    refine ⟨?_, h5⟩
    have := groupsValue_lt_pow h2.1.inRange
    rw [h5, hv] at this
    exact this
  · right
    refine ⟨?_, h5, h6⟩
    have hne : r.digits_ ≠ [0] := by
      intro h; rw [h] at h6; simp at h6
    have := h2.1.pow_le hne
    rw [h5, hv] at this
    simpa using this

/-- C5, instance: `999999999 + 1`, where the carry out of the only group appends one. -/
theorem C5_add_same_sign_witness :
    (∃ r, opAdd (ofLongLong 999999999) (ofLongLong 1) = .ok r ∧ WellFormed r ∧
      r.sign_ = (ofLongLong 999999999).sign_ ∧
      value r = value (ofLongLong 999999999) + value (ofLongLong 1) ∧
      ((groupsValue (ofLongLong 999999999).digits_ + groupsValue (ofLongLong 1).digits_
            < BASE ^ (max (ofLongLong 999999999).digits_.length (ofLongLong 1).digits_.length) ∧
          r.digits_.length
            = max (ofLongLong 999999999).digits_.length (ofLongLong 1).digits_.length) ∨
        (BASE ^ (max (ofLongLong 999999999).digits_.length (ofLongLong 1).digits_.length)
            ≤ groupsValue (ofLongLong 999999999).digits_ + groupsValue (ofLongLong 1).digits_ ∧
          r.digits_.length
            = max (ofLongLong 999999999).digits_.length (ofLongLong 1).digits_.length + 1 ∧
          r.digits_.getLast? = some 1))) ∧
    (do let x ← ofString "12345678901234567890".toList
        let y ← ofString "1".toList
        let z ← opAdd x y
        toString z) = .ok "12345678901234567891".toList :=
  C5_add_same_sign (ofLongLong 999999999) (ofLongLong 1) (by decide) (by decide) (by decide)

/-- C6: for well-formed operands, `a * b` is a well-formed value denoting
`value a * value b`; its sign is the product of the operand signs, and it is the ZERO value
exactly when that product is 0.  The statement covers both branches of `operator*=`. -/
theorem C6_mul (a b : BigInteger) (ha : WellFormed a) (hb : WellFormed b) :
    ∃ r, opMul a b = .ok r ∧ WellFormed r ∧ value r = value a * value b ∧
      r.sign_.toInt = a.sign_.toInt * b.sign_.toInt ∧
      (r = { digits_ := [0], sign_ := .ZERO } ↔ a.sign_.toInt * b.sign_.toInt = 0) := by
  obtain ⟨r, h1, h2, h3, h4⟩ := opMul_wellFormed ha hb
  refine ⟨r, h1, h2, h3, by rw [h4, signOfInt_toInt], ?_⟩
  constructor
  · intro h
    have : r.sign_ = .ZERO := by rw [h]
    rw [h4] at this
    rw [← signOfInt_toInt, this]; rfl
  · intro h
    have hz : r.sign_ = .ZERO := by
      rw [h4, h]; rfl
    have hd := h2.2.1 hz
    obtain ⟨d, s⟩ := r
    simp only at hz hd
    rw [hz, hd]

/-- C6, instances: one product through each branch of `operator*=` (receiver greater in
magnitude, and not greater). -/
theorem C6_mul_witness :
    (∃ r, opMul (ofLongLong (-123456789012)) (ofLongLong 7) = .ok r ∧ WellFormed r ∧
      value r = value (ofLongLong (-123456789012)) * value (ofLongLong 7) ∧
      r.sign_.toInt = (ofLongLong (-123456789012)).sign_.toInt * (ofLongLong 7).sign_.toInt ∧
      (r = { digits_ := [0], sign_ := .ZERO } ↔
        (ofLongLong (-123456789012)).sign_.toInt * (ofLongLong 7).sign_.toInt = 0)) ∧
    opGt (abs (ofLongLong (-123456789012))) (abs (ofLongLong 7)) = true ∧
    opMul (ofLongLong 7) (ofLongLong (-123456789012)) = .ok (ofLongLong (-864197523084)) ∧
    opGt (abs (ofLongLong 7)) (abs (ofLongLong (-123456789012))) = false :=
  ⟨C6_mul (ofLongLong (-123456789012)) (ofLongLong 7) (by decide) (by decide),
    by decide, by decide!, by decide⟩

/-- C8: for every well-formed decimal text `s` (`"0"`, or an optional `'-'`, a nonzero
digit and any further digits), of whatever length, parsing `s` and rendering the value
gives `s` back. -/
theorem C8_parse_render_roundtrip (s : List Char) (h : isDecimalText s = true) :
    (do let x ← ofString s
        toString x) = .ok s :=
  ofString_toString h

/-- C8, instance: a negative text of 18 digits (two full chunks). -/
theorem C8_parse_render_roundtrip_witness :
    (do let x ← ofString "-123456789012345678".toList
        toString x) = .ok "-123456789012345678".toList :=
  C8_parse_render_roundtrip "-123456789012345678".toList (by decide)

/-- C9 (the claim fails): the empty text, `"007"` and `"12a"` are all turned into values;
no error is reported. -/
theorem C9_malformed_text_accepted :
    ofString "".toList = .ok { digits_ := [], sign_ := .POSITIVE } ∧
    ofString "007".toList = .ok { digits_ := [0], sign_ := .ZERO } ∧
    ofString "12a".toList = .ok { digits_ := [12], sign_ := .POSITIVE } := by
  decide

/-- C9, amended: the text constructor checks no grammar.  The empty text yields a store
with sign POSITIVE and no group; every text that starts with `'0'` yields the ZERO value;
a text with other characters than digits yields a value (`"12a"` is read as 12,
`"1234567890a2345678"` as the groups `[0, 123456789]`) unless `std::stoi` finds no number
at the start of one of its chunks (`"a12"`), and then the only failure there is, for any
text at all, is the `std::invalid_argument` of `std::stoi`. -/
theorem C9_text_constructor_failures :
    ofString "".toList = .ok { digits_ := [], sign_ := .POSITIVE } ∧
    (∀ s : List Char, s.head? = some '0' →
      ofString s = .ok { digits_ := [0], sign_ := .ZERO }) ∧
    ofString "12a".toList = .ok { digits_ := [12], sign_ := .POSITIVE } ∧
    ofString "1234567890a2345678".toList
      = .ok { digits_ := [0, 123456789], sign_ := .POSITIVE } ∧
    ofString "a12".toList = .error .invalidArgument ∧
    (∀ (s : List Char) (e : Err), ofString s = .error e → e = .invalidArgument) :=
  ⟨by decide, fun _ h => ofString_leading_zero h, by decide, by decide, by decide,
    fun _ _ h => ofString_error h⟩

/-- C9, amended, instance: `"007"`, through the rule for a leading `'0'`. -/
theorem C9_text_constructor_failures_witness :
    ofString "007".toList = .ok { digits_ := [0], sign_ := .ZERO } :=
  C9_text_constructor_failures.2.1 "007".toList (by decide)

/-- C10 (the claim fails): `5 / 0` returns a value, with sign ZERO and the group
`999999998`, and `5 % 0` returns `5`; `Rational(5) / Rational(0)` returns a value with
denominator 0. -/
theorem C10_division_by_zero_returns :
    WellFormed (ofLongLong 5) ∧
    opDiv 31 (ofLongLong 5) (ofLongLong 0) = .ok { digits_ := [999999998], sign_ := .ZERO } ∧
    opMod 31 (ofLongLong 5) (ofLongLong 0) = .ok (ofLongLong 5) ∧
    Rational.opDiv 31 (Rational.ofInt 5) (Rational.ofInt 0) = .ok
      { numerator_ := ofLongLong 1, denominator_ := ofLongLong 0, sign_ := .ZERO } := by
  decide!

/-- C10, amended: division by the ZERO value is not guarded and reports no error.  For a
well-formed `a` and every budget of at least 31 iterations: `a / 0` and `a % 0` return `a`
when `a` is ZERO; when `a` is nonzero with a single group, `a / 0` returns the value with
sign ZERO and the group `999999998`, and `a % 0` returns `a`; when `a` has two or more
groups, the division loop is still running when the budget is used up, so it never ends.
No access outside the digit sequence occurs.  `r / Rational(0)` returns `r` when `r` is
zero; for a positive numerator of one group it returns numerator 1 over denominator 0 with
sign ZERO, and for a numerator of two or more groups it never ends. -/
theorem C10_division_by_zero (a : BigInteger) (ha : WellFormed a) (fuel : Nat)
    (hfuel : 31 ≤ fuel) :
    (a.sign_ = .ZERO →
      opDiv fuel a (ofLongLong 0) = .ok a ∧ opMod fuel a (ofLongLong 0) = .ok a) ∧
    (a.sign_ ≠ .ZERO → a.digits_.length = 1 →
      opDiv fuel a (ofLongLong 0) = .ok { digits_ := [999999998], sign_ := .ZERO } ∧
      opMod fuel a (ofLongLong 0) = .ok a) ∧
    (2 ≤ a.digits_.length →
      opDiv fuel a (ofLongLong 0) = .error .outOfFuel ∧
      opMod fuel a (ofLongLong 0) = .error .outOfFuel) ∧
    (∀ r other : Rational, Rational.opEq r (Rational.ofInt 0) = true →
      Rational.opDiv fuel r other = .ok r) ∧
    (∀ r : Rational, r.numerator_ = a → a.sign_ = .POSITIVE → WellFormed r.denominator_ →
      (a.digits_.length = 1 →
        Rational.opDiv fuel r (Rational.ofInt 0) = .ok
          { numerator_ := ofLongLong 1, denominator_ := ofLongLong 0, sign_ := .ZERO }) ∧
      (2 ≤ a.digits_.length →
        Rational.opDiv fuel r (Rational.ofInt 0) = .error .outOfFuel)) := by
  refine ⟨?_, ?_, ?_, ?_, ?_⟩
  · intro hz
    have hza : a = ofLongLong 0 := ha.ext_value zero_facts.1 (by
      rw [value_of_sign_zero hz, zero_facts.2.2.1])
    rw [hza]
    exact opDiv_zero_left zero_facts.1 fuel
  · intro hs hlen
    exact opDiv_zero_short ha hs hlen fuel hfuel
  · intro hlen
    exact opDiv_zero_long ha hlen fuel hfuel
  · intro r other h
    exact Rational.ratDiv_of_zero h fuel other
  · intro r hr hp hd
    subst hr
    exact ⟨fun hlen => Rational.ratDiv_zero_short ha hp hd hlen fuel hfuel,
      fun hlen => Rational.ratDiv_zero_long ha hp hd hlen fuel hfuel⟩

/-- C10, amended, instance: the dividend `5000000000`, of two groups, with budget 1000. -/
theorem C10_division_by_zero_witness :
    opDiv 1000 (ofLongLong 5000000000) (ofLongLong 0) = .error .outOfFuel ∧
    opMod 1000 (ofLongLong 5000000000) (ofLongLong 0) = .error .outOfFuel :=
  (C10_division_by_zero (ofLongLong 5000000000) (by decide) 1000 (by decide)).2.2.1 (by decide)

end BigInteger

namespace BigInteger

/-! ## Sign of the remainder, and the digit search against the true quotient digit -/

theorem WellFormed.sign_negative_iff {a : BigInteger} (ha : WellFormed a) :
    a.sign_ = .NEGATIVE ↔ value a < 0 := by
  have h0 := ha.sign_zero_iff
  have h1 := ha.sign_positive_iff
  cases hs : a.sign_ <;> simp [hs] at h0 h1 ⊢ <;> omega

/-- The remainder is zero or carries the sign of the dividend, and the quotient times the
divisor does not exceed the dividend in magnitude. -/
theorem mod_sign_spec {a b : BigInteger} (ha : WellFormed a) (hb : WellFormed b)
    (hb0 : b.sign_ ≠ .ZERO) (fuel : Nat) (hf : 2 * a.digits_.length + 31 ≤ fuel) :
    ∃ q r, opDiv fuel a b = .ok q ∧ opMod fuel a b = .ok r ∧
      WellFormed q ∧ WellFormed r ∧
      (r.sign_ = .ZERO ∨ r.sign_ = a.sign_) ∧ |value q| * |value b| ≤ |value a| := by
  obtain ⟨q, p, r, m, h1, _, h3, _, hq, _, hr, hm, hvq, _, hvr, hle, _⟩ :=
    div_mod_spec ha hb hb0 fuel hf
  refine ⟨q, r, h1, h3, hq, hr, ?_, ?_⟩
  · have hz := hr.sign_zero_iff
    have hp := hr.sign_positive_iff
    have hn := hr.sign_negative_iff
    have hd : 0 ≤ groupsValue a.digits_ - m * groupsValue b.digits_ := by omega
    cases hs : a.sign_ <;> simp only [hs, sign.toInt] at hvr
    · -- negative dividend
      by_cases h0 : value r = 0
      · exact Or.inl (hz.2 h0)
      · exact Or.inr (hn.2 (by omega))
    · exact Or.inl (hz.2 (by omega))
    · by_cases h0 : value r = 0
      · exact Or.inl (hz.2 h0)
      · exact Or.inr (hp.2 (by omega))
  · rw [← ha.groupsValue_eq_abs, ← hb.groupsValue_eq_abs, hvq]
    have hsa : |a.sign_.toInt * b.sign_.toInt| ≤ 1 := by
      cases a.sign_ <;> cases b.sign_ <;> simp [sign.toInt]
    have hgb : 0 ≤ groupsValue b.digits_ := groupsValue_nonneg hb.1.inRange
    rw [abs_mul, abs_of_nonneg hm]
    calc |a.sign_.toInt * b.sign_.toInt| * m * groupsValue b.digits_
        = |a.sign_.toInt * b.sign_.toInt| * (m * groupsValue b.digits_) := by ring
      _ ≤ 1 * (m * groupsValue b.digits_) :=
          mul_le_mul_of_nonneg_right hsa (mul_nonneg hm hgb)
      _ ≤ groupsValue a.digits_ := by omega

/-- The digit search against the true quotient digit `q`: it is found unless it is the top
digit `BASE - 1`, in which case `BASE - 2` is returned. -/
theorem find_quotient_digit {m d : BigInteger} (hm : WellFormed m) (hmn : m.sign_ ≠ .NEGATIVE)
    (hd : WellFormed d) (hdp : 0 < value d) (q : Int) (hq1 : q < BASE)
    (hlo : q * value d ≤ value m) (hhi : value m < (q + 1) * value d)
    (fuel : Nat) (hf : 31 ≤ fuel) :
    ∃ r, find_quotient fuel (ofLongLong 0) (ofLongLong (BASE - 1)) m d = .ok r ∧
      WellFormed r ∧ value r = if q = BASE - 1 then BASE - 2 else q := by
  have hdn : d.sign_ ≠ .NEGATIVE := hd.not_negative_of_value (le_of_lt hdp)
  obtain ⟨r, hr, hwf, _, hr0, hr1, hrlo, hrhi⟩ :=
    find_quotient_spec hm hmn hd hdn (Or.inl hdp) fuel hf
  refine ⟨r, hr, hwf, ?_⟩
  -- `value r ≤ q`, as `value r * d ≤ m < (q + 1) * d`
  have hle : value r ≤ q := by
    by_contra hc
    have : (q + 1) * value d ≤ value r * value d :=
      mul_le_mul_of_nonneg_right (by omega) (le_of_lt hdp)
    omega
  rcases hrhi with hlt | htop
  · have hge : q ≤ value r := by
      by_contra hc
      have : (value r + 1) * value d ≤ q * value d :=
        mul_le_mul_of_nonneg_right (by omega) (le_of_lt hdp)
      omega
    have hqr : value r = q := le_antisymm hle hge
    have : q ≠ BASE - 1 := by omega
    rw [if_neg this, hqr]
  · by_cases hq : q = BASE - 1
    · rw [if_pos hq, htop]
    · rw [if_neg hq]
      -- `q ≤ BASE - 2 = value r ≤ q`
      omega

end BigInteger

namespace BigInteger

/-! ## The order implemented by `operator<` -/

/-- A vector with more groups has the smaller rank among negative values. -/
theorem rank_lt_of_length_lt {X Y : List Int} (hX : GroupsInRange X) (hY : GroupsInRange Y)
    (h : X.length < Y.length) :
    groupsValue Y - 2 * BASE ^ Y.length < groupsValue X - 2 * BASE ^ X.length := by
  have h1 := groupsValue_lt_pow hY
  have h2 := groupsValue_nonneg hX
  have h3 : BASE ^ (X.length + 1) ≤ BASE ^ Y.length := BASE_pow_mono h
  have h4 : 0 < BASE ^ X.length := BASE_pow_pos _
  have h5 : BASE ^ (X.length + 1) = BASE * BASE ^ X.length := by ring
  have h6 : 2 * BASE ^ X.length ≤ BASE * BASE ^ X.length :=
    mul_le_mul_of_nonneg_right (by decide) (le_of_lt h4)
  omega

theorem orderRank_of_nonneg {a : BigInteger} (_ha : WellFormed a) (hs : a.sign_ ≠ .NEGATIVE) :
    orderRank a = value a := by
  cases h : a.sign_
  · exact absurd h hs
  · simp [orderRank, h, value, sign.toInt]
  · simp [orderRank, h, value, sign.toInt]

theorem orderRank_neg {a : BigInteger} (ha : WellFormed a) (hs : a.sign_ = .NEGATIVE) :
    orderRank a < 0 := by
  have h1 := groupsValue_lt_pow ha.1.inRange
  have h2 : 0 < BASE ^ a.digits_.length := BASE_pow_pos _
  simp only [orderRank, hs]
  omega

/-- On well-formed values `operator<` is the comparison of ranks. -/
theorem opLt_eq_rank {a b : BigInteger} (ha : WellFormed a) (hb : WellFormed b) :
    opLt a b = decide (orderRank a < orderRank b) := by
  by_cases hsa : a.sign_ = .NEGATIVE
  · by_cases hsb : b.sign_ = .NEGATIVE
    · -- two negative values
      have hs : ¬ a.sign_ ≠ b.sign_ := by simp [hsa, hsb]
      unfold opLt
      rw [if_neg hs]
      by_cases hl : a.digits_.length = b.digits_.length
      · rw [if_neg (by simpa using hl)]
        have := ltLoop_spec a.digits_ b.digits_ hl ha.1.inRange hb.1.inRange
          a.digits_.length (le_refl _)
        simp only [Nat.sub_self, List.take_length] at this
        rw [this, hl, List.take_length]
        simp only [orderRank, hsa, hsb, hl]
        congr 1
        apply propext
        constructor <;> intro h <;> omega
      · rw [if_pos (by simpa using hl)]
        simp only [hsa, orderRank, hsb]
        rcases Nat.lt_or_gt_of_ne hl with h | h
        · have := rank_lt_of_length_lt ha.1.inRange hb.1.inRange h
          simp only [h, decide_True]
          simp
          omega
        · have := rank_lt_of_length_lt hb.1.inRange ha.1.inRange h
          have h' : ¬ a.digits_.length < b.digits_.length := by omega
          simp only [h', decide_False]
          simp
          omega
    · -- negative against non-negative
      have hra := orderRank_neg ha hsa
      have hrb : 0 ≤ orderRank b := by
        rw [orderRank_of_nonneg hb hsb]; exact hb.value_nonneg hsb
      have hs : a.sign_ ≠ b.sign_ := by rw [hsa]; exact fun h => hsb h.symm
      unfold opLt
      rw [if_pos hs, hsa]
      have : orderRank a < orderRank b := by omega
      cases hb' : b.sign_ <;> simp_all [sign.toInt]
  · by_cases hsb : b.sign_ = .NEGATIVE
    · have hrb := orderRank_neg hb hsb
      have hra : 0 ≤ orderRank a := by
        rw [orderRank_of_nonneg ha hsa]; exact ha.value_nonneg hsa
      have hs : a.sign_ ≠ b.sign_ := by rw [hsb]; exact hsa
      unfold opLt
      rw [if_pos hs, hsb]
      have : ¬ orderRank a < orderRank b := by omega
      cases ha' : a.sign_ <;> simp_all [sign.toInt]
    · rw [opLt_of_nonneg ha hb hsa hsb, orderRank_of_nonneg ha hsa, orderRank_of_nonneg hb hsb]

/-- Well-formed values of equal rank are equal. -/
theorem orderRank_injective {a b : BigInteger} (ha : WellFormed a) (hb : WellFormed b)
    (h : orderRank a = orderRank b) : a = b := by
  by_cases hsa : a.sign_ = .NEGATIVE
  · by_cases hsb : b.sign_ = .NEGATIVE
    · have hl : a.digits_.length = b.digits_.length := by
        by_contra hl
        simp only [orderRank, hsa, hsb] at h
        rcases Nat.lt_or_gt_of_ne hl with h' | h'
        · have := rank_lt_of_length_lt ha.1.inRange hb.1.inRange h'
          omega
        · have := rank_lt_of_length_lt hb.1.inRange ha.1.inRange h'
          omega
      simp only [orderRank, hsa, hsb, hl] at h
      have hd : a.digits_ = b.digits_ := Normalized.eq_of_value_eq ha.1 hb.1 (by omega)
      cases a; cases b; simp_all
    · have hra := orderRank_neg ha hsa
      have hrb : 0 ≤ orderRank b := by
        rw [orderRank_of_nonneg hb hsb]; exact hb.value_nonneg hsb
      omega
  · by_cases hsb : b.sign_ = .NEGATIVE
    · have hrb := orderRank_neg hb hsb
      have hra : 0 ≤ orderRank a := by
        rw [orderRank_of_nonneg ha hsa]; exact ha.value_nonneg hsa
      omega
    · rw [orderRank_of_nonneg ha hsa, orderRank_of_nonneg hb hsb] at h
      exact ha.ext_value hb h

/-- On well-formed values `operator==` is equality of ranks. -/
theorem opEq_eq_rank {a b : BigInteger} (ha : WellFormed a) (hb : WellFormed b) :
    opEq a b = decide (orderRank a = orderRank b) := by
  rw [opEq_of_wellFormed ha hb]
  congr 1
  apply propext
  constructor
  · intro h; rw [ha.ext_value hb h]
  · intro h; rw [orderRank_injective ha hb h]

end BigInteger

namespace Rational

/-! ## Comparison of valid rationals -/

theorem sign_cases (s : sign) : s = .NEGATIVE ∨ s = .ZERO ∨ s = .POSITIVE := by
  cases s <;> simp

/-- The arithmetic content of validity. -/
theorem Valid.facts {r : Rational} (hv : Valid r) :
    0 ≤ r.numerator_.value ∧ 0 < r.denominator_.value ∧
      (r.sign_ = .ZERO ↔ r.numerator_.value = 0) ∧
      Int.gcd r.numerator_.value r.denominator_.value = 1 ∧
      r.denominator_.sign_ ≠ .NEGATIVE :=
  ⟨hv.1.value_nonneg hv.2.2.1, hv.2.2.2.1, hv.2.2.2.2.2.2, hv.2.2.2.2.1,
    hv.2.1.not_negative_of_value (le_of_lt hv.2.2.2.1)⟩

theorem value_eq_div (r : Rational) :
    value r = ((r.sign_.toInt * r.numerator_.value : Int) : ℚ) / ((r.denominator_.value : Int) : ℚ) := by
  simp [value]

/-- Numerator and denominator of the denoted rational number are the stored ones. -/
theorem Valid.num_den {r : Rational} (hv : Valid r) :
    (value r).num = r.sign_.toInt * r.numerator_.value ∧
      ((value r).den : Int) = r.denominator_.value := by
  obtain ⟨hn, hd, hz, hg, _⟩ := hv.facts
  have hcop : Nat.Coprime (r.sign_.toInt * r.numerator_.value).natAbs r.denominator_.value.natAbs := by
    have hg' : Nat.gcd r.numerator_.value.natAbs r.denominator_.value.natAbs = 1 := hg
    rcases sign_cases r.sign_ with h | h | h
    · simpa [h, sign.toInt, Nat.Coprime] using hg'
    · have h0 := hz.1 h
      simpa [h, sign.toInt, Nat.Coprime, h0] using hg'
    · simpa [h, sign.toInt, Nat.Coprime] using hg'
  rw [value_eq_div]
  exact ⟨Rat.num_div_eq_of_coprime hd hcop, Rat.den_div_eq_of_coprime hd hcop⟩

theorem value_lt_iff {x y : Rational} (hx : Valid x) (hy : Valid y) :
    value x < value y ↔
      x.sign_.toInt * x.numerator_.value * y.denominator_.value <
        y.sign_.toInt * y.numerator_.value * x.denominator_.value := by
  obtain ⟨_, hdx, _⟩ := hx.facts
  obtain ⟨_, hdy, _⟩ := hy.facts
  have hdx' : (0 : ℚ) < ((x.denominator_.value : Int) : ℚ) := by exact_mod_cast hdx
  have hdy' : (0 : ℚ) < ((y.denominator_.value : Int) : ℚ) := by exact_mod_cast hdy
  rw [value_eq_div, value_eq_div, div_lt_div_iff₀ hdx' hdy']
  norm_cast

/-- Valid rationals denoting the same number are the same object. -/
theorem Valid.eq_of_value {x y : Rational} (hx : Valid x) (hy : Valid y)
    (h : value x = value y) : x = y := by
  obtain ⟨hnx, _, hzx, _, _⟩ := hx.facts
  obtain ⟨hny, _, hzy, _, _⟩ := hy.facts
  obtain ⟨h1, h2⟩ := hx.num_den
  obtain ⟨h3, h4⟩ := hy.num_den
  rw [h] at h1 h2
  have hn : x.sign_.toInt * x.numerator_.value = y.sign_.toInt * y.numerator_.value := by
    rw [← h1, ← h3]
  have hd : x.denominator_.value = y.denominator_.value := by rw [← h2, ← h4]
  have hs : x.sign_ = y.sign_ ∧ x.numerator_.value = y.numerator_.value := by
    rcases sign_cases x.sign_ with a | a | a <;> rcases sign_cases y.sign_ with b | b | b <;>
      simp only [a, b, sign.toInt, true_iff, false_iff, reduceCtorEq, eq_self_iff_true,
        true_and, false_and] at hn hzx hzy ⊢ <;>
      omega
  have e1 := hx.1.ext_value hy.1 hs.2
  have e2 := hx.2.1.ext_value hy.2.1 hd
  cases x; cases y; simp_all

/-- The function `operator==` on valid rationals decides equality of the denoted
numbers. -/
theorem opEq_of_valid {x y : Rational} (hx : Valid x) (hy : Valid y) :
    opEq x y = decide (value x = value y) := by
  by_cases h : value x = value y
  · have e := hx.eq_of_value hy h
    subst e
    rw [decide_eq_true h]
    simp [opEq, BigInteger.opEq_of_wellFormed hx.1 hx.1, BigInteger.opEq_of_wellFormed hx.2.1 hx.2.1]
  · rw [decide_eq_false h]
    by_contra hc
    simp only [opEq, Bool.not_eq_false, Bool.and_eq_true, decide_eq_true_eq,
      BigInteger.opEq_of_wellFormed hx.1 hy.1, BigInteger.opEq_of_wellFormed hx.2.1 hy.2.1] at hc
    apply h
    simp [value, hc.1.1, hc.1.2, hc.2]

/-- The function `operator<` on valid rationals returns, and decides the order of the
denoted numbers. -/
theorem opLt_of_valid {x y : Rational} (hx : Valid x) (hy : Valid y) :
    opLt x y = .ok (decide (value x < value y)) := by
  obtain ⟨hnx, hdx, hzx, _, hdxs⟩ := hx.facts
  obtain ⟨hny, hdy, hzy, _, hdys⟩ := hy.facts
  obtain ⟨l, hl, hlw, hlv, _⟩ := BigInteger.opMul_wellFormed hx.1 hy.2.1
  obtain ⟨r, hr, hrw, hrv, _⟩ := BigInteger.opMul_wellFormed hx.2.1 hy.1
  have hln : l.sign_ ≠ .NEGATIVE :=
    hlw.not_negative_of_value (by rw [hlv]; exact mul_nonneg hnx (le_of_lt hdy))
  have hrn : r.sign_ ≠ .NEGATIVE :=
    hrw.not_negative_of_value (by rw [hrv]; exact mul_nonneg (le_of_lt hdx) hny)
  have hxy := BigInteger.opLt_of_nonneg hlw hrw hln hrn
  have hyx := BigInteger.opLt_of_nonneg hrw hlw hrn hln
  rw [hlv, hrv] at hxy hyx
  have key : value x < value y ↔
      x.sign_.toInt * (x.numerator_.value * y.denominator_.value) <
        y.sign_.toInt * (y.numerator_.value * x.denominator_.value) := by
    rw [value_lt_iff hx hy, mul_assoc, mul_assoc]
  have p1 := mul_nonneg hnx (le_of_lt hdy)
  have p2 := mul_nonneg hny (le_of_lt hdx)
  have q1 : x.sign_ ≠ .ZERO → 0 < x.numerator_.value * y.denominator_.value := fun h =>
    mul_pos (by have := mt hzx.2 h; omega) hdy
  have q2 : y.sign_ ≠ .ZERO → 0 < y.numerator_.value * x.denominator_.value := fun h =>
    mul_pos (by have := mt hzy.2 h; omega) hdx
  have hc : x.denominator_.value * y.numerator_.value
      = y.numerator_.value * x.denominator_.value := mul_comm _ _
  rw [hc] at hxy hyx
  generalize x.numerator_.value * y.denominator_.value = A at *
  generalize y.numerator_.value * x.denominator_.value = B at *
  unfold opLt
  simp only [hl, hr, bind, Except.bind, pure, Except.pure, BigInteger.opGt, hxy, hyx]
  by_cases hlt : value x < value y
  · rw [decide_eq_true hlt]
    rw [key] at hlt
    rcases sign_cases x.sign_ with a | a | a <;> rcases sign_cases y.sign_ with b | b | b <;>
      simp [a, b, sign.toInt] at q1 q2 hlt ⊢ <;> omega
  · rw [decide_eq_false hlt]
    rw [key] at hlt
    rcases sign_cases x.sign_ with a | a | a <;> rcases sign_cases y.sign_ with b | b | b <;>
      simp [a, b, sign.toInt] at q1 q2 hlt ⊢ <;> omega

end Rational

namespace BigInteger

/-! ## The invariants of values built from text -/

theorem digitsValue_lt_BASE {c : List Char} (hd : ∀ x ∈ c, x.isDigit = true)
    (hlen : c.length ≤ 9) : (digitsValue c : Int) < BASE := by
  have h1 := digitsValue_lt c hd
  have h2 : 10 ^ c.length ≤ 10 ^ 9 := Nat.pow_le_pow_right (by decide) hlen
  have h3 : digitsValue c < 10 ^ 9 := lt_of_lt_of_le h1 h2
  have h4 : ((digitsValue c : Nat) : Int) < ((10 ^ 9 : Nat) : Int) := by exact_mod_cast h3
  simpa [BASE] using h4

/-- The groups read from a top chunk without a leading zero and full chunks below it form
a well-formed value under any nonzero sign. -/
theorem chunks_wellFormed {T : List Char} {L : List (List Char)}
    (hTd : ∀ x ∈ T, x.isDigit = true) (hTlen : T.length ≤ 9) (hT0 : 0 < digitsValue T)
    (hL : NineDigitChunks L) (s : sign) (hs : s ≠ .ZERO) :
    WellFormed { digits_ := L.map (fun c => (digitsValue c : Int)) ++ [(digitsValue T : Int)],
                 sign_ := s } := by
  have hlast : (L.map (fun c => (digitsValue c : Int)) ++ [(digitsValue T : Int)]).getLast?
      = some (digitsValue T : Int) := by simp
  have hne0 : (digitsValue T : Int) ≠ 0 := by omega
  refine ⟨⟨by simp, ?_, ?_⟩, ?_⟩
  · rw [groupsInRange_append]
    constructor
    · intro d hd
      rw [List.mem_map] at hd
      obtain ⟨c, hc, rfl⟩ := hd
      exact ⟨by omega, digitsValue_lt_BASE (hL c hc).2 (le_of_eq (hL c hc).1)⟩
    · intro d hd
      simp only [List.mem_singleton] at hd
      subst hd
      exact ⟨by omega, digitsValue_lt_BASE hTd hTlen⟩
  · intro h
    rw [hlast] at h
    simp only [Option.some.injEq] at h
    exact absurd h hne0
  · constructor
    · intro h; exact absurd h hs
    · intro h
      simp only at h
      rw [h] at hlast
      simp only [List.getLast?_singleton, Option.some.injEq] at hlast
      exact absurd hlast.symm hne0

/-- A text matching `-?[0-9]+` in which no `0` follows the sign is turned into a
well-formed value. -/
theorem ofString_wellFormed {s : List Char} (h : isSignedDigits s = true)
    (h0 : s.head? = some '-' → s.tail.head? ≠ some '0') :
    ∃ a, ofString s = .ok a ∧ WellFormed a := by
  unfold isSignedDigits at h
  simp only [Bool.and_eq_true, Bool.not_eq_true', List.isEmpty_eq_false, List.all_eq_true] at h
  obtain ⟨hne, hd⟩ := h
  have key : ∀ body : List Char, body ≠ [] → (∀ x ∈ body, x.isDigit = true) →
      body.head? ≠ some '0' →
      ∃ (T : List Char) (L : List (List Char)), body = T ++ L.reverse.flatten ∧ T ≠ [] ∧
        (∀ x ∈ T, x.isDigit = true) ∧ T.length ≤ 9 ∧ T.head? ≠ some '0' ∧
        NineDigitChunks L ∧ 0 < digitsValue T := by
    intro body hb hbd hb0
    obtain ⟨T, L, e, t1, t2, t3⟩ := exists_chunks body.length body rfl hb
    have hTd : ∀ x ∈ T, x.isDigit = true := by
      intro x hx; exact hbd x (by rw [e]; simp [hx])
    obtain ⟨t, T', rfl⟩ := List.exists_cons_of_ne_nil t1
    have ht0 : t ≠ '0' := by rw [e] at hb0; simpa using hb0
    refine ⟨t :: T', L, e, t1, hTd, t2, by simpa using ht0, ?_,
      digitsValue_pos T' (hTd t (by simp)) ht0⟩
    intro c hc
    refine ⟨t3 c hc, fun x hx => hbd x ?_⟩
    rw [e]
    apply List.mem_append_right
    rw [List.mem_flatten]
    exact ⟨c, by simpa using hc, hx⟩
  by_cases hm : s.head? = some '-'
  · rw [if_pos hm] at hne hd
    obtain ⟨c, rest, rfl⟩ : ∃ c rest, s = c :: rest := by
      cases s with
      | nil => simp at hm
      | cons c rest => exact ⟨c, rest, rfl⟩
    have hc : c = '-' := by simpa using hm
    subst hc
    simp only [List.tail_cons] at hne hd
    obtain ⟨T, L, e, t1, t2, t3, _, t5, t6⟩ :=
      key rest (by simpa using hne) hd (by simpa using h0 hm)
    rw [e, ofString_signed t1 t2 t3 t5]
    exact ⟨_, rfl, chunks_wellFormed t2 t3 t6 t5 _ (by simp)⟩
  · rw [if_neg hm] at hne hd
    by_cases hz : s.head? = some '0'
    · rw [ofString_leading_zero hz]
      exact ⟨_, rfl, by decide⟩
    · obtain ⟨T, L, e, t1, t2, t3, t4, t5, t6⟩ := key s (by simpa using hne) hd hz
      rw [e, ofString_unsigned t1 t2 t3 t4 t5]
      exact ⟨_, rfl, chunks_wellFormed t2 t3 t6 t5 _ (by simp)⟩

/-- A run of digits denotes zero exactly when every digit is `'0'`. -/
theorem digitsValue_eq_zero_iff {ds : List Char} (hd : ∀ c ∈ ds, c.isDigit = true) :
    digitsValue ds = 0 ↔ ∀ c ∈ ds, c = '0' := by
  obtain ⟨z, rest, e, hrest⟩ := split_leading_zeros ds
  have hv : digitsValue ds = digitsValue rest := by rw [e]; exact digitsValue_zeros z rest
  cases rest with
  | nil =>
    rw [hv, digitsValue_nil]
    refine ⟨fun _ c hc => ?_, fun _ => rfl⟩
    rw [e] at hc
    simp only [List.append_nil] at hc
    exact (List.mem_replicate.1 hc).2
  | cons c r =>
    have hc0 : c ≠ '0' := by
      rcases hrest with h | h
      · simp at h
      · simpa using h
    have hcm : c ∈ ds := by rw [e]; simp
    have hpos := digitsValue_pos r (hd c hcm) hc0
    constructor
    · intro h0; omega
    · intro hall; exact absurd (hall c hcm) hc0

/-- The most-significant chunk of a text made of a top chunk and full chunks below it. -/
theorem topChunk_chunks {T : List Char} {L : List (List Char)} (hT : T ≠ [])
    (hTlen : T.length ≤ 9) (hL : ∀ c ∈ L, c.length = 9) :
    topChunk (T ++ L.reverse.flatten) = T := by
  have hlen : L.reverse.flatten.length = 9 * L.length := by
    clear hT hTlen
    induction L with
    | nil => simp
    | cons c L ih =>
      have hc := hL c (by simp)
      have := ih (fun x hx => hL x (by simp [hx]))
      simp only [List.reverse_cons, List.flatten_append, List.length_append, this,
        List.flatten_cons, List.flatten_nil, List.append_nil, hc, List.length_cons]
      omega
  have hpos : 0 < T.length := List.length_pos.mpr hT
  unfold topChunk
  have hk : ((T ++ L.reverse.flatten).length - 1) % SIZE + 1 = T.length := by
    simp only [List.length_append, hlen, SIZE]
    omega
  rw [hk, List.take_left']
  rfl

/-- The text constructor on every text matching `-?[0-9]+`: a value is built, and it is
well-formed unless the text has a minus sign and its most-significant chunk is all
zeros. -/
theorem ofString_wellFormed_iff {s : List Char} (h : isSignedDigits s = true) :
    ∃ a, ofString s = .ok a ∧
      (WellFormed a ↔
        ¬ (s.head? = some '-' ∧ (topChunk s.tail).all (fun c => c == '0') = true)) := by
  by_cases hm : s.head? = some '-'
  · have h' := h
    unfold isSignedDigits at h'
    simp only [Bool.and_eq_true, Bool.not_eq_true', List.isEmpty_eq_false,
      List.all_eq_true] at h'
    obtain ⟨hne, hd⟩ := h'
    rw [if_pos hm] at hne hd
    obtain ⟨c, rest, rfl⟩ : ∃ c rest, s = c :: rest := by
      cases s with
      | nil => simp at hm
      | cons c rest => exact ⟨c, rest, rfl⟩
    have hc : c = '-' := by simpa using hm
    subst hc
    simp only [List.tail_cons] at hne hd ⊢
    obtain ⟨T, L, e, t1, t2, t3⟩ := exists_chunks rest.length rest rfl (by simpa using hne)
    have hTd : ∀ x ∈ T, x.isDigit = true := by
      intro x hx; exact hd x (by rw [e]; simp [hx])
    have hL : NineDigitChunks L := by
      intro c hc
      refine ⟨t3 c hc, fun x hx => hd x ?_⟩
      rw [e]
      apply List.mem_append_right
      rw [List.mem_flatten]
      exact ⟨c, by simpa using hc, hx⟩
    have htop : topChunk rest = T := by rw [e]; exact topChunk_chunks t1 t2 t3
    rw [htop]
    have hz := digitsValue_eq_zero_iff hTd
    refine ⟨_, by rw [e]; exact ofString_signed t1 hTd t2 hL, ?_⟩
    simp only [List.head?_cons, true_and, List.all_eq_true, beq_iff_eq]
    rw [← hz]
    constructor
    · intro hw h0
      have hlast : (L.map (fun c => (digitsValue c : Int)) ++ [(digitsValue T : Int)]).getLast?
          = some 0 := by simp [h0]
      have hd0 := hw.1.2.2 hlast
      have hs := hw.2.2 hd0
      cases hs
    · intro h0
      exact chunks_wellFormed hTd t2 (Nat.pos_of_ne_zero h0) hL _ (by simp)
  · obtain ⟨a, h1, h2⟩ := ofString_wellFormed h (fun hh => absurd hh hm)
    exact ⟨a, h1, by simp [hm, h2]⟩

end BigInteger

namespace BigInteger

/-! ## The constructor from a machine integer -/

/-- The loop of the constructor writes the radix-`BASE` groups of a non-negative number
below `BASE ^ fuel`. -/
theorem ofLongLongLoop_spec : ∀ (fuel : Nat) (num : Int) (acc : List Int), 0 ≤ num →
    num < BASE ^ fuel →
    ∃ D, ofLongLongLoop fuel num acc = acc ++ D ∧ groupsValue D = num ∧ GroupsInRange D ∧
      (0 < num → D.getLast? ≠ some 0 ∧ D ≠ []) := by
  intro fuel
  induction fuel with
  | zero =>
    intro num acc h0 h1
    have : num = 0 := by simp at h1; omega
    subst this
    exact ⟨[], by simp [ofLongLongLoop], by simp [groupsValue], GroupsInRange.nil, by simp⟩
  | succ k ih =>
    intro num acc h0 h1
    by_cases hp : 0 < num
    · have hd : num.tdiv BASE = num / BASE := Int.tdiv_eq_ediv h0 (le_of_lt BASE_pos)
      have hm : num.tmod BASE = num % BASE := Int.tmod_eq_emod h0 (le_of_lt BASE_pos)
      have hm0 : 0 ≤ num % BASE := Int.emod_nonneg _ (ne_of_gt BASE_pos)
      have hm1 : num % BASE < BASE := Int.emod_lt_of_pos _ BASE_pos
      have hq0 : 0 ≤ num / BASE := Int.ediv_nonneg h0 (le_of_lt BASE_pos)
      have hq1 : num / BASE < BASE ^ k := by
        rw [Int.ediv_lt_iff_lt_mul BASE_pos]
        calc num < BASE ^ (k + 1) := h1
          _ = BASE ^ k * BASE := by ring
      have hdm : num % BASE + BASE * (num / BASE) = num := Int.emod_add_ediv num BASE
      have hm1' : num % BASE < 1000000000 := hm1
      have hw : wrap32 (num % BASE) = num % BASE := wrap32_eq (by omega) (by omega)
      obtain ⟨D, e, hv, hr, hl⟩ := ih (num / BASE) (acc ++ [num % BASE]) hq0 hq1
      refine ⟨(num % BASE) :: D, ?_, ?_, ?_, fun _ => ⟨?_, by simp⟩⟩
      · rw [ofLongLongLoop, if_pos hp, hd, hm, hw, e]
        simp
      · simp only [groupsValue, hv]; exact hdm
      · rw [groupsInRange_cons]; exact ⟨⟨hm0, hm1⟩, hr⟩
      · by_cases hq : 0 < num / BASE
        · obtain ⟨l1, l2⟩ := hl hq
          obtain ⟨d, D', rfl⟩ := List.exists_cons_of_ne_nil l2
          simpa using l1
        · have hq' : num / BASE = 0 := by omega
          have hD : D = [] := by
            have : ofLongLongLoop k (num / BASE) (acc ++ [num % BASE]) = acc ++ [num % BASE] := by
              rw [hq']
              cases k <;> simp [ofLongLongLoop]
            rw [this] at e
            simpa using e
          subst hD
          rw [hq', mul_zero, add_zero] at hdm
          have : num % BASE ≠ 0 := by omega
          simpa using this
    · have : num = 0 := by omega
      subst this
      refine ⟨[], ?_, by simp [groupsValue], GroupsInRange.nil, by simp⟩
      rw [ofLongLongLoop, if_neg (by simp)]
      simp

theorem two_pow_lt_BASE_cube : (9223372036854775808 : Int) < BASE ^ 3 := by
  norm_num [BASE]

/-- For every `long long` other than the minimum `-2^63`, the constructor builds a
well-formed value denoting its argument. -/
theorem ofLongLong_spec {n : Int} (h0 : -9223372036854775808 < n)
    (h1 : n < 9223372036854775808) :
    WellFormed (ofLongLong n) ∧ value (ofLongLong n) = n := by
  have hw : wrap64 n = n := wrap64_eq (by omega) (by omega)
  have hb := two_pow_lt_BASE_cube
  rcases lt_trichotomy n 0 with hn | hn | hn
  · have hw2 : wrap64 (n * -1) = -n := by
      rw [wrap64_eq (by omega) (by omega)]; ring
    obtain ⟨D, e, hv, hr, hl⟩ := ofLongLongLoop_spec 3 (-n) [] (by omega) (by omega)
    obtain ⟨l1, l2⟩ := hl (by omega)
    have h : ofLongLong n = { digits_ := D, sign_ := .NEGATIVE } := by
      have hs : (if n > 0 then sign.POSITIVE else if n = 0 then .ZERO else .NEGATIVE)
          = .NEGATIVE := by rw [if_neg (by omega), if_neg (by omega)]
      unfold ofLongLong
      simp only [hw, hs, sign.toInt, hw2]
      rw [if_neg (by omega), e]
      simp
    rw [h]
    refine ⟨⟨⟨l2, hr, fun h => absurd h l1⟩, ?_⟩, ?_⟩
    · constructor
      · intro h; cases h
      · intro h
        simp only at h
        rw [h] at l1
        simp at l1
    · simp [value, sign.toInt, hv]
  · subst hn
    decide
  · have hw2 : wrap64 (n * 1) = n := by rw [mul_one]; exact hw
    obtain ⟨D, e, hv, hr, hl⟩ := ofLongLongLoop_spec 3 n [] (by omega) (by omega)
    obtain ⟨l1, l2⟩ := hl hn
    have h : ofLongLong n = { digits_ := D, sign_ := .POSITIVE } := by
      have hs : (if n > 0 then sign.POSITIVE else if n = 0 then .ZERO else .NEGATIVE)
          = .POSITIVE := by rw [if_pos hn]
      unfold ofLongLong
      simp only [hw, hs, sign.toInt, hw2]
      rw [if_neg (by omega), e]
      simp
    rw [h]
    refine ⟨⟨⟨l2, hr, fun h => absurd h l1⟩, ?_⟩, ?_⟩
    · constructor
      · intro h; cases h
      · intro h
        simp only at h
        rw [h] at l1
        simp at l1
    · simp [value, sign.toInt, hv]

end BigInteger

namespace Rational

/-! ## The padding loop of `asDecimal` on a zero scaled value -/

theorem opDivAssign_of_lt {a b : BigInteger} (hs : a.sign_ ≠ .ZERO)
    (hlt : BigInteger.opLt (BigInteger.abs a) (BigInteger.abs b) = true) (fuel : Nat) :
    BigInteger.opDivAssign fuel a b = .ok (BigInteger.ofLongLong 0) := by
  unfold BigInteger.opDivAssign
  simp only [hs, hlt, if_false, if_true]
  decide

theorem opDiv_of_sign_zero {a : BigInteger} (hs : a.sign_ = .ZERO) (b : BigInteger)
    (fuel : Nat) : BigInteger.opDiv fuel a b = .ok a := by
  unfold BigInteger.opDiv BigInteger.opDivAssign
  simp only [hs, if_true]
  rfl

/-- With `num` zero the condition `num * degree / pow == 0` holds at every pass: the loop
uses up any budget. -/
theorem padLoop_zero (fuel : Nat) (pow : BigInteger) :
    ∀ (k : Nat) (degree : BigInteger) (string : List Char), BigInteger.WellFormed degree →
    padLoop fuel (BigInteger.ofLongLong 0) pow k degree string = .error .outOfFuel := by
  intro k
  induction k with
  | zero => intro degree string _; rfl
  | succ k ih =>
    intro degree string hd
    obtain ⟨p, hp, _, _, hps⟩ :=
      BigInteger.opMul_wellFormed (a := BigInteger.ofLongLong 0) (by decide) hd
    have hz : p.sign_ = .ZERO := by
      rw [hps, BigInteger.signOfInt_eq_zero]
      exact Or.inl (by decide)
    obtain ⟨d', hd', hdw, _, _⟩ :=
      BigInteger.opMulAssign_wellFormed hd (b := BigInteger.ofLongLong 10) (by decide)
    unfold padLoop
    simp only [hp, opDiv_of_sign_zero hz, BigInteger.opEq_zero, hz, hd', bind, Except.bind,
      decide_True, if_true]
    exact ih d' _ hdw

/-- The rendering of `1/1000` with two digits after the point never returns. -/
theorem asDecimal_diverges (fuel : Nat) :
    asDecimal fuel ⟨BigInteger.ofLongLong 1, BigInteger.ofLongLong 1000, .POSITIVE⟩ 2
      = .error .outOfFuel := by
  have h1 : BigInteger.power (BigInteger.ofLongLong 10) (wrap32 ((2 : Nat) : Int))
      = .ok (BigInteger.ofLongLong 100) := by decide
  have h2 : BigInteger.opMul (BigInteger.ofLongLong 1) (BigInteger.ofLongLong 100)
      = .ok (BigInteger.ofLongLong 100) := by decide
  have h3 : BigInteger.opDivAssign fuel (BigInteger.ofLongLong 100) (BigInteger.ofLongLong 1000)
      = .ok (BigInteger.ofLongLong 0) := opDivAssign_of_lt (by decide) (by decide) fuel
  have h4 : BigInteger.opDiv fuel (BigInteger.ofLongLong 0) (BigInteger.ofLongLong 100)
      = .ok (BigInteger.ofLongLong 0) := opDiv_of_sign_zero (by decide) _ fuel
  have h5 : BigInteger.opEq (BigInteger.ofLongLong 1000) (BigInteger.ofLongLong 1) = false := by
    decide
  have h6 : BigInteger.toString (BigInteger.ofLongLong 0) = .ok ['0'] := by decide
  unfold asDecimal
  simp only [h1, h2, h3, h4, h5, h6, bind, Except.bind, pure, Except.pure, reduceCtorEq,
    if_false, Bool.false_eq_true]
  rw [if_pos (by decide)]
  simp only [padLoop_zero fuel _ fuel _ _ (show BigInteger.WellFormed (BigInteger.ofLongLong 10)
    from by decide)]

end Rational

namespace BigInteger

/-! ## The digit search on arbitrary operands: its result lies strictly below `right` -/

/-- One pass of the `while` loop of `find_quotient`, for any `number` and `divider`: the
midpoint is computed from the bounds alone. -/
theorem findLoop_step_any (number divider : BigInteger) {left right : BigInteger}
    (hl : WellFormed left) (hln : left.sign_ ≠ .NEGATIVE)
    (hr : WellFormed right) (hrn : right.sign_ ≠ .NEGATIVE)
    (hlr : value left ≤ value right) (hrB : value right < BASE) (fuel : Nat) :
    (value right - value left ≤ 1 →
      findLoop number divider (fuel + 1) left right = .ok left) ∧
    (1 < value right - value left →
      ∃ middle, WellFormed middle ∧ middle.sign_ ≠ .NEGATIVE ∧
        value middle = (value left + value right) / 2 ∧
        findLoop number divider (fuel + 1) left right =
          (opMul middle divider).bind fun prod =>
            if opEq prod number = true then .ok middle
            else if opGt prod number = true then findLoop number divider fuel left middle
            else findLoop number divider fuel middle right) := by
  obtain ⟨w, w1, w2, w3, w4⟩ := opSubAssign_nonneg hr hl hrn hlr
  have hone : WellFormed (ofLongLong 1) ∧ (ofLongLong 1).sign_ ≠ .NEGATIVE ∧
      value (ofLongLong 1) = 1 := by decide
  have hgt : opGt w (ofLongLong 1) = decide (1 < value right - value left) := by
    unfold opGt
    rw [opLt_of_nonneg hone.1 w2 hone.2.1 w3, hone.2.2, w4]
  constructor
  · intro hle
    rw [findLoop]
    simp only [opSub, w1, bind, Except.bind, hgt]
    rw [if_neg (by simp; omega)]
    rfl
  · intro hlt
    have hl0 := hl.value_nonneg hln
    obtain ⟨s, s1, s2, s3, s4⟩ := opAddAssign_nonneg hr hl hrn hln
    obtain ⟨front, middle, f1, f2, f3, f4, f5⟩ := middleLoop_spec s2 s3
      (by rw [s4]; simp only [BASE] at *; omega)
    refine ⟨middle, f3, f4, by rw [f5, s4, add_comm], ?_⟩
    rw [findLoop]
    simp only [opSub, w1, bind, Except.bind, hgt, opAdd, s1, f1, f2]
    rw [if_pos (by simpa using hlt)]
    cases opMul middle divider with
    | error e => rfl
    | ok prod => rfl

/-- Whatever `number` and `divider` are, a result of the search lies in `[left, right)`:
the bound `right` itself is never returned. -/
theorem findLoop_below_right (number divider : BigInteger) :
    ∀ (fuel : Nat) (left right : BigInteger),
    WellFormed left → left.sign_ ≠ .NEGATIVE → WellFormed right → right.sign_ ≠ .NEGATIVE →
    value left < value right → value right < BASE →
    ∀ q, findLoop number divider fuel left right = .ok q →
      WellFormed q ∧ value left ≤ value q ∧ value q < value right := by
  intro fuel
  induction fuel with
  | zero =>
    intro left right _ _ _ _ _ _ q h
    simp [findLoop] at h
  | succ fuel ih =>
    intro left right hl hln hr hrn hlr hrB q h
    obtain ⟨st1, st2⟩ :=
      findLoop_step_any number divider hl hln hr hrn (le_of_lt hlr) hrB fuel
    by_cases hle : value right - value left ≤ 1
    · rw [st1 hle] at h
      cases h
      exact ⟨hl, le_refl _, hlr⟩
    · obtain ⟨middle, m1, m2, m3, m4⟩ := st2 (by omega)
      have hlm : value left < value middle := by omega
      have hmr : value middle < value right := by omega
      rw [m4] at h
      cases hp : opMul middle divider with
      | error e => rw [hp] at h; simp [Except.bind] at h
      | ok prod =>
        rw [hp] at h
        simp only [Except.bind] at h
        by_cases h1 : opEq prod number = true
        · rw [if_pos h1] at h
          cases h
          exact ⟨m1, le_of_lt hlm, hmr⟩
        · rw [if_neg h1] at h
          by_cases h2 : opGt prod number = true
          · rw [if_pos h2] at h
            obtain ⟨q1, q2, q3⟩ := ih left middle hl hln m1 m2 hlm (by omega) q h
            exact ⟨q1, q2, by omega⟩
          · rw [if_neg h2] at h
            obtain ⟨q1, q2, q3⟩ := ih middle right m1 m2 hr hrn hmr hrB q h
            exact ⟨q1, by omega, q3⟩

/-- For well-formed operands of any sign the search returns once the budget covers the
halvings of the interval. -/
theorem findLoop_returns {number divider : BigInteger} (hd : WellFormed divider) :
    ∀ (fuel k : Nat) (left right : BigInteger),
    WellFormed left → left.sign_ ≠ .NEGATIVE → WellFormed right → right.sign_ ≠ .NEGATIVE →
    value left < value right → value right < BASE → k < fuel →
    value right - value left ≤ 2 ^ k →
    ∃ q, findLoop number divider fuel left right = .ok q := by
  intro fuel
  induction fuel with
  | zero => intro k left right _ _ _ _ _ _ hk; omega
  | succ fuel ih =>
    intro k left right hl hln hr hrn hlr hrB hk hw
    obtain ⟨st1, st2⟩ :=
      findLoop_step_any number divider hl hln hr hrn (le_of_lt hlr) hrB fuel
    by_cases hle : value right - value left ≤ 1
    · exact ⟨left, st1 hle⟩
    · obtain ⟨middle, m1, m2, m3, m4⟩ := st2 (by omega)
      have hk0 : k ≠ 0 := by
        intro h; subst h; simp at hw; omega
      obtain ⟨k', rfl⟩ := Nat.exists_eq_succ_of_ne_zero hk0
      have hpow : (2 : Int) ^ (k' + 1) = 2 * 2 ^ k' := by rw [pow_succ]; ring
      rw [hpow] at hw
      have hlm : value left < value middle := by omega
      have hmr : value middle < value right := by omega
      obtain ⟨p, p1, _⟩ := opMul_wellFormed m1 hd
      rw [m4, p1]
      simp only [Except.bind]
      by_cases h1 : opEq p number = true
      · rw [if_pos h1]; exact ⟨middle, rfl⟩
      · rw [if_neg h1]
        by_cases h2 : opGt p number = true
        · rw [if_pos h2]
          exact ih k' left middle hl hln m1 m2 hlm (by omega) (by omega) (by omega)
        · rw [if_neg h2]
          exact ih k' middle right m1 m2 hr hrn hmr hrB (by omega) (by omega)

/-- The search as called by the division, `find_quotient(0, BASE - 1, number, divider)`:
a result is at most `BASE - 2`. -/
theorem find_quotient_le (number divider : BigInteger) (fuel : Nat) (q : BigInteger)
    (h : find_quotient fuel (ofLongLong 0) (ofLongLong (BASE - 1)) number divider = .ok q) :
    WellFormed q ∧ 0 ≤ value q ∧ value q ≤ BASE - 2 := by
  have h0 : WellFormed (ofLongLong 0) ∧ (ofLongLong 0).sign_ ≠ .NEGATIVE ∧
      value (ofLongLong 0) = 0 := by decide
  have h1 : WellFormed (ofLongLong (BASE - 1)) ∧ (ofLongLong (BASE - 1)).sign_ ≠ .NEGATIVE ∧
      value (ofLongLong (BASE - 1)) = BASE - 1 := by decide
  obtain ⟨q1, q2, q3⟩ := findLoop_below_right number divider fuel (ofLongLong 0)
    (ofLongLong (BASE - 1)) h0.1 h0.2.1 h1.1 h1.2.1
    (by rw [h0.2.2, h1.2.2]; norm_num [BASE]) (by rw [h1.2.2]; omega) q h
  rw [h0.2.2] at q2
  rw [h1.2.2] at q3
  exact ⟨q1, q2, by omega⟩

/-- The search as called by the division returns for well-formed operands of any sign. -/
theorem find_quotient_returns (number : BigInteger) {divider : BigInteger}
    (hd : WellFormed divider)
    (fuel : Nat) (hf : 31 ≤ fuel) :
    ∃ q, find_quotient fuel (ofLongLong 0) (ofLongLong (BASE - 1)) number divider = .ok q := by
  have h0 : WellFormed (ofLongLong 0) ∧ (ofLongLong 0).sign_ ≠ .NEGATIVE ∧
      value (ofLongLong 0) = 0 := by decide
  have h1 : WellFormed (ofLongLong (BASE - 1)) ∧ (ofLongLong (BASE - 1)).sign_ ≠ .NEGATIVE ∧
      value (ofLongLong (BASE - 1)) = BASE - 1 := by decide
  exact findLoop_returns hd fuel 30 (ofLongLong 0) (ofLongLong (BASE - 1)) h0.1 h0.2.1 h1.1
    h1.2.1 (by rw [h0.2.2, h1.2.2]; norm_num [BASE]) (by rw [h1.2.2]; omega) (by omega)
    (by rw [h0.2.2, h1.2.2]; have := two_pow_thirty; omega)

end BigInteger


/-! ## Euclid's algorithm on the program's own `operator%` -/

theorem gcd_sub_mul_step (A B m : Int) : Int.gcd B (A - m * B) = Int.gcd A B := by
  apply Nat.dvd_antisymm
  · have h1 : (Int.gcd B (A - m * B) : Int) ∣ B := Int.gcd_dvd_left
    have h2 : (Int.gcd B (A - m * B) : Int) ∣ A - m * B := Int.gcd_dvd_right
    have h3 : (Int.gcd B (A - m * B) : Int) ∣ A := by
      have := dvd_add h2 (Dvd.dvd.mul_left h1 m)
      simpa using this
    exact Int.natCast_dvd_natCast.mp (Int.dvd_gcd h3 h1)
  · have h1 : (Int.gcd A B : Int) ∣ A := Int.gcd_dvd_left
    have h2 : (Int.gcd A B : Int) ∣ B := Int.gcd_dvd_right
    have h3 : (Int.gcd A B : Int) ∣ A - m * B := dvd_sub h1 (Dvd.dvd.mul_left h2 m)
    exact Int.natCast_dvd_natCast.mp (Int.dvd_gcd h2 h3)

theorem succ_le_BASE_pow (n : Nat) : (n : Int) + 1 ≤ BASE ^ n := by
  induction n with
  | zero => simp
  | succ k ih =>
    have h : BASE ^ (k + 1) = 1000000000 * BASE ^ k := by rw [pow_succ]; simp [BASE]; ring
    rw [h]; push_cast; omega

namespace BigInteger

/-- A positive well-formed value has no more groups than its value. -/
theorem length_le_value {a : BigInteger} (ha : WellFormed a) (hs : a.sign_ = .POSITIVE) :
    (a.digits_.length : Int) ≤ value a := by
  have hne : a.digits_ ≠ [0] := fun h => by
    have := ha.2.2 h; rw [hs] at this; cases this
  have h1 := ha.1.pow_le hne
  have h2 := succ_le_BASE_pow (a.digits_.length - 1)
  have h3 : 0 < a.digits_.length := List.length_pos.mpr ha.1.ne_nil
  have h4 : value a = groupsValue a.digits_ :=
    ha.value_eq_groupsValue (by rw [hs]; simp)
  have h5 : ((a.digits_.length - 1 : Nat) : Int) = (a.digits_.length : Int) - 1 := by omega
  rw [h5] at h2
  omega

/-- The remainder of positive operands, as the program computes it: the dividend less a
multiple `m` of the divisor, where `m` is zero for a smaller dividend and at least one
otherwise. -/
theorem opMod_pos_spec {a b : BigInteger} (ha : WellFormed a) (hsa : a.sign_ = .POSITIVE)
    (hb : WellFormed b) (hsb : b.sign_ = .POSITIVE) (fuel : Nat)
    (hf : 2 * a.digits_.length + 31 ≤ fuel) :
    ∃ r m, opMod fuel a b = .ok r ∧ WellFormed r ∧ r.sign_ ≠ .NEGATIVE ∧
      value r = value a - m * value b ∧ 0 ≤ value r ∧
      (value a < value b → value r = value a) ∧
      (value b ≤ value a → value b + value r ≤ value a) := by
  obtain ⟨q, p, r, m, _, _, h3, _, _, _, hr, hm, _, _, hvr, hle, hhi⟩ :=
    div_mod_spec ha hb (by rw [hsb]; simp) fuel hf
  have hA : value a = groupsValue a.digits_ := ha.value_eq_groupsValue (by rw [hsa]; simp)
  have hB : value b = groupsValue b.digits_ := hb.value_eq_groupsValue (by rw [hsb]; simp)
  have hBpos : 0 < value b := hb.sign_positive_iff.1 hsb
  rw [hsa] at hvr
  simp only [sign.toInt, one_mul] at hvr
  rw [← hA, ← hB] at hvr hle hhi
  have hr0 : 0 ≤ value r := by omega
  refine ⟨r, m, h3, hr, hr.not_negative_of_value hr0, hvr, hr0, ?_, ?_⟩
  · intro hlt
    have hm0 : m = 0 := by
      by_contra hne
      have h1 : 1 ≤ m := by omega
      have : value b ≤ m * value b := le_mul_of_one_le_left (le_of_lt hBpos) h1
      omega
    rw [hvr, hm0]; simp
  · intro hge
    have h1 : 1 ≤ m := by
      by_contra hlt
      have hm0 : m = 0 := by omega
      rw [hm0] at hhi
      simp only [zero_add, one_mul] at hhi
      rcases hhi with h | ⟨_, h⟩
      · omega
      · simp only [BASE] at h; omega
    have : value b ≤ m * value b := le_mul_of_one_le_left (le_of_lt hBpos) h1
    omega

end BigInteger

/-- The recursion of `euclid` on a positive first and a non-negative second argument
returns their greatest common divisor, once the recursion budget covers twice the sum of
the operands and the division budget covers their sizes. -/
theorem euclidN_spec (fuel : Nat) : ∀ (depth : Nat) (a b : BigInteger),
    BigInteger.WellFormed a → a.sign_ = .POSITIVE → BigInteger.WellFormed b →
    b.sign_ ≠ .NEGATIVE →
    2 * (a.value + b.value) + (if a.value < b.value then 1 else 0) + 1 ≤ (depth : Int) →
    2 * (a.value + b.value) + 31 ≤ (fuel : Int) →
    ∃ g, euclidN fuel depth a b = .ok g ∧ BigInteger.WellFormed g ∧
      g.value = (Int.gcd a.value b.value : Int) := by
  intro depth
  induction depth with
  | zero =>
    intro a b ha hsa hb hsb hd _
    have h1 : 0 < a.value := ha.sign_positive_iff.1 hsa
    have h2 := hb.value_nonneg hsb
    split_ifs at hd <;> omega
  | succ depth ih =>
    intro a b ha hsa hb hsb hd hf
    have hA : 0 < a.value := ha.sign_positive_iff.1 hsa
    have hB := hb.value_nonneg hsb
    have h0 : BigInteger.WellFormed (BigInteger.ofLongLong 0) ∧
        (BigInteger.ofLongLong 0).value = 0 := by decide
    have h1 : BigInteger.WellFormed (BigInteger.ofLongLong 1) ∧
        (BigInteger.ofLongLong 1).value = 1 := by decide
    rw [euclidN, BigInteger.opEq_of_wellFormed hb h0.1, BigInteger.opEq_of_wellFormed hb h1.1,
      h0.2, h1.2]
    by_cases hb0 : b.value = 0
    · rw [if_pos (by simpa using hb0)]
      refine ⟨a, rfl, ha, ?_⟩
      rw [hb0, Int.gcd_zero_right]; omega
    · rw [if_neg (by simpa using hb0)]
      by_cases hb1 : b.value = 1
      · rw [if_pos (by simpa using hb1)]
        refine ⟨BigInteger.ofLongLong 1, rfl, h1.1, ?_⟩
        rw [h1.2, hb1]; simp
      · rw [if_neg (by simpa using hb1)]
        have hBpos : 0 < b.value := by omega
        have hsb' : b.sign_ = .POSITIVE := hb.sign_positive_iff.2 hBpos
        have hlen := BigInteger.length_le_value ha hsa
        obtain ⟨r, m, r1, r2, r3, r4, r5, r6, r7⟩ :=
          BigInteger.opMod_pos_spec ha hsa hb hsb' fuel (by omega)
        have hsum : b.value + r.value ≤ a.value + b.value := by
          by_cases hlt : a.value < b.value
          · have := r6 hlt; omega
          · have := r7 (by omega); omega
        have hdep : 2 * (b.value + r.value) + (if b.value < r.value then 1 else 0) + 1
            ≤ (depth : Int) := by
          by_cases hlt : a.value < b.value
          · have := r6 hlt
            rw [if_pos hlt] at hd
            rw [if_neg (by omega)]
            push_cast at hd
            omega
          · have := r7 (by omega)
            rw [if_neg hlt] at hd
            push_cast at hd
            split_ifs <;> omega
        obtain ⟨g, g1, g2, g3⟩ := ih b r hb hsb' r2 r3 hdep (by omega)
        simp only [r1, bind, Except.bind]
        refine ⟨g, g1, g2, ?_⟩
        rw [g3, r4, gcd_sub_mul_step]

/-- The function `euclid` on well-formed positive operands returns their greatest common
divisor once the budget covers twice the sum of the operands. -/
theorem euclid_spec {a b : BigInteger} (ha : BigInteger.WellFormed a)
    (hsa : a.sign_ = .POSITIVE) (hb : BigInteger.WellFormed b) (hsb : b.sign_ = .POSITIVE)
    (fuel : Nat) (hf : 2 * (a.value + b.value) + 31 ≤ (fuel : Int)) :
    ∃ g, euclid fuel a b = .ok g ∧ BigInteger.WellFormed g ∧
      g.value = (Int.gcd a.value b.value : Int) := by
  have hA : 0 < a.value := ha.sign_positive_iff.1 hsa
  have hB : 0 < b.value := hb.sign_positive_iff.1 hsb
  refine euclidN_spec fuel fuel a b ha hsa hb (by rw [hsb]; simp) ?_ hf
  split_ifs <;> omega

namespace BigInteger

/-! ## The claims on remainders, order and the digit search -/

/-- C16: for a well-formed `a` and a well-formed nonzero `b`, once the budget covers the
division loops, `a / b` and `a % b` are computed; the remainder is the zero value or has
the sign of the dividend `a`, and the quotient does not over-shoot:
`|value (a / b)| * |value b| ≤ |value a|`. -/
theorem C16_remainder_sign (a b : BigInteger) (ha : WellFormed a) (hb : WellFormed b)
    (hb0 : b.sign_ ≠ .ZERO) (fuel : Nat) (hf : 2 * a.digits_.length + 31 ≤ fuel) :
    ∃ q r, opDiv fuel a b = .ok q ∧ opMod fuel a b = .ok r ∧
      (r = ofLongLong 0 ∨ r.sign_ = a.sign_) ∧ |value q| * |value b| ≤ |value a| := by
  obtain ⟨q, r, h1, h2, _, hr, hs, hle⟩ := mod_sign_spec ha hb hb0 fuel hf
  refine ⟨q, r, h1, h2, ?_, hle⟩
  rcases hs with hz | hs
  · left
    have hd := hr.2.1 hz
    rw [ofLongLong_zero]
    cases r
    simp_all
  · exact Or.inr hs

/-- C16, instance: `a = -1999999999999`, `b = 7`. -/
theorem C16_remainder_sign_witness :
    ∃ q r, opDiv 40 (ofLongLong (-1999999999999)) (ofLongLong 7) = .ok q ∧
      opMod 40 (ofLongLong (-1999999999999)) (ofLongLong 7) = .ok r ∧
      (r = ofLongLong 0 ∨ r.sign_ = (ofLongLong (-1999999999999)).sign_) ∧
      |value q| * |value (ofLongLong 7)| ≤ |value (ofLongLong (-1999999999999))| :=
  C16_remainder_sign (ofLongLong (-1999999999999)) (ofLongLong 7) (by decide) (by decide)
    (by decide) 40 (by decide)

/-- C20 (the code departs from the claim): for a well-formed non-negative `m`, a
well-formed positive `d` and the digit `q` in `[0, BASE)` with `q * d ≤ m < (q + 1) * d`,
`find_quotient(0, BASE - 1, m, d)` returns `q` unless `q` is the top digit `BASE - 1`; for
the top digit it returns `BASE - 2`. -/
theorem C20_find_quotient_top_digit (m d : BigInteger) (hm : WellFormed m)
    (hmn : m.sign_ ≠ .NEGATIVE) (hd : WellFormed d) (hdp : 0 < value d)
    (q : Int) (_hq0 : 0 ≤ q) (hq1 : q < BASE)
    (hlo : q * value d ≤ value m) (hhi : value m < (q + 1) * value d)
    (fuel : Nat) (hf : 31 ≤ fuel) :
    ∃ r, find_quotient fuel (ofLongLong 0) (ofLongLong (BASE - 1)) m d = .ok r ∧
      WellFormed r ∧ value r = if q = BASE - 1 then BASE - 2 else q :=
  find_quotient_digit hm hmn hd hdp q hq1 hlo hhi fuel hf

/-- C20, failing input: `m = 1999999999`, `d = 2`, whose quotient digit is the top digit
`999999999`; the search returns `999999998`. -/
theorem C20_find_quotient_top_digit_witness :
    find_quotient 31 (ofLongLong 0) (ofLongLong (BASE - 1)) (ofLongLong 1999999999)
        (ofLongLong 2) = .ok (ofLongLong 999999998) ∧
    ∃ r, find_quotient 31 (ofLongLong 0) (ofLongLong (BASE - 1)) (ofLongLong 1999999999)
        (ofLongLong 2) = .ok r ∧
      WellFormed r ∧
      value r = if (999999999 : Int) = BASE - 1 then BASE - 2 else 999999999 :=
  ⟨by decide!,
   C20_find_quotient_top_digit (ofLongLong 1999999999) (ofLongLong 2) (by decide) (by decide)
    (by decide) (by decide) 999999999 (by decide) (by decide) (by decide) (by decide)
    31 (by decide)⟩

/-- C18: on well-formed values `operator<` and `operator==` form a strict total order:
`a < a` is false, `a < b` and `b < c` give `a < c`, exactly one of `a < b`, `a == b`,
`b < a` is true, and `a == b` holds exactly when neither `a < b` nor `b < a` does.  (The
order is the one the code implements; among negative values with equally many groups it is
not the numeric one.) -/
theorem C18_strict_total_order (a b c : BigInteger) (ha : WellFormed a) (hb : WellFormed b)
    (hc : WellFormed c) :
    opLt a a = false ∧
    (opLt a b = true → opLt b c = true → opLt a c = true) ∧
    ((opLt a b = true ∧ opEq a b = false ∧ opLt b a = false) ∨
     (opLt a b = false ∧ opEq a b = true ∧ opLt b a = false) ∨
     (opLt a b = false ∧ opEq a b = false ∧ opLt b a = true)) ∧
    (opEq a b = true ↔ (opLt a b = false ∧ opLt b a = false)) := by
  rw [opLt_eq_rank ha ha, opLt_eq_rank ha hb, opLt_eq_rank hb hc, opLt_eq_rank ha hc,
    opLt_eq_rank hb ha, opEq_eq_rank ha hb]
  simp only [decide_eq_true_eq, decide_eq_false_iff_not]
  refine ⟨by omega, fun h1 h2 => by omega, ?_, by omega⟩
  rcases lt_trichotomy (orderRank a) (orderRank b) with h | h | h
  · exact Or.inl ⟨h, by omega, by omega⟩
  · exact Or.inr (Or.inl ⟨by omega, h, by omega⟩)
  · exact Or.inr (Or.inr ⟨by omega, by omega, h⟩)

/-- C18, instance: `a = -5`, `b = -3`, `c = 7`. -/
theorem C18_strict_total_order_witness :
    opLt (ofLongLong (-5)) (ofLongLong (-5)) = false ∧
    (opLt (ofLongLong (-5)) (ofLongLong (-3)) = true → opLt (ofLongLong (-3)) (ofLongLong 7) = true →
      opLt (ofLongLong (-5)) (ofLongLong 7) = true) ∧
    ((opLt (ofLongLong (-5)) (ofLongLong (-3)) = true ∧
        opEq (ofLongLong (-5)) (ofLongLong (-3)) = false ∧
        opLt (ofLongLong (-3)) (ofLongLong (-5)) = false) ∨
     (opLt (ofLongLong (-5)) (ofLongLong (-3)) = false ∧
        opEq (ofLongLong (-5)) (ofLongLong (-3)) = true ∧
        opLt (ofLongLong (-3)) (ofLongLong (-5)) = false) ∨
     (opLt (ofLongLong (-5)) (ofLongLong (-3)) = false ∧
        opEq (ofLongLong (-5)) (ofLongLong (-3)) = false ∧
        opLt (ofLongLong (-3)) (ofLongLong (-5)) = true)) ∧
    (opEq (ofLongLong (-5)) (ofLongLong (-3)) = true ↔
      (opLt (ofLongLong (-5)) (ofLongLong (-3)) = false ∧
        opLt (ofLongLong (-3)) (ofLongLong (-5)) = false)) :=
  C18_strict_total_order (ofLongLong (-5)) (ofLongLong (-3)) (ofLongLong 7) (by decide)
    (by decide) (by decide)

/-- C15 (the code departs from the claim): for every `long long` other than the minimum the
constructor builds a well-formed value denoting its argument, as at `2^63 - 1` and
`-2^63 + 1`; at the minimum `-2^63` the negation `num *= -1` wraps back to `-2^63`, no
group is written, and the value has an empty group vector, so it is not well-formed and
`toString` reads outside the vector. -/
theorem C15_minimum_has_no_groups :
    (∀ n : Int, -9223372036854775808 < n → n < 9223372036854775808 →
      WellFormed (ofLongLong n) ∧ value (ofLongLong n) = n) ∧
    toString (ofLongLong 9223372036854775807) = .ok "9223372036854775807".toList ∧
    toString (ofLongLong (-9223372036854775807)) = .ok "-9223372036854775807".toList ∧
    ofLongLong (-9223372036854775808) = { digits_ := [], sign_ := .NEGATIVE } ∧
    ¬ WellFormed (ofLongLong (-9223372036854775808)) ∧
    toString (ofLongLong (-9223372036854775808)) = .error .outOfBounds :=
  ⟨fun _ h0 h1 => ofLongLong_spec h0 h1, by decide, by decide, by decide, by decide, by decide⟩

/-- C19 (the code departs from the claim): `"-0"` matches `-?[0-9]+` and is turned into the
group `[0]` with sign `NEGATIVE`: the value is zero, the sign is not `ZERO`, and the result
does not compare equal to `BigInteger(0)`; `"-0000000001"` is turned into the groups
`[1, 0]`, with a zero most-significant group.  The sibling paths keep the invariants: the
text `"0"` and the integer `0` both give the group `[0]` with sign `ZERO`, and a signed
text such as `"-07"`, whose most-significant chunk is not all zeros, gives a well-formed
value.  In general, every text matching `-?[0-9]+` is turned into a value, and that value
is well-formed unless the text has a minus sign and its most-significant chunk is all
zeros. -/
theorem C19_minus_zero_not_zero :
    isSignedDigits "-0".toList = true ∧
    ofString "-0".toList = .ok { digits_ := [0], sign_ := .NEGATIVE } ∧
    ¬ WellFormed { digits_ := [0], sign_ := .NEGATIVE } ∧
    value { digits_ := [0], sign_ := .NEGATIVE } = 0 ∧
    opEq { digits_ := [0], sign_ := .NEGATIVE } (ofLongLong 0) = false ∧
    isSignedDigits "-0000000001".toList = true ∧
    ofString "-0000000001".toList = .ok { digits_ := [1, 0], sign_ := .NEGATIVE } ∧
    ¬ WellFormed { digits_ := [1, 0], sign_ := .NEGATIVE } ∧
    ofString "0".toList = .ok { digits_ := [0], sign_ := .ZERO } ∧
    ofLongLong 0 = { digits_ := [0], sign_ := .ZERO } ∧
    ofString "-07".toList = .ok { digits_ := [7], sign_ := .NEGATIVE } ∧
    WellFormed { digits_ := [7], sign_ := .NEGATIVE } ∧
    (∀ s : List Char, isSignedDigits s = true →
      ∃ a, ofString s = .ok a ∧
        (WellFormed a ↔
          ¬ (s.head? = some '-' ∧ (topChunk s.tail).all (fun c => c == '0') = true))) :=
  ⟨by decide, by decide, by decide, by decide, by decide, by decide, by decide, by decide,
   by decide, by decide, by decide, by decide, fun _ h => ofString_wellFormed_iff h⟩

end BigInteger

namespace Rational

/-- C17: for valid rationals `x` and `y`, `x < y` is computed and is true exactly when
`value x < value y`, and `x == y` is true exactly when `value x = value y`. -/
theorem C17_rational_comparison (x y : Rational) (hx : Valid x) (hy : Valid y) :
    (∃ b, opLt x y = .ok b ∧ (b = true ↔ value x < value y)) ∧
    (opEq x y = true ↔ value x = value y) := by
  refine ⟨⟨_, opLt_of_valid hx hy, by simp⟩, ?_⟩
  rw [opEq_of_valid hx hy]
  simp

/-- C17, instance: `x = -1/3`, `y = -1/2`. -/
theorem C17_rational_comparison_witness :
    (∃ b, opLt ⟨BigInteger.ofLongLong 1, BigInteger.ofLongLong 3, .NEGATIVE⟩
        ⟨BigInteger.ofLongLong 1, BigInteger.ofLongLong 2, .NEGATIVE⟩ = .ok b ∧
      (b = true ↔ value ⟨BigInteger.ofLongLong 1, BigInteger.ofLongLong 3, .NEGATIVE⟩ <
        value ⟨BigInteger.ofLongLong 1, BigInteger.ofLongLong 2, .NEGATIVE⟩)) ∧
    (opEq ⟨BigInteger.ofLongLong 1, BigInteger.ofLongLong 3, .NEGATIVE⟩
        ⟨BigInteger.ofLongLong 1, BigInteger.ofLongLong 2, .NEGATIVE⟩ = true ↔
      value ⟨BigInteger.ofLongLong 1, BigInteger.ofLongLong 3, .NEGATIVE⟩ =
        value ⟨BigInteger.ofLongLong 1, BigInteger.ofLongLong 2, .NEGATIVE⟩) :=
  C17_rational_comparison ⟨BigInteger.ofLongLong 1, BigInteger.ofLongLong 3, .NEGATIVE⟩
    ⟨BigInteger.ofLongLong 1, BigInteger.ofLongLong 2, .NEGATIVE⟩ (by decide) (by decide)

/-- C11 (the code departs from the claim): `Rational(1999999998) / Rational(4)` holds
numerator `999999998` and denominator `2`, which share the factor 2 (the number is
`999999999/2`); the claim's own examples are computed as stated: `2/4` holds `1/2` and
renders as `"1/2"`, and `1/3 + 1/6` holds `1/2`. -/
theorem C11_not_lowest_terms :
    opDiv 40 (ofInt 1999999998) (ofInt 4)
      = .ok ⟨BigInteger.ofLongLong 999999998, BigInteger.ofLongLong 2, .POSITIVE⟩ ∧
    ¬ LowestTerms ⟨BigInteger.ofLongLong 999999998, BigInteger.ofLongLong 2, .POSITIVE⟩ ∧
    opDiv 40 (ofInt 2) (ofInt 4)
      = .ok ⟨BigInteger.ofLongLong 1, BigInteger.ofLongLong 2, .POSITIVE⟩ ∧
    toString ⟨BigInteger.ofLongLong 1, BigInteger.ofLongLong 2, .POSITIVE⟩ = .ok "1/2".toList ∧
    (do let a ← opDiv 40 (ofInt 1) (ofInt 3)
        let b ← opDiv 40 (ofInt 1) (ofInt 6)
        opAdd 40 a b)
      = .ok ⟨BigInteger.ofLongLong 1, BigInteger.ofLongLong 2, .POSITIVE⟩ := by
  decide!

/-- C12 (the code departs from the claim): for the valid rationals `1999999997/2` and
`1/2` (the values of `Rational(1999999997) / Rational(2)` and `Rational(1) / Rational(2)`),
whose exact sum is `999999999`, the sum is computed as `999999998`; the claim's own
example `1/3 + 1/6 = 1/2` is computed as stated. -/
theorem C12_sum_one_short :
    opDiv 40 (ofInt 1999999997) (ofInt 2)
      = .ok ⟨BigInteger.ofLongLong 1999999997, BigInteger.ofLongLong 2, .POSITIVE⟩ ∧
    opDiv 40 (ofInt 1) (ofInt 2)
      = .ok ⟨BigInteger.ofLongLong 1, BigInteger.ofLongLong 2, .POSITIVE⟩ ∧
    Valid ⟨BigInteger.ofLongLong 1999999997, BigInteger.ofLongLong 2, .POSITIVE⟩ ∧
    Valid ⟨BigInteger.ofLongLong 1, BigInteger.ofLongLong 2, .POSITIVE⟩ ∧
    opAdd 40 ⟨BigInteger.ofLongLong 1999999997, BigInteger.ofLongLong 2, .POSITIVE⟩
        ⟨BigInteger.ofLongLong 1, BigInteger.ofLongLong 2, .POSITIVE⟩
      = .ok ⟨BigInteger.ofLongLong 999999998, BigInteger.ofLongLong 1, .POSITIVE⟩ ∧
    value ⟨BigInteger.ofLongLong 1999999997, BigInteger.ofLongLong 2, .POSITIVE⟩ +
        value ⟨BigInteger.ofLongLong 1, BigInteger.ofLongLong 2, .POSITIVE⟩ = 999999999 ∧
    value ⟨BigInteger.ofLongLong 999999998, BigInteger.ofLongLong 1, .POSITIVE⟩ = 999999998 ∧
    opAdd 40 ⟨BigInteger.ofLongLong 1, BigInteger.ofLongLong 3, .POSITIVE⟩
        ⟨BigInteger.ofLongLong 1, BigInteger.ofLongLong 6, .POSITIVE⟩
      = .ok ⟨BigInteger.ofLongLong 1, BigInteger.ofLongLong 2, .POSITIVE⟩ := by
  have e1 : BigInteger.value (BigInteger.ofLongLong 1999999997) = 1999999997 := by decide
  have e2 : BigInteger.value (BigInteger.ofLongLong 2) = 2 := by decide
  have e3 : BigInteger.value (BigInteger.ofLongLong 1) = 1 := by decide
  have e4 : BigInteger.value (BigInteger.ofLongLong 999999998) = 999999998 := by decide
  refine ⟨by decide!, by decide!, by decide, by decide, by decide!, ?_, ?_, by decide!⟩
  · simp only [value, e1, e2, e3, sign.toInt]
    norm_num
  · simp only [value, e3, e4, sign.toInt]
    norm_num

/-- C13 (the code departs from the claim): `(101/100).asDecimal(2)` is `"1.1"`, not
`"1.01"`: the zero-padding loop tests the whole scaled value `num`, not its fractional
part, so no zero is written after the point when the integer part is not zero.  The
claim's other example `(1/3).asDecimal(5) = "0.33333"` is computed as stated. -/
theorem C13_fraction_not_padded :
    Valid ⟨BigInteger.ofLongLong 101, BigInteger.ofLongLong 100, .POSITIVE⟩ ∧
    asDecimal 40 ⟨BigInteger.ofLongLong 101, BigInteger.ofLongLong 100, .POSITIVE⟩ 2
      = .ok "1.1".toList ∧
    asDecimal 40 ⟨BigInteger.ofLongLong 1, BigInteger.ofLongLong 3, .POSITIVE⟩ 5
      = .ok "0.33333".toList := by
  decide!

/-- C14 (the code departs from the claim): for the valid rational `1/1000` and precision 2
the truncated scaled value is zero, the condition `num * degree / pow == 0` of the
zero-padding loop holds at every pass, and `asDecimal` does not return: whatever the
iteration budget, it is used up. -/
theorem C14_padding_loop_diverges :
    Valid ⟨BigInteger.ofLongLong 1, BigInteger.ofLongLong 1000, .POSITIVE⟩ ∧
    ∀ fuel : Nat,
      asDecimal fuel ⟨BigInteger.ofLongLong 1, BigInteger.ofLongLong 1000, .POSITIVE⟩ 2
        = .error .outOfFuel :=
  ⟨by decide, asDecimal_diverges⟩

end Rational

/-- C21: for well-formed positive `a` and `b`, once the budget covers twice the sum of the
operands, `euclid(a, b)` returns, and its result is the well-formed value of the greatest
common divisor of `value a` and `value b`.  The remainders are those of the program's own
`operator%` (which may exceed the divisor when the quotient comes out one short), and a
second argument equal to 1 ends the recursion with the result 1. -/
theorem C21_euclid_gcd (a b : BigInteger) (ha : BigInteger.WellFormed a)
    (hsa : a.sign_ = .POSITIVE) (hb : BigInteger.WellFormed b) (hsb : b.sign_ = .POSITIVE)
    (fuel : Nat) (hf : 2 * (a.value + b.value) + 31 ≤ (fuel : Int)) :
    ∃ g, euclid fuel a b = .ok g ∧ BigInteger.WellFormed g ∧
      g.value = (Int.gcd a.value b.value : Int) :=
  euclid_spec ha hsa hb hsb fuel hf

/-- C21, instances: `a = 12`, `b = 18`, with the result 6; and `a = 3999999996`, `b = 4`,
where the program computes `a % b` as 4 and the result is still the divisor 4. -/
theorem C21_euclid_gcd_witness :
    euclid 91 (BigInteger.ofLongLong 12) (BigInteger.ofLongLong 18)
      = .ok (BigInteger.ofLongLong 6) ∧
    BigInteger.opMod 8000000031 (BigInteger.ofLongLong 3999999996) (BigInteger.ofLongLong 4)
      = .ok (BigInteger.ofLongLong 4) ∧
    euclid 8000000031 (BigInteger.ofLongLong 3999999996) (BigInteger.ofLongLong 4)
      = .ok (BigInteger.ofLongLong 4) ∧
    (∃ g, euclid 91 (BigInteger.ofLongLong 12) (BigInteger.ofLongLong 18) = .ok g ∧
      BigInteger.WellFormed g ∧
      g.value = (Int.gcd (BigInteger.ofLongLong 12).value (BigInteger.ofLongLong 18).value : Int)) ∧
    (∃ g, euclid 8000000031 (BigInteger.ofLongLong 3999999996) (BigInteger.ofLongLong 4) = .ok g ∧
      BigInteger.WellFormed g ∧
      g.value = (Int.gcd (BigInteger.ofLongLong 3999999996).value
        (BigInteger.ofLongLong 4).value : Int)) :=
  ⟨by decide!, by decide!, by decide!,
   C21_euclid_gcd (BigInteger.ofLongLong 12) (BigInteger.ofLongLong 18) (by decide) (by decide)
     (by decide) (by decide) 91 (by decide),
   C21_euclid_gcd (BigInteger.ofLongLong 3999999996) (BigInteger.ofLongLong 4) (by decide)
     (by decide) (by decide) (by decide) 8000000031 (by decide)⟩

namespace BigInteger

/-- C22: `find_quotient(0, BASE - 1, number, divider)` never returns its upper bound.  For
every `number` and `divider`, well-formed or not, a returned value is well-formed and lies
in `[0, BASE - 2]`; and for well-formed `number` and `divider` of any sign a value is
returned once the budget covers the 30 halvings of the interval. -/
theorem C22_upper_bound_never_returned (number divider : BigInteger) (fuel : Nat) :
    (∀ q, find_quotient fuel (ofLongLong 0) (ofLongLong (BASE - 1)) number divider = .ok q →
      WellFormed q ∧ 0 ≤ value q ∧ value q ≤ BASE - 2) ∧
    (WellFormed number → WellFormed divider → 31 ≤ fuel →
      ∃ q, find_quotient fuel (ofLongLong 0) (ofLongLong (BASE - 1)) number divider = .ok q ∧
        value q ≤ BASE - 2) := by
  refine ⟨fun q h => find_quotient_le number divider fuel q h, fun _ hd hf => ?_⟩
  obtain ⟨q, hq⟩ := find_quotient_returns number hd fuel hf
  exact ⟨q, hq, (find_quotient_le number divider fuel q hq).2.2⟩

/-- C22, instance: `number = 1999999999`, `divider = 2`, whose quotient digit would be the
upper bound `999999999`; the value returned is `999999998`. -/
theorem C22_upper_bound_never_returned_witness :
    find_quotient 31 (ofLongLong 0) (ofLongLong (BASE - 1)) (ofLongLong 1999999999)
        (ofLongLong 2) = .ok (ofLongLong 999999998) ∧
    ∃ q, find_quotient 31 (ofLongLong 0) (ofLongLong (BASE - 1)) (ofLongLong 1999999999)
        (ofLongLong 2) = .ok q ∧ value q ≤ BASE - 2 :=
  ⟨by decide!,
   (C22_upper_bound_never_returned (ofLongLong 1999999999) (ofLongLong 2) 31).2 (by decide)
     (by decide) (by decide)⟩

end BigInteger
